import Mathlib

/-!
# routing/pq.go : an indexed priority queue on top of Go's container/heap

The Go file declares `Item`, `PriorityQueue` (a slice of item pointers), the five
methods of `heap.Interface` (`Len`, `Less`, `Swap`, `Push`, `Pop`) and the three
operations `push`, `pop` and `update`, which call `heap.Push`, `heap.Pop` and
`heap.Fix`.  Those three and their helpers `up` and `down` belong to the Go
standard library (package container/heap), not to the repository; they are
translated here from the library source, which is quoted at each definition.

Modelling conventions.

* For a single call, a queue is the list of its items in array order: the items
  of the queue are taken to be distinct objects, and the list holds their field
  values.
* For sequences of calls, in which the caller may hand `push` an item that is in
  the queue already, the state is a `Store`: the item objects, and the queue as a
  slice of pointers to them.  On a store whose slots point to distinct items the
  code on the store does what the code on the list of items does (`step_view`).
* Go `int` is modelled by `Int`.  For slices of fewer than 2^62 elements none of
  the index computations below overflows, and for an index outside the slice the
  overflowed and the exact computation lead to the same outcome (see
  `heapFix_outside`).
* `float64` priorities are only ever compared with `<`, never computed with, so
  `F64` models the comparison structure of float64: NaN, the two infinities and
  the finite values (rationals include every finite double; `-0` and `+0`, which
  compare equal, are identified).
* A run-time panic (index out of range) is an outcome of its own; it carries the
  queue contents at the moment of the panic.
* Where an item goes cannot be read off a list of field values (two entries may
  agree in all fields), so for statements about the slot of an entry the code is
  run with bookkeeping: `updateT` and its helpers are `update` and its helpers
  with one more argument, a slot, which every `Swap` carries along.  Without that
  argument they are the original functions (`updateT_erase`), and the slot they
  return holds what the tracked slot held (`updateT_tracks`).
* Loops are unrolled with a fuel argument that `up` and `down` set to the length
  of the queue plus one; running out of fuel is a third outcome, so that a
  theorem stating an `ok` or `panic` outcome also states that the fuel sufficed
  (`fuel_suffices` says that it always does).
-/

namespace Routing

/-- Model of float64 as far as comparisons go. -/
inductive F64 where
  | nan
  | negInf
  | fin (q : ℚ)
  | posInf
deriving DecidableEq

/-- Go `a < b` on float64: false whenever an operand is NaN. -/
def F64.lt : F64 → F64 → Bool
  | .nan, _ => false
  | _, .nan => false
  | _, .negInf => false
  | .negInf, _ => true
  | .posInf, _ => false
  | .fin _, .posInf => true
  | .fin a, .fin b => decide (a < b)

/-- Go `a <= b` on float64: false whenever an operand is NaN. -/
def F64.le : F64 → F64 → Bool
  | .nan, _ => false
  | _, .nan => false
  | .negInf, _ => true
  | _, .posInf => true
  | .posInf, _ => false
  | .fin _, .negInf => false
  | .fin a, .fin b => decide (a ≤ b)

/-- Go `a != a`, the NaN test. -/
def F64.isNaN : F64 → Bool
  | .nan => true
  | _ => false

/-- The struct `Item`: `value int64`, `priority float64`, `index int`. -/
structure Item where
  value : Int
  priority : F64
  index : Int
deriving DecidableEq

/-- The type `PriorityQueue []*Item`, as the list of the pointed-to items. -/
abbrev PriorityQueue := List Item

/-- Result of running code that may panic: `ok` is a normal return, `panic` the
run-time panic of an index out of range, with the queue as it is at that moment. -/
inductive Outcome (α : Type) where
  | ok (a : α)
  | panic (pq : PriorityQueue)
  | outOfFuel
deriving DecidableEq

/-- The queue a run ends with, for outcomes whose value is a queue. -/
def Outcome.final : Outcome PriorityQueue → Option PriorityQueue
  | .ok pq => some pq
  | .panic pq => some pq
  | .outOfFuel => none

/-- The index expression `pq[i]`; `none` is the index-out-of-range panic. -/
def PriorityQueue.elem (pq : PriorityQueue) (i : Int) : Option Item :=
  if 0 ≤ i then pq[i.toNat]? else none

/-- Method `Len`. -/
def PriorityQueue.Len (pq : PriorityQueue) : Int := pq.length

/-- Method `Less`: `pq[i].priority < pq[j].priority`. -/
def PriorityQueue.Less (pq : PriorityQueue) (i j : Int) : Option Bool :=
  match pq.elem i, pq.elem j with
  | some a, some b => some (a.priority.lt b.priority)
  | _, _ => none

/-- Method `Swap`: exchange the two slots, then store each slot number in the
item now sitting there. -/
def PriorityQueue.Swap (pq : PriorityQueue) (i j : Int) : Option PriorityQueue :=
  match pq.elem i, pq.elem j with
  | some a, some b =>
    some ((pq.set i.toNat { b with index := i }).set j.toNat { a with index := j })
  | _, _ => none

/-- Method `Push`: `item.index = n`, then append. -/
def PriorityQueue.Push (pq : PriorityQueue) (x : Item) : PriorityQueue :=
  pq ++ [{ x with index := pq.Len }]

/-- Method `Pop`: take `old[n-1]`, set its index to -1, shrink the slice. -/
def PriorityQueue.Pop (pq : PriorityQueue) : Option (Item × PriorityQueue) :=
  match pq.elem (pq.Len - 1) with
  | none => none
  | some item => some ({ item with index := -1 }, pq.take (pq.Len - 1).toNat)

/-- The loop of `heap.up` (container/heap):

    func up(h Interface, j int) {
      for {
        i := (j - 1) / 2 // parent
        if i == j || !h.Less(j, i) { break }
        h.Swap(i, j)
        j = i
      }
    }

Go's `/` truncates toward zero, hence `Int.tdiv`. -/
def upLoop : Nat → PriorityQueue → Int → Outcome PriorityQueue
  | 0, _, _ => .outOfFuel
  | fuel + 1, pq, j =>
    let i := (j - 1).tdiv 2
    if i = j then .ok pq
    else
      match pq.Less j i with
      | none => .panic pq
      | some false => .ok pq
      | some true =>
        match pq.Swap i j with
        | none => .panic pq
        | some pq1 => upLoop fuel pq1 i

/-- Function `heap.up`. -/
def up (pq : PriorityQueue) (j : Int) : Outcome PriorityQueue :=
  upLoop (pq.length + 1) pq j

/-- The loop of `heap.down` (container/heap); the result is the final value of
`i` and the queue:

    func down(h Interface, i0, n int) bool {
      i := i0
      for {
        j1 := 2*i + 1
        if j1 >= n || j1 < 0 { break } // j1 < 0 after int overflow
        j := j1 // left child
        if j2 := j1 + 1; j2 < n && h.Less(j2, j1) { j = j2 }
        if !h.Less(j, i) { break }
        h.Swap(i, j)
        i = j
      }
      return i > i0
    }
-/
def downLoop : Nat → PriorityQueue → Int → Int → Outcome (Int × PriorityQueue)
  | 0, _, _, _ => .outOfFuel
  | fuel + 1, pq, i, n =>
    let j1 := 2 * i + 1
    if j1 ≥ n ∨ j1 < 0 then .ok (i, pq)
    else
      let j2 := j1 + 1
      match (if j2 < n then pq.Less j2 j1 else some false) with
      | none => .panic pq
      | some right =>
        let j := if right then j2 else j1
        match pq.Less j i with
        | none => .panic pq
        | some false => .ok (i, pq)
        | some true =>
          match pq.Swap i j with
          | none => .panic pq
          | some pq1 => downLoop fuel pq1 j n

/-- Function `heap.down`: reports whether the element moved. -/
def down (pq : PriorityQueue) (i0 n : Int) : Outcome (Bool × PriorityQueue) :=
  match downLoop (pq.length + 1) pq i0 n with
  | .ok (i, pq1) => .ok (decide (i > i0), pq1)
  | .panic pq1 => .panic pq1
  | .outOfFuel => .outOfFuel

/-- Function `heap.Push` (container/heap): `h.Push(x); up(h, h.Len()-1)`. -/
def heapPush (pq : PriorityQueue) (x : Item) : Outcome PriorityQueue :=
  let pq1 := pq.Push x
  up pq1 (pq1.Len - 1)

/-- Function `heap.Pop` (container/heap):
`n := h.Len() - 1; h.Swap(0, n); down(h, 0, n); return h.Pop()`. -/
def heapPop (pq : PriorityQueue) : Outcome (Item × PriorityQueue) :=
  let n := pq.Len - 1
  match pq.Swap 0 n with
  | none => .panic pq
  | some pq1 =>
    match down pq1 0 n with
    | .panic pq2 => .panic pq2
    | .outOfFuel => .outOfFuel
    | .ok (_, pq2) =>
      match pq2.Pop with
      | none => .panic pq2
      | some r => .ok r

/-- Function `heap.Fix` (container/heap): `if !down(h, i, h.Len()) { up(h, i) }`. -/
def heapFix (pq : PriorityQueue) (i : Int) : Outcome PriorityQueue :=
  match down pq i pq.Len with
  | .panic pq1 => .panic pq1
  | .outOfFuel => .outOfFuel
  | .ok (moved, pq1) => if moved then .ok pq1 else up pq1 i

/-- Method `push`: `heap.Push(pq, item)`. -/
def push (pq : PriorityQueue) (item : Item) : Outcome PriorityQueue :=
  heapPush pq item

/-- Method `pop`: `return heap.Pop(pq).(*Item)`. -/
def pop (pq : PriorityQueue) : Outcome (Item × PriorityQueue) :=
  heapPop pq

/-- The `range` loop of `update` up to its `break`: the first item whose value
matches, with the slot it is found at. -/
def firstMatch (value : Int) : PriorityQueue → Option (Nat × Item)
  | [] => none
  | item :: rest =>
    if item.value = value then some (0, item)
    else (firstMatch value rest).map (fun r => (r.1 + 1, r.2))

/-- Method `update`: the first item whose value matches gets the new priority,
then `heap.Fix(pq, item.index)`; without a match nothing happens. -/
def update (pq : PriorityQueue) (value : Int) (priority : F64) : Outcome PriorityQueue :=
  match firstMatch value pq with
  | none => .ok pq
  | some (k, item) => heapFix (pq.set k { item with priority := priority }) item.index

/-! ## Notions used in the statements and proofs -/

/-- Effect of `Swap` on two slots that are inside the slice. -/
def swapN (pq : PriorityQueue) (i j : Nat) : PriorityQueue :=
  match pq[i]?, pq[j]? with
  | some a, some b => (pq.set i { b with index := i }).set j { a with index := j }
  | _, _ => pq

/-- Priority stored at slot `k` (NaN outside the slice, where nothing is stored). -/
def prioAt (pq : PriorityQueue) (k : Nat) : F64 :=
  match pq[k]? with
  | some a => a.priority
  | none => .nan

/-- The child that one round of `heap.down` compares with slot `i`: the right
child when it lies below `n` and is smaller than the left one, else the left one;
`none` when slot `i` has no child below `n`. -/
def minChild (pq : PriorityQueue) (n i : Nat) : Option Nat :=
  if n ≤ 2 * i + 1 then none
  else if 2 * i + 2 < n ∧ (prioAt pq (2 * i + 2)).lt (prioAt pq (2 * i + 1)) = true then
    some (2 * i + 2)
  else some (2 * i + 1)

/-- The (identifier, priority) pairs of a queue, in array order. -/
def keys (pq : PriorityQueue) : List (Int × F64) :=
  pq.map (fun a => (a.value, a.priority))

/-- Slot invariant: the item stored at array position `i` has `index = i`. -/
def SlotsConsistent (pq : PriorityQueue) : Prop :=
  ∀ i : Nat, i < pq.length → (pq[i]?).map (fun a => a.index) = some (i : Int)

instance (pq : PriorityQueue) : Decidable (SlotsConsistent pq) := by
  unfold SlotsConsistent; infer_instance

/-- No item of the queue has a NaN priority. -/
def NoNaN (pq : PriorityQueue) : Prop :=
  ∀ a ∈ pq, a.priority.isNaN = false

/-- Heap invariant: the priority at every non-root slot `i` is `>=` (Go
comparison) the priority at its parent slot `(i-1)/2`. -/
def HeapInvariant (pq : PriorityQueue) : Prop :=
  ∀ i : Nat, i < pq.length → 0 < i → (prioAt pq ((i - 1) / 2)).le (prioAt pq i) = true

/-- Queues obtained from a queue by swaps (method `Swap`) of slots below `n`. -/
inductive SwapReach (n : Nat) (pq : PriorityQueue) : PriorityQueue → Prop where
  | refl : SwapReach n pq pq
  | step (pq1 : PriorityQueue) (i j : Nat) : SwapReach n pq pq1 → i < n → j < n →
      SwapReach n pq (swapN pq1 i j)

/-- Invariant of the loop of `heap.up` when it stands at slot `k` of a queue of
length `L` without NaN: the heap order holds at every slot but `k`, and the
children of `k` are in order with the parent of `k`. -/
def UpInv (L : Nat) (q : PriorityQueue) (k : Nat) : Prop :=
  q.length = L ∧ k < L ∧ (∀ m, m < L → (prioAt q m).isNaN = false) ∧
  (∀ m, m < L → 0 < m → m ≠ k → (prioAt q ((m - 1) / 2)).le (prioAt q m) = true) ∧
  (∀ m, m < L → 0 < m → (m - 1) / 2 = k → 0 < k →
    (prioAt q ((k - 1) / 2)).le (prioAt q m) = true)

/-- Invariant of the loop of `heap.down` (started at slot `i0`, bound `n`) when it
stands at slot `i` of a queue of length `L` without NaN: below `n` the heap order
holds on every edge that does not touch `i`, the children of `i` are in order
with the parent of `i`, and once the loop has moved, `i` is in order with its
parent. -/
def DownInv (L n i0 : Nat) (q : PriorityQueue) (i : Nat) : Prop :=
  q.length = L ∧ n ≤ L ∧ i < L ∧ i0 ≤ i ∧ (∀ m, m < L → (prioAt q m).isNaN = false) ∧
  (∀ m, m < n → 0 < m → m ≠ i → (m - 1) / 2 ≠ i →
    (prioAt q ((m - 1) / 2)).le (prioAt q m) = true) ∧
  (∀ m, m < n → 0 < m → (m - 1) / 2 = i → 0 < i →
    (prioAt q ((i - 1) / 2)).le (prioAt q m) = true) ∧
  (i0 < i → (prioAt q ((i - 1) / 2)).le (prioAt q i) = true)

/-- One call of one of the three operations of the queue; a `push` is given the
field values of the item it pushes, a newly allocated one (its index field is
whatever the caller wrote there). -/
inductive Op where
  | push (item : Item)
  | pop
  | update (value : Int) (priority : F64)
deriving DecidableEq

/-- The priority a call passes in, if any, is not NaN. -/
def Op.notNaN : Op → Bool
  | .push item => !item.priority.isNaN
  | .pop => true
  | .update _ priority => !priority.isNaN

/-- The queue after one call (the entry a `pop` returns is dropped). -/
def step (pq : PriorityQueue) : Op → Outcome PriorityQueue
  | .push item => push pq item
  | .pop =>
    match pop pq with
    | .ok (_, pq1) => .ok pq1
    | .panic q => .panic q
    | .outOfFuel => .outOfFuel
  | .update value priority => update pq value priority

/-- The queue after a sequence of calls, made one after the other. -/
def runOps : List Op → PriorityQueue → Outcome PriorityQueue
  | [], pq => .ok pq
  | op :: rest, pq =>
    match step pq op with
    | .ok pq1 => runOps rest pq1
    | .panic q => .panic q
    | .outOfFuel => .outOfFuel

/-- Whether the sequence of calls, started on `pq`, applies a `pop` to an empty
queue. -/
def popsEmpty : List Op → PriorityQueue → Bool
  | [], _ => false
  | op :: rest, pq =>
    if op = .pop ∧ pq = [] then true
    else
      match step pq op with
      | .ok pq1 => popsEmpty rest pq1
      | _ => false

/-- Number of `push` calls in a sequence of calls. -/
def numPush (ops : List Op) : Nat :=
  ops.countP (fun op => match op with | .push _ => true | _ => false)

/-- Number of `pop` calls in a sequence of calls. -/
def numPop (ops : List Op) : Nat :=
  ops.countP (fun op => match op with | .pop => true | _ => false)

/-- The entries returned by `n` calls of `pop` in a row, in the order returned,
and the queue left. -/
def popN : Nat → PriorityQueue → Outcome (List Item × PriorityQueue)
  | 0, pq => .ok ([], pq)
  | n + 1, pq =>
    match pop pq with
    | .ok (item, pq1) =>
      match popN n pq1 with
      | .ok (items, pq2) => .ok (item :: items, pq2)
      | .panic q => .panic q
      | .outOfFuel => .outOfFuel
    | .panic q => .panic q
    | .outOfFuel => .outOfFuel

/-- The queue after pushing the given items one after the other. -/
def pushAll (items : List Item) (pq : PriorityQueue) : Outcome PriorityQueue :=
  runOps (items.map Op.push) pq

/-! ## The same code, keeping track of where one item goes -/

/-- Applies a function to the value an outcome returns. -/
def Outcome.map {α β : Type} (f : α → β) : Outcome α → Outcome β
  | .ok a => .ok (f a)
  | .panic q => .panic q
  | .outOfFuel => .outOfFuel

/-- Bookkeeping for `Swap(i, j)`: the slot at which the item that stood at slot
`t` before the swap stands after it. -/
def track (i j : Int) (t : Nat) : Nat :=
  if (t : Int) = i then j.toNat else if (t : Int) = j then i.toNat else t

/-- The loop of `heap.up` as in `upLoop`, carrying along the slot `t` of one item
through every swap. -/
def upLoopT : Nat → PriorityQueue → Int → Nat → Outcome (PriorityQueue × Nat)
  | 0, _, _, _ => .outOfFuel
  | fuel + 1, pq, j, t =>
    let i := (j - 1).tdiv 2
    if i = j then .ok (pq, t)
    else
      match pq.Less j i with
      | none => .panic pq
      | some false => .ok (pq, t)
      | some true =>
        match pq.Swap i j with
        | none => .panic pq
        | some pq1 => upLoopT fuel pq1 i (track i j t)

/-- Function `heap.up` as in `up`, carrying along the slot `t` of one item. -/
def upT (pq : PriorityQueue) (j : Int) (t : Nat) : Outcome (PriorityQueue × Nat) :=
  upLoopT (pq.length + 1) pq j t

/-- The loop of `heap.down` as in `downLoop`, carrying along the slot `t` of one
item through every swap. -/
def downLoopT : Nat → PriorityQueue → Int → Int → Nat →
    Outcome (Int × PriorityQueue × Nat)
  | 0, _, _, _, _ => .outOfFuel
  | fuel + 1, pq, i, n, t =>
    let j1 := 2 * i + 1
    if j1 ≥ n ∨ j1 < 0 then .ok (i, pq, t)
    else
      let j2 := j1 + 1
      match (if j2 < n then pq.Less j2 j1 else some false) with
      | none => .panic pq
      | some right =>
        let j := if right then j2 else j1
        match pq.Less j i with
        | none => .panic pq
        | some false => .ok (i, pq, t)
        | some true =>
          match pq.Swap i j with
          | none => .panic pq
          | some pq1 => downLoopT fuel pq1 j n (track i j t)

/-- Function `heap.down` as in `down`, carrying along the slot `t` of one item. -/
def downT (pq : PriorityQueue) (i0 n : Int) (t : Nat) :
    Outcome (Bool × PriorityQueue × Nat) :=
  match downLoopT (pq.length + 1) pq i0 n t with
  | .ok (i, pq1, t1) => .ok (decide (i > i0), pq1, t1)
  | .panic pq1 => .panic pq1
  | .outOfFuel => .outOfFuel

/-- Function `heap.Fix` as in `heapFix`, carrying along the slot `t` of one item. -/
def heapFixT (pq : PriorityQueue) (i : Int) (t : Nat) : Outcome (PriorityQueue × Nat) :=
  match downT pq i pq.Len t with
  | .panic pq1 => .panic pq1
  | .outOfFuel => .outOfFuel
  | .ok (moved, pq1, t1) => if moved then .ok (pq1, t1) else upT pq1 i t1

/-- Method `update` as in `update`, carrying along the slot `t` of one item: the
result holds the queue and the slot at which the item that stood at slot `t`
before the call stands after it. -/
def updateT (pq : PriorityQueue) (value : Int) (priority : F64) (t : Nat) :
    Outcome (PriorityQueue × Nat) :=
  match firstMatch value pq with
  | none => .ok (pq, t)
  | some (k, item) => heapFixT (pq.set k { item with priority := priority }) item.index t

/-- Slot `a` is slot `b` or lies on the path from slot `b` up to the root (parent
of slot `i` is slot `(i-1)/2`). -/
inductive AncestorOrSelf (a : Nat) : Nat → Prop where
  | self : AncestorOrSelf a a
  | parent (b : Nat) : 0 < b → AncestorOrSelf a ((b - 1) / 2) → AncestorOrSelf a b

instance (pq : PriorityQueue) : Decidable (HeapInvariant pq) := by
  unfold HeapInvariant; infer_instance

instance (pq : PriorityQueue) : Decidable (NoNaN pq) := by
  unfold NoNaN; infer_instance

/-! ## The queue as a slice of pointers

`PriorityQueue` is `[]*Item`: the slots hold pointers, and `push` takes the
pointer the caller hands in.  The definitions of this section run the same code
on a state in which the items are objects and the slots point to them, so that
one item can stand in several slots. -/

/-- Program state with the items as objects: `mem` holds the `Item` objects
there are, a non-nil pointer `*Item` is a position in `mem` (any other number
stands for nil), and `pq` is the queue, the slice of pointers in array order. -/
structure Store where
  mem : List Item
  pq : List Nat
deriving DecidableEq

/-- Result of running code on a store: a value, a run-time panic (index out of
range or nil dereference), or no fuel left. -/
inductive StoreOutcome (α : Type) where
  | ok (a : α)
  | panic
  | outOfFuel
deriving DecidableEq

/-- The item a pointer points to; `none` is the nil-dereference panic. -/
def Store.deref (s : Store) (p : Nat) : Option Item := s.mem[p]?

/-- The index expression `pq[i]`, a pointer; `none` is the index-out-of-range
panic. -/
def Store.ptr (s : Store) (i : Int) : Option Nat :=
  if 0 ≤ i then s.pq[i.toNat]? else none

/-- The item that `pq[i]` points to. -/
def Store.elem (s : Store) (i : Int) : Option Item :=
  (s.ptr i).bind s.deref

/-- The assignment `p.index = n` through the pointer `p`. -/
def Store.setIndex (s : Store) (p : Nat) (n : Int) : Option Store :=
  match s.deref p with
  | some a => some { s with mem := s.mem.set p { a with index := n } }
  | none => none

/-- The assignment `p.priority = x` through the pointer `p`. -/
def Store.setPriority (s : Store) (p : Nat) (x : F64) : Option Store :=
  match s.deref p with
  | some a => some { s with mem := s.mem.set p { a with priority := x } }
  | none => none

/-- Method `Len`. -/
def Store.Len (s : Store) : Int := s.pq.length

/-- Method `Less`: `pq[i].priority < pq[j].priority`. -/
def Store.Less (s : Store) (i j : Int) : Option Bool :=
  match s.elem i, s.elem j with
  | some a, some b => some (a.priority.lt b.priority)
  | _, _ => none

/-- Method `Swap`: `pq[i], pq[j] = pq[j], pq[i]`, then `pq[i].index = i`, then
`pq[j].index = j`, each of the two writes through the pointer that the slot
holds at that moment. -/
def Store.Swap (s : Store) (i j : Int) : Option Store :=
  match s.ptr i, s.ptr j with
  | some pi, some pj =>
    let s1 : Store := { s with pq := (s.pq.set i.toNat pj).set j.toNat pi }
    match s1.ptr i with
    | none => none
    | some qi =>
      match s1.setIndex qi i with
      | none => none
      | some s2 =>
        match s2.ptr j with
        | none => none
        | some qj => s2.setIndex qj j
  | _, _ => none

/-- Method `Push`: `n := len(*pq)`, `item.index = n` through the pointer, then
the pointer is appended. -/
def Store.Push (s : Store) (x : Nat) : Option Store :=
  match s.setIndex x s.Len with
  | none => none
  | some s1 => some { s1 with pq := s1.pq ++ [x] }

/-- Method `Pop`: take the pointer `old[n-1]`, set the index of its item to -1,
shrink the slice; the pointer is returned.  (`old[n-1] = nil` clears the array
cell that the shrunk slice no longer covers.) -/
def Store.Pop (s : Store) : Option (Nat × Store) :=
  match s.ptr (s.Len - 1) with
  | none => none
  | some p =>
    match s.setIndex p (-1) with
    | none => none
    | some s1 => some (p, { s1 with pq := s1.pq.take (s.Len - 1).toNat })

/-- The loop of `heap.up`, as `upLoop`, on a store. -/
def Store.upLoop : Nat → Store → Int → StoreOutcome Store
  | 0, _, _ => .outOfFuel
  | fuel + 1, s, j =>
    let i := (j - 1).tdiv 2
    if i = j then .ok s
    else
      match s.Less j i with
      | none => .panic
      | some false => .ok s
      | some true =>
        match s.Swap i j with
        | none => .panic
        | some s1 => Store.upLoop fuel s1 i

/-- Function `heap.up` on a store. -/
def Store.up (s : Store) (j : Int) : StoreOutcome Store :=
  Store.upLoop (s.pq.length + 1) s j

/-- The loop of `heap.down`, as `downLoop`, on a store. -/
def Store.downLoop : Nat → Store → Int → Int → StoreOutcome (Int × Store)
  | 0, _, _, _ => .outOfFuel
  | fuel + 1, s, i, n =>
    let j1 := 2 * i + 1
    if j1 ≥ n ∨ j1 < 0 then .ok (i, s)
    else
      let j2 := j1 + 1
      match (if j2 < n then s.Less j2 j1 else some false) with
      | none => .panic
      | some right =>
        let j := if right then j2 else j1
        match s.Less j i with
        | none => .panic
        | some false => .ok (i, s)
        | some true =>
          match s.Swap i j with
          | none => .panic
          | some s1 => Store.downLoop fuel s1 j n

/-- Function `heap.down` on a store: reports whether the element moved. -/
def Store.down (s : Store) (i0 n : Int) : StoreOutcome (Bool × Store) :=
  match Store.downLoop (s.pq.length + 1) s i0 n with
  | .ok (i, s1) => .ok (decide (i > i0), s1)
  | .panic => .panic
  | .outOfFuel => .outOfFuel

/-- Function `heap.Push` on a store: `h.Push(x); up(h, h.Len()-1)`. -/
def Store.heapPush (s : Store) (x : Nat) : StoreOutcome Store :=
  match s.Push x with
  | none => .panic
  | some s1 => s1.up (s1.Len - 1)

/-- Function `heap.Pop` on a store:
`n := h.Len() - 1; h.Swap(0, n); down(h, 0, n); return h.Pop()`. -/
def Store.heapPop (s : Store) : StoreOutcome (Nat × Store) :=
  let n := s.Len - 1
  match s.Swap 0 n with
  | none => .panic
  | some s1 =>
    match s1.down 0 n with
    | .panic => .panic
    | .outOfFuel => .outOfFuel
    | .ok (_, s2) =>
      match s2.Pop with
      | none => .panic
      | some r => .ok r

/-- Function `heap.Fix` on a store: `if !down(h, i, h.Len()) { up(h, i) }`. -/
def Store.heapFix (s : Store) (i : Int) : StoreOutcome Store :=
  match s.down i s.Len with
  | .panic => .panic
  | .outOfFuel => .outOfFuel
  | .ok (moved, s1) => if moved then .ok s1 else s1.up i

/-- Method `push(item *Item)`: `heap.Push(pq, item)`, with the pointer the caller
hands in. -/
def Store.push (s : Store) (item : Nat) : StoreOutcome Store :=
  s.heapPush item

/-- Method `pop`: `return heap.Pop(pq).(*Item)`, the pointer to the removed
item. -/
def Store.pop (s : Store) : StoreOutcome (Nat × Store) :=
  s.heapPop

/-- The `range` loop of `update` up to its `break`, over the pointers of the
slice: the first pointer whose item has the value (`some none` when there is
none); the outer `none` is the nil-dereference panic of `item.value`. -/
def Store.firstMatch (s : Store) (value : Int) : List Nat → Option (Option Nat)
  | [] => some none
  | p :: rest =>
    match s.deref p with
    | none => none
    | some item =>
      if item.value = value then some (some p) else Store.firstMatch s value rest

/-- Method `update`: `item.priority = priority` through the first matching
pointer, then `heap.Fix(pq, item.index)` with the index field that item has. -/
def Store.update (s : Store) (value : Int) (priority : F64) : StoreOutcome Store :=
  match s.firstMatch value s.pq with
  | none => .panic
  | some none => .ok s
  | some (some p) =>
    match s.setPriority p priority with
    | none => .panic
    | some s1 =>
      match s1.deref p with
      | none => .panic
      | some item => s1.heapFix item.index

/-- One call of one of the three operations of the queue, a `push` with the
pointer it is given. -/
inductive PtrOp where
  | push (item : Nat)
  | pop
  | update (value : Int) (priority : F64)
deriving DecidableEq

/-- The store after one call (the pointer a `pop` returns is dropped). -/
def Store.step (s : Store) : PtrOp → StoreOutcome Store
  | .push item => s.push item
  | .pop =>
    match s.pop with
    | .ok (_, s1) => .ok s1
    | .panic => .panic
    | .outOfFuel => .outOfFuel
  | .update value priority => s.update value priority

/-- The store after a sequence of calls, made one after the other. -/
def Store.run : List PtrOp → Store → StoreOutcome Store
  | [], s => .ok s
  | op :: rest, s =>
    match s.step op with
    | .ok s1 => Store.run rest s1
    | .panic => .panic
    | .outOfFuel => .outOfFuel

/-- Whether a condition on the store and the call about to be made holds at
every call of the sequence. -/
def Store.always (c : Store → PtrOp → Bool) : List PtrOp → Store → Bool
  | [], _ => true
  | op :: rest, s =>
    c s op &&
      match s.step op with
      | .ok s1 => Store.always c rest s1
      | _ => true

/-- The call is no `pop` of an empty queue. -/
def popsEntry (s : Store) : PtrOp → Bool
  | .pop => decide (s.pq ≠ [])
  | _ => true

/-- The call is no `push` of nil and no `push` of an item that is in the queue
at the moment of the call. -/
def pushesNew (s : Store) : PtrOp → Bool
  | .push item => decide (item < s.mem.length ∧ item ∉ s.pq)
  | _ => true

/-- The call passes no NaN priority: not in the item it pushes, not as the new
priority of an update. -/
def passesNoNaN (s : Store) : PtrOp → Bool
  | .push item =>
    match s.deref item with
    | some a => !a.priority.isNaN
    | none => true
  | .pop => true
  | .update _ priority => !priority.isNaN

/-- The queue as the list of the items its slots point to, in array order (a
slot that points to no item shows as an item of priority NaN; `Store.Valid`
rules such slots out). -/
def Store.view (s : Store) : PriorityQueue :=
  s.pq.map (fun p => (s.deref p).getD ⟨0, .nan, 0⟩)

/-- Every slot of the queue points to an item, and no item stands in two slots. -/
def Store.Valid (s : Store) : Prop :=
  s.pq.Nodup ∧ ∀ p ∈ s.pq, p < s.mem.length

instance (s : Store) : Decidable s.Valid := by
  unfold Store.Valid; infer_instance

/-- The call as a call on the list of items: a `push` with the field values of
the item its pointer points to. -/
def Store.opOf (s : Store) : PtrOp → Op
  | .push item => .push ((s.deref item).getD ⟨0, .nan, 0⟩)
  | .pop => .pop
  | .update value priority => .update value priority

/-! ## Slots inside the slice -/

theorem elem_natCast (pq : PriorityQueue) (k : Nat) : pq.elem (k : Int) = pq[k]? := by
  simp [PriorityQueue.elem]

theorem Less_natCast (pq : PriorityQueue) (i j : Nat) (a b : Item)
    (ha : pq[i]? = some a) (hb : pq[j]? = some b) :
    pq.Less i j = some (a.priority.lt b.priority) := by
  simp [PriorityQueue.Less, elem_natCast, ha, hb]

theorem Swap_natCast (pq : PriorityQueue) (i j : Nat) (hi : i < pq.length) (hj : j < pq.length) :
    pq.Swap i j = some (swapN pq i j) := by
  obtain ⟨a, ha⟩ : ∃ a, pq[i]? = some a := ⟨pq[i], List.getElem?_eq_getElem hi⟩
  obtain ⟨b, hb⟩ : ∃ b, pq[j]? = some b := ⟨pq[j], List.getElem?_eq_getElem hj⟩
  simp [PriorityQueue.Swap, swapN, elem_natCast, ha, hb]

theorem parent_natCast (j : Nat) : ((j : Int) - 1).tdiv 2 = (((j - 1) / 2 : Nat) : Int) := by
  cases j with
  | zero => decide
  | succ k =>
    simp only [Nat.cast_add, Nat.cast_one, add_sub_cancel_right, Nat.add_sub_cancel]
    rfl

theorem length_swapN (pq : PriorityQueue) (i j : Nat) : (swapN pq i j).length = pq.length := by
  unfold swapN
  split <;> simp

theorem getElem?_swapN (pq : PriorityQueue) (i j k : Nat) (a b : Item)
    (ha : pq[i]? = some a) (hb : pq[j]? = some b) :
    (swapN pq i j)[k]? =
      if k = j then some { a with index := j }
      else if k = i then some { b with index := i } else pq[k]? := by
  have hi : i < pq.length := by
    rcases Nat.lt_or_ge i pq.length with h | h
    · exact h
    · rw [List.getElem?_eq_none h] at ha; cases ha
  have hj : j < pq.length := by
    rcases Nat.lt_or_ge j pq.length with h | h
    · exact h
    · rw [List.getElem?_eq_none h] at hb; cases hb
  simp only [swapN, ha, hb, List.getElem?_set, List.length_set]
  by_cases h1 : k = j
  · subst h1; simp [hj]
  · by_cases h2 : k = i
    · subst h2; simp [hi, h1, Ne.symm h1]
    · simp [h1, h2, Ne.symm h1, Ne.symm h2]

theorem getElem?_of_lt (pq : PriorityQueue) (k : Nat) (h : k < pq.length) :
    ∃ a, pq[k]? = some a := ⟨pq[k], List.getElem?_eq_getElem h⟩

theorem lt_of_getElem? (pq : PriorityQueue) (k : Nat) (a : Item) (h : pq[k]? = some a) :
    k < pq.length := by
  rcases Nat.lt_or_ge k pq.length with h1 | h1
  · exact h1
  · rw [List.getElem?_eq_none h1] at h; cases h

theorem Less_prioAt (pq : PriorityQueue) (i j : Nat) (hi : i < pq.length) (hj : j < pq.length) :
    pq.Less i j = some ((prioAt pq i).lt (prioAt pq j)) := by
  obtain ⟨a, ha⟩ := getElem?_of_lt pq i hi
  obtain ⟨b, hb⟩ := getElem?_of_lt pq j hj
  simp [Less_natCast pq i j a b ha hb, prioAt, ha, hb]

theorem prioAt_swapN (pq : PriorityQueue) (i j k : Nat) (hi : i < pq.length)
    (hj : j < pq.length) :
    prioAt (swapN pq i j) k =
      if k = j then prioAt pq i else if k = i then prioAt pq j else prioAt pq k := by
  obtain ⟨a, ha⟩ := getElem?_of_lt pq i hi
  obtain ⟨b, hb⟩ := getElem?_of_lt pq j hj
  unfold prioAt
  rw [getElem?_swapN pq i j k a b ha hb]
  by_cases h1 : k = j
  · simp [h1, ha]
  · by_cases h2 : k = i
    · subst h2; simp [h1, hb]
    · simp [h1, h2]

/-- Loop rule for `heap.up` started at a slot inside the slice: the loop ends
normally, and an invariant kept by every swap it makes holds at the end, where
the loop has reached the root or an item not smaller than its parent. -/
theorem upLoop_rule (Inv : PriorityQueue → Nat → Prop)
    (hrange : ∀ pq j, Inv pq j → j < pq.length)
    (hstep : ∀ pq j, Inv pq j → 0 < j →
      (prioAt pq j).lt (prioAt pq ((j - 1) / 2)) = true →
      Inv (swapN pq ((j - 1) / 2) j) ((j - 1) / 2)) :
    ∀ (fuel : Nat) (pq : PriorityQueue) (j : Nat), j < fuel → Inv pq j →
      ∃ pq1 j1, upLoop fuel pq j = .ok pq1 ∧ Inv pq1 j1 ∧ j1 ≤ j ∧
        (j1 = 0 ∨ (prioAt pq1 j1).lt (prioAt pq1 ((j1 - 1) / 2)) = false) := by
  intro fuel
  induction fuel with
  | zero => intro pq j h; omega
  | succ fuel ih =>
    intro pq j hf hinv
    have hj := hrange pq j hinv
    rcases Nat.eq_zero_or_pos j with h0 | hpos
    · subst h0
      refine ⟨pq, 0, ?_, hinv, le_refl _, Or.inl rfl⟩
      simp only [upLoop, parent_natCast]
      simp
    · have hp : (j - 1) / 2 < j := by omega
      have hne : ¬ ((((j - 1) / 2 : Nat) : Int) = (j : Int)) := by omega
      have hless := Less_prioAt pq j ((j - 1) / 2) hj (by omega)
      cases hlt : (prioAt pq j).lt (prioAt pq ((j - 1) / 2)) with
      | false =>
        refine ⟨pq, j, ?_, hinv, le_refl _, Or.inr hlt⟩
        simp only [upLoop, parent_natCast, hne, if_false, hless, hlt]
      | true =>
        have hsw := Swap_natCast pq ((j - 1) / 2) j (by omega) hj
        obtain ⟨pq1, j1, h1, h2, h3, h4⟩ :=
          ih (swapN pq ((j - 1) / 2) j) ((j - 1) / 2) (by omega) (hstep pq j hinv hpos hlt)
        refine ⟨pq1, j1, ?_, h2, by omega, h4⟩
        simp only [upLoop, parent_natCast, hne, if_false, hless, hlt, hsw, h1]

/-- One round of the loop of `heap.down` at a slot inside the slice. -/
theorem downLoop_succ (fuel : Nat) (pq : PriorityQueue) (i n : Nat)
    (hi : i < pq.length) (hn : n ≤ pq.length) :
    downLoop (fuel + 1) pq i n =
      match minChild pq n i with
      | none => .ok ((i : Int), pq)
      | some j =>
        if (prioAt pq j).lt (prioAt pq i) = true then downLoop fuel (swapN pq i j) j n
        else .ok ((i : Int), pq) := by
  have e1 : (2 * (i : Int) + 1) = ((2 * i + 1 : Nat) : Int) := by push_cast; ring
  have e2 : (2 * (i : Int) + 1 + 1) = ((2 * i + 2 : Nat) : Int) := by push_cast; ring
  by_cases h1 : n ≤ 2 * i + 1
  · have c : ((n : Int) ≤ 2 * (i : Int) + 1 ∨ 2 * (i : Int) + 1 < 0) := by omega
    simp only [downLoop, minChild, h1, if_true, c, ge_iff_le]
  · have c : ¬ ((n : Int) ≤ 2 * (i : Int) + 1 ∨ 2 * (i : Int) + 1 < 0) := by omega
    have l1 : 2 * i + 1 < pq.length := by omega
    by_cases h2 : 2 * i + 2 < n
    · have c2 : (2 * (i : Int) + 1 + 1 < (n : Int)) := by omega
      have l2 : 2 * i + 2 < pq.length := by omega
      cases hr : (prioAt pq (2 * i + 2)).lt (prioAt pq (2 * i + 1)) with
      | true =>
        have hl : pq.Less (2 * (i : Int) + 1 + 1) (2 * (i : Int) + 1) = some true := by
          rw [e2, e1, Less_prioAt pq _ _ l2 l1, hr]
        have hl2 : pq.Less (2 * (i : Int) + 1 + 1) i =
            some ((prioAt pq (2 * i + 2)).lt (prioAt pq i)) := by
          rw [e2, Less_prioAt pq _ _ l2 hi]
        have hs : pq.Swap i (2 * (i : Int) + 1 + 1) = some (swapN pq i (2 * i + 2)) := by
          rw [e2, Swap_natCast pq _ _ hi l2]
        have hm : minChild pq n i = some (2 * i + 2) := by simp [minChild, h1, h2, hr]
        rw [hm]
        simp only [downLoop, ge_iff_le, c, if_false, c2, if_true, hl, hl2, hs]
        cases (prioAt pq (2 * i + 2)).lt (prioAt pq i) <;>
          simp only [Bool.false_eq_true, if_false, if_true, e2]
      | false =>
        have hl : pq.Less (2 * (i : Int) + 1 + 1) (2 * (i : Int) + 1) = some false := by
          rw [e2, e1, Less_prioAt pq _ _ l2 l1, hr]
        have hl2 : pq.Less (2 * (i : Int) + 1) i =
            some ((prioAt pq (2 * i + 1)).lt (prioAt pq i)) := by
          rw [e1, Less_prioAt pq _ _ l1 hi]
        have hs : pq.Swap i (2 * (i : Int) + 1) = some (swapN pq i (2 * i + 1)) := by
          rw [e1, Swap_natCast pq _ _ hi l1]
        have hm : minChild pq n i = some (2 * i + 1) := by simp [minChild, h1, h2, hr]
        rw [hm]
        simp only [downLoop, ge_iff_le, c, if_false, c2, if_true, hl, Bool.false_eq_true,
          hl2, hs]
        cases (prioAt pq (2 * i + 1)).lt (prioAt pq i) <;>
          simp only [Bool.false_eq_true, if_false, if_true, e1]
    · have c2 : ¬ (2 * (i : Int) + 1 + 1 < (n : Int)) := by omega
      have hl2 : pq.Less (2 * (i : Int) + 1) i =
          some ((prioAt pq (2 * i + 1)).lt (prioAt pq i)) := by
        rw [e1, Less_prioAt pq _ _ l1 hi]
      have hs : pq.Swap i (2 * (i : Int) + 1) = some (swapN pq i (2 * i + 1)) := by
        rw [e1, Swap_natCast pq _ _ hi l1]
      have hm : minChild pq n i = some (2 * i + 1) := by simp [minChild, h1, h2]
      rw [hm]
      simp only [downLoop, ge_iff_le, c, if_false, c2, Bool.false_eq_true, hl2, hs]
      cases (prioAt pq (2 * i + 1)).lt (prioAt pq i) <;>
        simp only [Bool.false_eq_true, if_false, if_true, e1]

/-- Loop rule for `heap.down` started at a slot inside the slice with a bound
`n` not beyond its end: the loop ends normally, and an invariant kept by every
swap it makes holds at the end, where the item has no child below `n` or is not
greater than the child the loop compares it with. -/
theorem downLoop_rule (n : Nat) (Inv : PriorityQueue → Nat → Prop)
    (hrange : ∀ pq i, Inv pq i → i < pq.length ∧ n ≤ pq.length)
    (hstep : ∀ pq i j, Inv pq i → minChild pq n i = some j →
      (prioAt pq j).lt (prioAt pq i) = true → Inv (swapN pq i j) j) :
    ∀ (fuel : Nat) (pq : PriorityQueue) (i : Nat), n - i < fuel → Inv pq i →
      ∃ (pq1 : PriorityQueue) (i1 : Nat),
        downLoop fuel pq i n = .ok ((i1 : Int), pq1) ∧ Inv pq1 i1 ∧ i ≤ i1 ∧
        (minChild pq1 n i1 = none ∨
          ∃ j, minChild pq1 n i1 = some j ∧ (prioAt pq1 j).lt (prioAt pq1 i1) = false) := by
  intro fuel
  induction fuel with
  | zero => intro pq i h; omega
  | succ fuel ih =>
    intro pq i hf hinv
    obtain ⟨hi, hn⟩ := hrange pq i hinv
    rw [downLoop_succ fuel pq i n hi hn]
    cases hm : minChild pq n i with
    | none => exact ⟨pq, i, rfl, hinv, le_refl _, Or.inl hm⟩
    | some j =>
      have hj : i < j ∧ j < n := by
        unfold minChild at hm
        split at hm
        · cases hm
        · split at hm <;> cases hm <;> omega
      cases hlt : (prioAt pq j).lt (prioAt pq i) with
      | false =>
        refine ⟨pq, i, ?_, hinv, le_refl _, Or.inr ⟨j, hm, hlt⟩⟩
        simp [hlt]
      | true =>
        obtain ⟨pq1, i1, h1, h2, h3, h4⟩ :=
          ih (swapN pq i j) j (by omega) (hstep pq i j hinv hm hlt)
        refine ⟨pq1, i1, ?_, h2, by omega, h4⟩
        simp [hlt, h1]

/-! ## What swaps preserve -/

theorem set_set_perm {α : Type} [DecidableEq α] (l : List α) (i j : Nat)
    (hi : i < l.length) (hj : j < l.length) :
    List.Perm ((l.set i l[j]).set j l[i]) l := by
  rw [List.perm_iff_count]
  intro x
  have hj2 : j < (l.set i l[j]).length := by simpa using hj
  rw [List.count_set _ _ _ _ hj2, List.count_set _ _ _ _ hi]
  have p1 : (if l[i] == x then 1 else 0) ≤ l.count x := by
    by_cases h : l[i] = x
    · subst h
      have : 0 < l.count l[i] := List.count_pos_iff.mpr (List.getElem_mem hi)
      simp
    · simp [h]
  by_cases hij : i = j
  · subst hij
    simp only [List.getElem_set_self]
    omega
  · have e : (l.set i l[j])[j] = l[j] := by
      rw [List.getElem_set_ne hij]
    rw [e]
    have p2 : (if l[j] == x then 1 else 0) ≤ l.count x := by
      by_cases h : l[j] = x
      · subst h
        have : 0 < l.count l[j] := List.count_pos_iff.mpr (List.getElem_mem hj)
        simp
      · simp [h]
    omega

theorem keys_swapN (pq : PriorityQueue) (i j : Nat) (hi : i < pq.length) (hj : j < pq.length) :
    List.Perm (keys (swapN pq i j)) (keys pq) := by
  have hi2 : i < (keys pq).length := by simpa [keys] using hi
  have hj2 : j < (keys pq).length := by simpa [keys] using hj
  have e : keys (swapN pq i j) = ((keys pq).set i (keys pq)[j]).set j (keys pq)[i] := by
    obtain ⟨a, ha⟩ := getElem?_of_lt pq i hi
    obtain ⟨b, hb⟩ := getElem?_of_lt pq j hj
    have ha2 : pq[i] = a := by
      have := List.getElem?_eq_getElem hi
      rw [ha] at this; exact (Option.some.inj this).symm
    have hb2 : pq[j] = b := by
      have := List.getElem?_eq_getElem hj
      rw [hb] at this; exact (Option.some.inj this).symm
    simp [keys, swapN, ha, hb, List.map_set, ha2, hb2]
  rw [e]
  exact set_set_perm (keys pq) i j hi2 hj2

theorem slots_iff (pq : PriorityQueue) :
    SlotsConsistent pq ↔ ∀ (i : Nat) (a : Item), pq[i]? = some a → a.index = (i : Int) := by
  constructor
  · intro h i a ha
    have := h i (lt_of_getElem? pq i a ha)
    rw [ha] at this
    simpa using this
  · intro h i hi
    obtain ⟨a, ha⟩ := getElem?_of_lt pq i hi
    rw [ha]
    simp [h i a ha]

theorem slots_swapN (pq : PriorityQueue) (i j : Nat) (hi : i < pq.length) (hj : j < pq.length)
    (h : SlotsConsistent pq) : SlotsConsistent (swapN pq i j) := by
  rw [slots_iff] at h ⊢
  obtain ⟨a, ha⟩ := getElem?_of_lt pq i hi
  obtain ⟨b, hb⟩ := getElem?_of_lt pq j hj
  intro k c hc
  rw [getElem?_swapN pq i j k a b ha hb] at hc
  by_cases h1 : k = j
  · subst h1
    simp only [if_true] at hc
    cases hc; rfl
  · by_cases h2 : k = i
    · subst h2
      simp only [h1, if_true, if_false] at hc
      cases hc; rfl
    · simp only [h1, h2, if_false] at hc
      exact h k c hc

theorem SwapReach.length_eq {n : Nat} {pq pq1 : PriorityQueue} (h : SwapReach n pq pq1) :
    pq1.length = pq.length := by
  induction h with
  | refl => rfl
  | step pq1 i j _ _ _ ih => rw [length_swapN, ih]

theorem SwapReach.keys_perm {n : Nat} {pq pq1 : PriorityQueue} (h : SwapReach n pq pq1)
    (hn : n ≤ pq.length) : List.Perm (keys pq1) (keys pq) := by
  induction h with
  | refl => exact List.Perm.refl _
  | step pq1 i j h1 hi hj ih =>
    have hl := h1.length_eq
    exact (keys_swapN pq1 i j (by omega) (by omega)).trans ih

theorem SwapReach.slots {n : Nat} {pq pq1 : PriorityQueue} (h : SwapReach n pq pq1)
    (hn : n ≤ pq.length) (hs : SlotsConsistent pq) : SlotsConsistent pq1 := by
  induction h with
  | refl => exact hs
  | step pq1 i j h1 hi hj ih =>
    have hl := h1.length_eq
    exact slots_swapN pq1 i j (by omega) (by omega) ih

theorem SwapReach.above {n : Nat} {pq pq1 : PriorityQueue} (h : SwapReach n pq pq1)
    (hn : n ≤ pq.length) (k : Nat) (hk : n ≤ k) : pq1[k]? = pq[k]? := by
  induction h with
  | refl => rfl
  | step pq1 i j h1 hi hj ih =>
    have hl := h1.length_eq
    obtain ⟨a, ha⟩ := getElem?_of_lt pq1 i (by omega)
    obtain ⟨b, hb⟩ := getElem?_of_lt pq1 j (by omega)
    rw [getElem?_swapN pq1 i j k a b ha hb, if_neg (by omega), if_neg (by omega), ih]

theorem SwapReach.trans {n : Nat} {pq pq1 pq2 : PriorityQueue} (h1 : SwapReach n pq pq1)
    (h2 : SwapReach n pq1 pq2) : SwapReach n pq pq2 := by
  induction h2 with
  | refl => exact h1
  | step pq3 i j _ hi hj ih => exact SwapReach.step pq3 i j ih hi hj

/-! ## The order on priorities -/

theorem F64.lt_le {a b : F64} (h : a.lt b = true) : a.le b = true := by
  cases a <;> cases b <;> simp_all [F64.lt, F64.le]
  exact h.le

theorem F64.nlt_le {a b : F64} (ha : a.isNaN = false) (hb : b.isNaN = false)
    (h : a.lt b = false) : b.le a = true := by
  cases a <;> cases b <;> simp_all [F64.lt, F64.le, F64.isNaN]

theorem F64.le_nlt {a b : F64} (h : a.le b = true) : b.lt a = false := by
  cases a <;> cases b <;> simp_all [F64.lt, F64.le]

theorem F64.le_tr {a b c : F64} (h1 : a.le b = true) (h2 : b.le c = true) :
    a.le c = true := by
  cases a <;> cases b <;> cases c <;> simp_all [F64.le]
  exact h1.trans h2

theorem F64.le_self {a : F64} (ha : a.isNaN = false) : a.le a = true := by
  cases a <;> simp_all [F64.le, F64.isNaN]

theorem F64.le_notNaN {a b : F64} (h : a.le b = true) :
    a.isNaN = false ∧ b.isNaN = false := by
  cases a <;> cases b <;> simp_all [F64.le, F64.isNaN]

/-! ## Restoring the heap order upwards -/

theorem upInv_step (L : Nat) (q : PriorityQueue) (k : Nat) (h : UpInv L q k) (hk : 0 < k)
    (hlt : (prioAt q k).lt (prioAt q ((k - 1) / 2)) = true) :
    UpInv L (swapN q ((k - 1) / 2) k) ((k - 1) / 2) := by
  obtain ⟨hL, hkL, hnan, hA, hB⟩ := h
  have hp : (k - 1) / 2 < k := by omega
  have hsw : ∀ m, prioAt (swapN q ((k - 1) / 2) k) m =
      if m = k then prioAt q ((k - 1) / 2)
      else if m = (k - 1) / 2 then prioAt q k else prioAt q m :=
    fun m => prioAt_swapN q ((k - 1) / 2) k m (by omega) (by omega)
  have hkp : (prioAt q k).le (prioAt q ((k - 1) / 2)) = true := F64.lt_le hlt
  refine ⟨by rw [length_swapN, hL], by omega, ?_, ?_, ?_⟩
  · intro m hm
    rw [hsw m]
    split_ifs
    · exact hnan _ (by omega)
    · exact hnan _ hkL
    · exact hnan _ hm
  · intro m hm hm0 hmp
    rw [hsw m, hsw ((m - 1) / 2)]
    by_cases c1 : m = k
    · subst c1
      simp only [if_true, if_neg (Nat.ne_of_lt hp)]
      exact hkp
    · rw [if_neg c1, if_neg hmp]
      by_cases c2 : (m - 1) / 2 = k
      · rw [if_pos c2]
        exact hB m hm hm0 c2 hk
      · rw [if_neg c2]
        by_cases c3 : (m - 1) / 2 = (k - 1) / 2
        · rw [if_pos c3]
          have := hA m hm hm0 c1
          rw [c3] at this
          exact F64.le_tr hkp this
        · rw [if_neg c3]
          exact hA m hm hm0 c1
  · intro m hm hm0 hmp hp0
    rw [hsw m, hsw (((k - 1) / 2 - 1) / 2)]
    rw [if_neg (show ¬ ((k - 1) / 2 - 1) / 2 = k by omega),
      if_neg (show ¬ ((k - 1) / 2 - 1) / 2 = (k - 1) / 2 by omega)]
    have hpp : (prioAt q (((k - 1) / 2 - 1) / 2)).le (prioAt q ((k - 1) / 2)) = true :=
      hA ((k - 1) / 2) (by omega) hp0 (by omega)
    by_cases c1 : m = k
    · rw [if_pos c1]; exact hpp
    · rw [if_neg c1, if_neg (show ¬ m = (k - 1) / 2 by omega)]
      have := hA m hm hm0 c1
      rw [hmp] at this
      exact F64.le_tr hpp this

theorem NoNaN_iff (pq : PriorityQueue) :
    NoNaN pq ↔ ∀ m, m < pq.length → (prioAt pq m).isNaN = false := by
  constructor
  · intro h m hm
    obtain ⟨a, ha⟩ := getElem?_of_lt pq m hm
    have hmem : a ∈ pq := List.mem_iff_getElem?.mpr ⟨m, ha⟩
    simp only [prioAt, ha]
    exact h a hmem
  · intro h a ha
    obtain ⟨m, hm, e⟩ := List.getElem_of_mem ha
    have := h m hm
    simp only [prioAt, List.getElem?_eq_getElem hm, e] at this
    exact this

/-- Sifting up from slot `j` restores the heap invariant when it held everywhere
except between `j` and its parent. -/
theorem up_heap (pq : PriorityQueue) (j : Nat) (h : UpInv pq.length pq j) :
    ∃ pq1, up pq j = .ok pq1 ∧ HeapInvariant pq1 ∧ NoNaN pq1 := by
  obtain ⟨pq1, j1, h1, h2, _, h4⟩ :=
    upLoop_rule (UpInv pq.length) (fun q k hq => by rw [hq.1]; exact hq.2.1)
      (fun q k hq hk hlt => upInv_step pq.length q k hq hk hlt)
      (pq.length + 1) pq j (by have := h.2.1; omega) h
  obtain ⟨hL, hkL, hnan, hA, hB⟩ := h2
  refine ⟨pq1, h1, ?_, ?_⟩
  · intro m hm hm0
    rw [hL] at hm
    by_cases c : m = j1
    · subst c
      rcases h4 with h4 | h4
      · omega
      · exact F64.nlt_le (hnan _ hm) (hnan _ (by omega)) h4
    · exact hA m hm hm0 c
  · rw [NoNaN_iff, hL]; exact hnan

/-! ## Restoring the heap order downwards -/

theorem minChild_some (q : PriorityQueue) (n i j : Nat)
    (hnan : ∀ m, m < n → (prioAt q m).isNaN = false) (h : minChild q n i = some j) :
    i < j ∧ j < n ∧ (j - 1) / 2 = i ∧
      ∀ m, m < n → 0 < m → (m - 1) / 2 = i → (prioAt q j).le (prioAt q m) = true := by
  unfold minChild at h
  split at h
  · cases h
  · rename_i h1
    split at h
    · rename_i h2
      cases h
      refine ⟨by omega, by omega, by omega, ?_⟩
      intro m hm hm0 hmp
      have : m = 2 * i + 1 ∨ m = 2 * i + 2 := by omega
      rcases this with e | e
      · subst e; exact F64.lt_le h2.2
      · subst e; exact F64.le_self (hnan _ hm)
    · rename_i h2
      cases h
      refine ⟨by omega, by omega, by omega, ?_⟩
      intro m hm hm0 hmp
      have : m = 2 * i + 1 ∨ m = 2 * i + 2 := by omega
      rcases this with e | e
      · subst e; exact F64.le_self (hnan _ hm)
      · subst e
        have h3 : (prioAt q (2 * i + 2)).lt (prioAt q (2 * i + 1)) = false := by
          cases hc : (prioAt q (2 * i + 2)).lt (prioAt q (2 * i + 1))
          · rfl
          · exact absurd ⟨hm, hc⟩ h2
        exact F64.nlt_le (hnan _ hm) (hnan _ (by omega)) h3

theorem minChild_none (q : PriorityQueue) (n i : Nat) (h : minChild q n i = none) :
    ∀ m, m < n → 0 < m → (m - 1) / 2 ≠ i := by
  unfold minChild at h
  split at h
  · intro m hm hm0; omega
  · split at h <;> cases h

theorem downInv_step (L n i0 : Nat) (q : PriorityQueue) (i j : Nat) (h : DownInv L n i0 q i)
    (hm : minChild q n i = some j) (hlt : (prioAt q j).lt (prioAt q i) = true) :
    DownInv L n i0 (swapN q i j) j := by
  obtain ⟨hL, hn, hi, hi0, hnan, hA, hB, _⟩ := h
  obtain ⟨hij, hjn, hpj, hmin⟩ := minChild_some q n i j (fun m hm => hnan m (by omega)) hm
  have hsw : ∀ m, prioAt (swapN q i j) m =
      if m = j then prioAt q i else if m = i then prioAt q j else prioAt q m :=
    fun m => prioAt_swapN q i j m (by omega) (by omega)
  have hji : (prioAt q j).le (prioAt q i) = true := F64.lt_le hlt
  refine ⟨by rw [length_swapN, hL], hn, by omega, by omega, ?_, ?_, ?_, ?_⟩
  · intro m hm
    rw [hsw m]
    split_ifs
    · exact hnan _ hi
    · exact hnan _ (by omega)
    · exact hnan _ hm
  · intro m hm hm0 hmj hmpj
    rw [hsw m, hsw ((m - 1) / 2), if_neg hmj, if_neg hmpj]
    by_cases c1 : m = i
    · subst c1
      rw [if_pos rfl, if_neg (show ¬ (m - 1) / 2 = m by omega)]
      exact hB j hjn (by omega) hpj hm0
    · rw [if_neg c1]
      by_cases c2 : (m - 1) / 2 = i
      · rw [if_pos c2]
        exact hmin m hm hm0 c2
      · rw [if_neg c2]
        exact hA m hm hm0 c1 c2
  · intro m hm hm0 hmp _
    rw [hsw m, hsw ((j - 1) / 2), hpj, if_neg (show ¬ i = j by omega), if_pos rfl,
      if_neg (show ¬ m = j by omega), if_neg (show ¬ m = i by omega)]
    have := hA m hm hm0 (by omega) (by omega)
    rw [hmp] at this
    exact this
  · intro _
    rw [hsw j, hsw ((j - 1) / 2), hpj, if_pos rfl, if_neg (show ¬ i = j by omega), if_pos rfl]
    exact hji

/-- Sifting down from slot `i0` with bound `n`: the run ends normally; below `n`
the heap order then holds at every slot, except possibly at `i0` itself when the
item did not move, in which case the invariant of `heap.up` holds at `i0`. -/
theorem down_heap (L n i0 : Nat) (pq : PriorityQueue) (h : DownInv L n i0 pq i0) :
    ∃ moved pq1, down pq i0 n = .ok (moved, pq1) ∧ pq1.length = L ∧
      (∀ m, m < L → (prioAt pq1 m).isNaN = false) ∧
      (∀ m, m < n → 0 < m → (m ≠ i0 ∨ moved = true) →
        (prioAt pq1 ((m - 1) / 2)).le (prioAt pq1 m) = true) ∧
      (moved = false → ∀ m, m < n → 0 < m → (m - 1) / 2 = i0 → 0 < i0 →
        (prioAt pq1 ((i0 - 1) / 2)).le (prioAt pq1 m) = true) := by
  have hlen : pq.length = L := h.1
  obtain ⟨pq1, i1, h1, h2, h3, h4⟩ :=
    downLoop_rule n (DownInv L n i0) (fun q k hq => by rw [hq.1]; exact ⟨hq.2.2.1, hq.2.1⟩)
      (fun q i j hq hm hlt => downInv_step L n i0 q i j hq hm hlt)
      (pq.length + 1) pq i0 (by have := h.2.1; omega) h
  obtain ⟨hL, hn, hi, hi0, hnan, hA, hB, hC⟩ := h2
  refine ⟨decide ((i1 : Int) > (i0 : Int)), pq1, ?_, hL, hnan, ?_, ?_⟩
  · simp only [down, h1]
  · intro m hm hm0 hor
    by_cases c1 : m = i1
    · subst c1
      apply hC
      rcases hor with c | c
      · omega
      · have : (i0 : Int) < (m : Int) := by simpa using c
        omega
    · by_cases c2 : (m - 1) / 2 = i1
      · rcases h4 with h4 | ⟨j, h4, h5⟩
        · exact absurd c2 (minChild_none pq1 n i1 h4 m hm hm0)
        · obtain ⟨_, hjn, _, hmin⟩ :=
            minChild_some pq1 n i1 j (fun m hm => hnan m (by omega)) h4
          rw [c2]
          exact F64.le_tr (F64.nlt_le (hnan _ (by omega)) (hnan _ hi) h5) (hmin m hm hm0 c2)
      · exact hA m hm hm0 c1 c2
  · intro hmv m hm hm0 hmp hi00
    have e : i1 = i0 := by
      have : ¬ ((i0 : Int) < (i1 : Int)) := by simpa using hmv
      omega
    subst e
    exact hB m hm hm0 hmp hi00

/-! ## The heap functions only swap -/

theorem up_reach (pq : PriorityQueue) (j : Nat) (hj : j < pq.length) :
    ∃ pq1, up pq j = .ok pq1 ∧ SwapReach pq.length pq pq1 := by
  obtain ⟨pq1, j1, h1, h2, _, _⟩ :=
    upLoop_rule (fun q k => SwapReach pq.length pq q ∧ k < pq.length)
      (fun q k hq => by rw [hq.1.length_eq]; exact hq.2)
      (fun q k hq hk _ =>
        ⟨SwapReach.step q ((k - 1) / 2) k hq.1 (by have := hq.2; omega) hq.2,
          by have := hq.2; omega⟩)
      (pq.length + 1) pq j (by omega) ⟨SwapReach.refl, hj⟩
  exact ⟨pq1, h1, h2.1⟩

theorem down_reach (pq : PriorityQueue) (i n : Nat) (hi : i < pq.length) (hn : n ≤ pq.length) :
    ∃ moved pq1, down pq i n = .ok (moved, pq1) ∧ SwapReach n pq pq1 ∧
      (moved = false → pq1 = pq) := by
  obtain ⟨pq1, i1, h1, h2, h3, _⟩ :=
    downLoop_rule n (fun q k => SwapReach n pq q ∧ k < pq.length ∧ i ≤ k ∧ (k = i → q = pq))
      (fun q k hq => by rw [hq.1.length_eq]; exact ⟨hq.2.1, hn⟩)
      (fun q k j hq hm _ => by
        have hj : k < j ∧ j < n := by
          unfold minChild at hm
          split at hm
          · cases hm
          · split at hm <;> cases hm <;> omega
        have hik := hq.2.2.1
        exact ⟨SwapReach.step q k j hq.1 (by omega) hj.2, by omega, by omega,
          fun e => absurd e (by omega)⟩)
      (pq.length + 1) pq i (by omega) ⟨SwapReach.refl, hi, le_refl _, fun _ => rfl⟩
  refine ⟨decide ((i1 : Int) > (i : Int)), pq1, ?_, h2.1, ?_⟩
  · simp only [down, h1]
  · intro hmv
    have : ¬ ((i : Int) < (i1 : Int)) := by simpa using hmv
    exact h2.2.2.2 (by omega)

/-! ## push -/

theorem length_Push (pq : PriorityQueue) (x : Item) : (pq.Push x).length = pq.length + 1 := by
  simp [PriorityQueue.Push]

theorem Len_Push_sub_one (pq : PriorityQueue) (x : Item) :
    (pq.Push x).Len - 1 = ((pq.length : Nat) : Int) := by
  simp [PriorityQueue.Len, PriorityQueue.Push]

theorem prioAt_Push_lt (pq : PriorityQueue) (x : Item) (m : Nat) (hm : m < pq.length) :
    prioAt (pq.Push x) m = prioAt pq m := by
  simp [prioAt, PriorityQueue.Push, List.getElem?_append_left hm]

theorem prioAt_Push_last (pq : PriorityQueue) (x : Item) :
    prioAt (pq.Push x) pq.length = x.priority := by
  simp [prioAt, PriorityQueue.Push]

theorem keys_Push (pq : PriorityQueue) (x : Item) :
    keys (pq.Push x) = keys pq ++ [(x.value, x.priority)] := by
  simp [keys, PriorityQueue.Push]

theorem slots_Push (pq : PriorityQueue) (x : Item) (h : SlotsConsistent pq) :
    SlotsConsistent (pq.Push x) := by
  rw [slots_iff] at h ⊢
  intro k a ha
  rcases Nat.lt_or_ge k pq.length with hk | hk
  · rw [PriorityQueue.Push, List.getElem?_append_left hk] at ha
    exact h k a ha
  · rw [PriorityQueue.Push, List.getElem?_append_right hk] at ha
    have hk0 : k - pq.length = 0 := by
      rcases Nat.eq_zero_or_pos (k - pq.length) with e | e
      · exact e
      · rw [List.getElem?_eq_none (by simp only [List.length_singleton]; omega)] at ha; cases ha
    rw [hk0] at ha
    simp only [List.getElem?_cons_zero, Option.some.injEq] at ha
    subst ha
    simp only [PriorityQueue.Len]
    omega

/-- The method `push` always returns; what it returns is the queue with the new
item appended, after some swaps. -/
theorem push_reach (pq : PriorityQueue) (x : Item) :
    ∃ pq1, push pq x = .ok pq1 ∧ SwapReach (pq.length + 1) (pq.Push x) pq1 := by
  obtain ⟨pq1, h1, h2⟩ := up_reach (pq.Push x) pq.length (by rw [length_Push]; omega)
  rw [length_Push] at h2
  refine ⟨pq1, ?_, h2⟩
  simp only [push, heapPush, Len_Push_sub_one, h1]

theorem push_heap (pq : PriorityQueue) (x : Item) (hh : HeapInvariant pq) (hn : NoNaN pq)
    (hx : x.priority.isNaN = false) :
    ∃ pq1, push pq x = .ok pq1 ∧ HeapInvariant pq1 ∧ NoNaN pq1 := by
  have hinv : UpInv (pq.Push x).length (pq.Push x) pq.length := by
    rw [length_Push]
    refine ⟨length_Push pq x, by omega, ?_, ?_, ?_⟩
    · intro m hm
      rcases Nat.lt_or_ge m pq.length with c | c
      · rw [prioAt_Push_lt pq x m c]; exact (NoNaN_iff pq).mp hn m c
      · have : m = pq.length := by omega
        subst this
        rw [prioAt_Push_last]; exact hx
    · intro m hm hm0 hne
      have c : m < pq.length := by omega
      rw [prioAt_Push_lt pq x m c, prioAt_Push_lt pq x _ (by omega)]
      exact hh m c hm0
    · intro m hm hm0 hp _
      omega
  obtain ⟨pq1, h1, h2, h3⟩ := up_heap (pq.Push x) pq.length hinv
  refine ⟨pq1, ?_, h2, h3⟩
  simp only [push, heapPush, Len_Push_sub_one, h1]

/-! ## pop -/

theorem pop_of_down (pq : PriorityQueue) (a : Item) (h0 : pq[0]? = some a)
    (moved : Bool) (pq2 : PriorityQueue)
    (hd : down (swapN pq 0 (pq.length - 1)) ((0 : Nat) : Int) ((pq.length - 1 : Nat) : Int)
      = .ok (moved, pq2))
    (hlen : pq2.length = pq.length)
    (hlast : pq2[pq.length - 1]? = some { a with index := ((pq.length - 1 : Nat) : Int) }) :
    pop pq = .ok ({ a with index := -1 }, pq2.take (pq.length - 1)) := by
  have hpos : 0 < pq.length := lt_of_getElem? pq 0 a h0
  have e1 : pq.Len - 1 = ((pq.length - 1 : Nat) : Int) := by
    simp only [PriorityQueue.Len]; omega
  have e2 : pq2.Len - 1 = ((pq.length - 1 : Nat) : Int) := by
    simp only [PriorityQueue.Len, hlen]; omega
  have hs := Swap_natCast pq 0 (pq.length - 1) hpos (by omega)
  have hp : pq2.Pop = some ({ a with index := -1 }, pq2.take (pq.length - 1)) := by
    simp only [PriorityQueue.Pop, e2, elem_natCast, hlast, Int.toNat_ofNat]
  simp only [Nat.cast_zero] at hs hd
  simp only [pop, heapPop, e1, hs, hd, hp]

theorem pop_reach (pq : PriorityQueue) (hne : pq ≠ []) :
    ∃ a pq2, pq[0]? = some a ∧
      SwapReach (pq.length - 1) (swapN pq 0 (pq.length - 1)) pq2 ∧
      pq2[pq.length - 1]? = some { a with index := ((pq.length - 1 : Nat) : Int) } ∧
      pop pq = .ok ({ a with index := -1 }, pq2.take (pq.length - 1)) := by
  have hpos : 0 < pq.length := List.length_pos.mpr hne
  obtain ⟨a, ha⟩ := getElem?_of_lt pq 0 hpos
  obtain ⟨b, hb⟩ := getElem?_of_lt pq (pq.length - 1) (by omega)
  have hl0 := length_swapN pq 0 (pq.length - 1)
  obtain ⟨moved, pq2, h1, h2, _⟩ :=
    down_reach (swapN pq 0 (pq.length - 1)) 0 (pq.length - 1) (by omega) (by omega)
  have hlen : pq2.length = pq.length := by rw [h2.length_eq, hl0]
  have hlast : pq2[pq.length - 1]? = some { a with index := ((pq.length - 1 : Nat) : Int) } := by
    rw [h2.above (by omega) (pq.length - 1) (le_refl _),
      getElem?_swapN pq 0 (pq.length - 1) (pq.length - 1) a b ha hb, if_pos rfl]
  exact ⟨a, pq2, ha, h2, hlast, pop_of_down pq a ha moved pq2 h1 hlen hlast⟩

theorem prioAt_take (q : PriorityQueue) (n m : Nat) (hm : m < n) :
    prioAt (q.take n) m = prioAt q m := by
  simp [prioAt, List.getElem?_take, hm]

theorem pop_heap (pq : PriorityQueue) (hne : pq ≠ []) (hh : HeapInvariant pq) (hn : NoNaN pq) :
    ∃ r, pop pq = .ok r ∧ HeapInvariant r.2 ∧ NoNaN r.2 := by
  have hpos : 0 < pq.length := List.length_pos.mpr hne
  obtain ⟨a, ha⟩ := getElem?_of_lt pq 0 hpos
  have hl0 := length_swapN pq 0 (pq.length - 1)
  have hnan := (NoNaN_iff pq).mp hn
  have hsw : ∀ m, prioAt (swapN pq 0 (pq.length - 1)) m =
      if m = pq.length - 1 then prioAt pq 0
      else if m = 0 then prioAt pq (pq.length - 1) else prioAt pq m :=
    fun m => prioAt_swapN pq 0 (pq.length - 1) m hpos (by omega)
  have hinv : DownInv pq.length (pq.length - 1) 0 (swapN pq 0 (pq.length - 1)) 0 := by
    refine ⟨hl0, by omega, hpos, le_refl _, ?_, ?_, ?_, ?_⟩
    · intro m hm
      rw [hsw m]
      split_ifs
      · exact hnan _ hpos
      · exact hnan _ (by omega)
      · exact hnan _ hm
    · intro m hm hm0 _ hmp
      rw [hsw m, hsw ((m - 1) / 2), if_neg (show ¬ m = pq.length - 1 by omega),
        if_neg (show ¬ m = 0 by omega), if_neg (show ¬ (m - 1) / 2 = pq.length - 1 by omega),
        if_neg hmp]
      exact hh m (by omega) hm0
    · intro m _ _ _ h; omega
    · intro h; omega
  obtain ⟨moved, pq3, h1, _, h3, h4, _⟩ :=
    down_heap pq.length (pq.length - 1) 0 (swapN pq 0 (pq.length - 1)) hinv
  have hpop2 := pop_of_down pq a ha moved pq3 h1
  obtain ⟨moved2, pq4, h5, h6, _⟩ :=
    down_reach (swapN pq 0 (pq.length - 1)) 0 (pq.length - 1) (by omega) (by omega)
  rw [h1] at h5
  have e : pq3 = pq4 := by
    injection h5 with h5
    exact (Prod.mk.inj h5).2
  subst e
  obtain ⟨b, hb⟩ := getElem?_of_lt pq (pq.length - 1) (by omega)
  have hlen3 : pq3.length = pq.length := by rw [h6.length_eq, hl0]
  have hlast3 : pq3[pq.length - 1]? =
      some { a with index := ((pq.length - 1 : Nat) : Int) } := by
    rw [h6.above (by omega) (pq.length - 1) (le_refl _),
      getElem?_swapN pq 0 (pq.length - 1) (pq.length - 1) a b ha hb, if_pos rfl]
  refine ⟨_, hpop2 hlen3 hlast3, ?_, ?_⟩
  · intro m hm hm0
    have hm2 : m < pq.length - 1 := by
      simp only [List.length_take, hlen3] at hm; omega
    simp only [prioAt_take pq3 (pq.length - 1) m hm2,
      prioAt_take pq3 (pq.length - 1) ((m - 1) / 2) (by omega)]
    exact h4 m hm2 hm0 (Or.inl (by omega))
  · rw [NoNaN_iff]
    intro m hm
    have hm2 : m < pq.length - 1 := by
      simp only [List.length_take, hlen3] at hm; omega
    simp only [prioAt_take pq3 (pq.length - 1) m hm2]
    exact h3 m (by omega)

/-- In a heap without NaN the root is `<=` every item. -/
theorem root_le (pq : PriorityQueue) (hh : HeapInvariant pq) (hn : NoNaN pq) :
    ∀ m, m < pq.length → (prioAt pq 0).le (prioAt pq m) = true := by
  intro m
  induction m using Nat.strong_induction_on with
  | _ m ih =>
    intro hm
    rcases Nat.eq_zero_or_pos m with h0 | hpos
    · subst h0; exact F64.le_self ((NoNaN_iff pq).mp hn 0 hm)
    · exact F64.le_tr (ih ((m - 1) / 2) (by omega) (by omega)) (hh m hm hpos)

/-- C1, amended: for every non-empty queue without NaN priorities that satisfies
the heap invariant, `pop` returns an entry whose priority is `<=` the priority of
every entry that was in the queue immediately before the call. -/
theorem pop_returns_minimum (pq : PriorityQueue) (hne : pq ≠ []) (hh : HeapInvariant pq)
    (hn : NoNaN pq) :
    ∃ item rest, pop pq = .ok (item, rest) ∧
      ∀ a ∈ pq, item.priority.le a.priority = true := by
  obtain ⟨a, pq2, ha, _, _, hpop⟩ := pop_reach pq hne
  refine ⟨_, _, hpop, ?_⟩
  intro b hb
  obtain ⟨m, hm, e⟩ := List.getElem_of_mem hb
  have h1 := root_le pq hh hn m hm
  simp only [prioAt, ha, List.getElem?_eq_getElem hm, e] at h1
  exact h1

theorem pop_returns_minimum_witness :
    ([⟨2, .fin 3, 0⟩, ⟨1, .fin 5, 1⟩, ⟨3, .fin 8, 2⟩] : PriorityQueue) ≠ [] ∧
    HeapInvariant [⟨2, .fin 3, 0⟩, ⟨1, .fin 5, 1⟩, ⟨3, .fin 8, 2⟩] ∧
    NoNaN [⟨2, .fin 3, 0⟩, ⟨1, .fin 5, 1⟩, ⟨3, .fin 8, 2⟩] ∧
    ∃ item rest, pop [⟨2, .fin 3, 0⟩, ⟨1, .fin 5, 1⟩, ⟨3, .fin 8, 2⟩] = .ok (item, rest) ∧
      ∀ a ∈ ([⟨2, .fin 3, 0⟩, ⟨1, .fin 5, 1⟩, ⟨3, .fin 8, 2⟩] : PriorityQueue),
        item.priority.le a.priority = true :=
  ⟨by decide, by decide, by decide,
    pop_returns_minimum _ (by decide) (by decide) (by decide)⟩

/-- C1 as stated fails: the one-entry queue whose priority is NaN satisfies the
heap invariant, and `pop` returns that entry, whose priority is not `<=` itself. -/
theorem pop_minimum_fails_on_NaN :
    ([⟨1, .nan, 0⟩] : PriorityQueue) ≠ [] ∧ HeapInvariant [⟨1, .nan, 0⟩] ∧
    pop [⟨1, .nan, 0⟩] = .ok (⟨1, .nan, -1⟩, []) ∧
    ¬ (∀ a ∈ ([⟨1, .nan, 0⟩] : PriorityQueue),
        (⟨1, .nan, -1⟩ : Item).priority.le a.priority = true) := by
  decide

/-! ## heap.Fix and update -/

theorem heapFix_reach (q : PriorityQueue) (i : Nat) (hi : i < q.length) :
    ∃ q1, heapFix q i = .ok q1 ∧ SwapReach q.length q q1 := by
  obtain ⟨moved, q1, h1, h2, _⟩ := down_reach q i q.length hi (le_refl _)
  cases moved with
  | true => exact ⟨q1, by simp only [heapFix, PriorityQueue.Len, h1, if_true], h2⟩
  | false =>
    obtain ⟨q2, h3, h4⟩ := up_reach q1 i (by rw [h2.length_eq]; exact hi)
    rw [h2.length_eq] at h4
    refine ⟨q2, ?_, h2.trans h4⟩
    simp only [heapFix, PriorityQueue.Len, h1, h3, Bool.false_eq_true, if_false]

theorem heapFix_heap (q : PriorityQueue) (i : Nat) (h : DownInv q.length q.length i q i) :
    ∃ q1, heapFix q i = .ok q1 ∧ HeapInvariant q1 ∧ NoNaN q1 := by
  obtain ⟨moved, q1, h1, h2, h3, h4, h5⟩ := down_heap q.length q.length i q h
  cases moved with
  | true =>
    refine ⟨q1, by simp only [heapFix, PriorityQueue.Len, h1, if_true], ?_, ?_⟩
    · intro m hm hm0
      exact h4 m (by omega) hm0 (Or.inr rfl)
    · rw [NoNaN_iff, h2]; exact h3
  | false =>
    have hinv : UpInv q1.length q1 i := by
      rw [h2]
      exact ⟨h2, h.2.2.1, h3, fun m hm hm0 hne => h4 m hm hm0 (Or.inl hne),
        fun m hm hm0 hp hi0 => h5 rfl m hm hm0 hp hi0⟩
    obtain ⟨q2, h6, h7, h8⟩ := up_heap q1 i hinv
    refine ⟨q2, ?_, h7, h8⟩
    simp only [heapFix, PriorityQueue.Len, h1, h6, Bool.false_eq_true, if_false]

theorem firstMatch_some (v : Int) (pq : PriorityQueue) (k : Nat) (item : Item)
    (h : firstMatch v pq = some (k, item)) :
    pq[k]? = some item ∧ item.value = v ∧
      ∀ (m : Nat) (b : Item), m < k → pq[m]? = some b → b.value ≠ v := by
  induction pq generalizing k with
  | nil => simp [firstMatch] at h
  | cons x rest ih =>
    unfold firstMatch at h
    split at h
    · rename_i hx
      cases h
      exact ⟨by simp, hx, fun m b hm _ => absurd hm (Nat.not_lt_zero m)⟩
    · rename_i hx
      cases hr : firstMatch v rest with
      | none => rw [hr] at h; cases h
      | some r =>
        obtain ⟨k1, it1⟩ := r
        rw [hr] at h
        simp only [Option.map_some', Option.some.injEq, Prod.mk.injEq] at h
        obtain ⟨hk, hit⟩ := h
        subst hk; subst hit
        obtain ⟨h1, h2, h3⟩ := ih k1 hr
        refine ⟨by simpa using h1, h2, ?_⟩
        intro m b hm hb
        cases m with
        | zero =>
          simp only [List.getElem?_cons_zero, Option.some.injEq] at hb
          subst hb; exact hx
        | succ m1 =>
          simp only [List.getElem?_cons_succ] at hb
          exact h3 m1 b (by omega) hb

theorem firstMatch_none (v : Int) (pq : PriorityQueue) :
    firstMatch v pq = none ↔ ∀ a ∈ pq, a.value ≠ v := by
  induction pq with
  | nil => simp [firstMatch]
  | cons x rest ih =>
    unfold firstMatch
    by_cases hx : x.value = v
    · simp [hx]
    · simp [hx, ih]

theorem prioAt_set (pq : PriorityQueue) (k : Nat) (x : Item) (hk : k < pq.length) (m : Nat) :
    prioAt (pq.set k x) m = if m = k then x.priority else prioAt pq m := by
  unfold prioAt
  rw [List.getElem?_set]
  by_cases c : m = k
  · subst c; simp [hk]
  · simp [c, Ne.symm c]

theorem slots_set (pq : PriorityQueue) (k : Nat) (item : Item) (p : F64)
    (hk : pq[k]? = some item) (h : SlotsConsistent pq) :
    SlotsConsistent (pq.set k { item with priority := p }) := by
  rw [slots_iff] at h ⊢
  intro m a ha
  rw [List.getElem?_set] at ha
  by_cases c : k = m
  · subst c
    simp only [if_true, lt_of_getElem? pq k item hk, Option.some.injEq] at ha
    subst ha
    exact h k item hk
  · simp only [c, if_false] at ha
    exact h m a ha

theorem keys_set (pq : PriorityQueue) (k : Nat) (x : Item) :
    keys (pq.set k x) = (keys pq).set k (x.value, x.priority) := by
  simp [keys, List.map_set]

/-- With the slot field of the matched item in order, `update` returns; what it
returns is the queue with the new priority written, after some swaps. -/
theorem update_reach (pq : PriorityQueue) (v : Int) (p : F64) (k : Nat) (item : Item)
    (hf : firstMatch v pq = some (k, item)) (hs : item.index = (k : Int)) :
    ∃ q1, update pq v p = .ok q1 ∧
      SwapReach pq.length (pq.set k { item with priority := p }) q1 := by
  have hk := lt_of_getElem? pq k item (firstMatch_some v pq k item hf).1
  obtain ⟨q1, h1, h2⟩ := heapFix_reach (pq.set k { item with priority := p }) k
    (by rw [List.length_set]; exact hk)
  rw [List.length_set] at h2
  exact ⟨q1, by simp only [update, hf]; exact (congrArg (heapFix _) hs).trans h1, h2⟩

theorem update_heap (pq : PriorityQueue) (v : Int) (p : F64) (k : Nat) (item : Item)
    (hf : firstMatch v pq = some (k, item)) (hs : item.index = (k : Int))
    (hh : HeapInvariant pq) (hn : NoNaN pq) (hp : p.isNaN = false) :
    ∃ q1, update pq v p = .ok q1 ∧ HeapInvariant q1 ∧ NoNaN q1 := by
  have hk := lt_of_getElem? pq k item (firstMatch_some v pq k item hf).1
  have hnan := (NoNaN_iff pq).mp hn
  have hset : ∀ m, prioAt (pq.set k { item with priority := p }) m =
      if m = k then p else prioAt pq m :=
    fun m => prioAt_set pq k _ hk m
  have hinv : DownInv (pq.set k { item with priority := p }).length
      (pq.set k { item with priority := p }).length k (pq.set k { item with priority := p }) k := by
    rw [List.length_set]
    refine ⟨List.length_set _ _ _, le_refl _, hk, le_refl _, ?_, ?_, ?_, ?_⟩
    · intro m hm
      rw [hset m]
      split_ifs
      · exact hp
      · exact hnan m hm
    · intro m hm hm0 hmk hmp
      rw [hset m, hset ((m - 1) / 2), if_neg hmk, if_neg hmp]
      exact hh m hm hm0
    · intro m hm hm0 hmp hk0
      rw [hset m, hset ((k - 1) / 2), if_neg (show ¬ m = k by omega),
        if_neg (show ¬ (k - 1) / 2 = k by omega)]
      have h1 := hh k hk hk0
      have h2 := hh m hm hm0
      rw [hmp] at h2
      exact F64.le_tr h1 h2
    · intro h; omega
  obtain ⟨q1, h1, h2, h3⟩ := heapFix_heap (pq.set k { item with priority := p }) k hinv
  exact ⟨q1, by simp only [update, hf]; exact (congrArg (heapFix _) hs).trans h1, h2, h3⟩

/-- `update` with an identifier that no item carries returns the queue as it was. -/
theorem update_absent (pq : PriorityQueue) (v : Int) (p : F64)
    (h : ∀ a ∈ pq, a.value ≠ v) : update pq v p = .ok pq := by
  simp only [update, (firstMatch_none v pq).mpr h]

/-! ## What each operation does to a queue -/

theorem push_props (pq : PriorityQueue) (x : Item) :
    ∃ pq1, push pq x = .ok pq1 ∧ pq1.length = pq.length + 1 ∧
      List.Perm (keys pq1) (keys pq ++ [(x.value, x.priority)]) ∧
      (SlotsConsistent pq → SlotsConsistent pq1) := by
  obtain ⟨pq1, h1, h2⟩ := push_reach pq x
  have hl := length_Push pq x
  refine ⟨pq1, h1, by rw [h2.length_eq, hl], ?_, ?_⟩
  · have := h2.keys_perm (by omega)
    rw [keys_Push] at this
    exact this
  · intro hs
    exact h2.slots (by omega) (slots_Push pq x hs)

theorem slots_take (q : PriorityQueue) (n : Nat) (h : SlotsConsistent q) :
    SlotsConsistent (q.take n) := by
  rw [slots_iff] at h ⊢
  intro m a ha
  rw [List.getElem?_take] at ha
  split at ha
  · exact h m a ha
  · cases ha

theorem pop_props (pq : PriorityQueue) (hne : pq ≠ []) :
    ∃ a rest, pq[0]? = some a ∧ pop pq = .ok ({ a with index := -1 }, rest) ∧
      rest.length + 1 = pq.length ∧
      List.Perm (keys pq) ((a.value, a.priority) :: keys rest) ∧
      (SlotsConsistent pq → SlotsConsistent rest) := by
  have hpos : 0 < pq.length := List.length_pos.mpr hne
  obtain ⟨a, pq2, ha, hr, hlast, hpop⟩ := pop_reach pq hne
  have hl0 := length_swapN pq 0 (pq.length - 1)
  have hlen : pq2.length = pq.length := by rw [hr.length_eq, hl0]
  refine ⟨a, _, ha, hpop, ?_, ?_, ?_⟩
  · rw [List.length_take, hlen]; omega
  · have h1 : List.Perm (keys pq2) (keys pq) :=
      (hr.keys_perm (by omega)).trans (keys_swapN pq 0 (pq.length - 1) hpos (by omega))
    have h2 : pq2 = pq2.take (pq.length - 1) ++
        [{ a with index := ((pq.length - 1 : Nat) : Int) }] := by
      have h3 : pq2.drop (pq.length - 1) =
          [{ a with index := ((pq.length - 1 : Nat) : Int) }] := by
        apply List.ext_getElem?
        intro m
        rw [List.getElem?_drop]
        cases m with
        | zero => simpa using hlast
        | succ m1 =>
          rw [List.getElem?_eq_none (by omega)]
          simp
      conv_lhs => rw [← List.take_append_drop (pq.length - 1) pq2, h3]
    have h4 : keys pq2 = keys (pq2.take (pq.length - 1)) ++ [(a.value, a.priority)] := by
      conv_lhs => rw [h2]
      simp [keys]
    rw [h4] at h1
    exact h1.symm.trans (List.perm_append_comm)
  · intro hs
    exact slots_take pq2 _ (hr.slots (by omega) (slots_swapN pq 0 (pq.length - 1) hpos
      (by omega) hs))

theorem update_props (pq : PriorityQueue) (v : Int) (p : F64) (hs : SlotsConsistent pq) :
    ∃ q1, update pq v p = .ok q1 ∧ q1.length = pq.length ∧ SlotsConsistent q1 ∧
      ((∀ a ∈ pq, a.value ≠ v) → q1 = pq) ∧
      (∀ k item, firstMatch v pq = some (k, item) →
        List.Perm (keys q1) ((keys pq).set k (v, p))) := by
  cases hf : firstMatch v pq with
  | none =>
    have hu : update pq v p = .ok pq := by simp only [update, hf]
    exact ⟨pq, hu, rfl, hs, fun _ => rfl, fun k item h => by cases h⟩
  | some r =>
    obtain ⟨k, item⟩ := r
    obtain ⟨h1, h2, h3⟩ := firstMatch_some v pq k item hf
    obtain ⟨q1, h4, h5⟩ := update_reach pq v p k item hf ((slots_iff pq).mp hs k item h1)
    have hl : (pq.set k { item with priority := p }).length = pq.length := List.length_set _ _ _
    refine ⟨q1, h4, by rw [h5.length_eq, hl], ?_, ?_, ?_⟩
    · exact h5.slots (by omega) (slots_set pq k item p h1 hs)
    · intro hab
      exact absurd h2 (hab item (List.mem_iff_getElem?.mpr ⟨k, h1⟩))
    · intro k1 item1 he
      cases he
      have := h5.keys_perm (by omega)
      rw [keys_set] at this
      simpa [h2] using this

/-! ## Sequences of calls -/

theorem step_slots (pq : PriorityQueue) (op : Op) (hs : SlotsConsistent pq)
    (hop : ¬ (op = .pop ∧ pq = [])) :
    ∃ pq1, step pq op = .ok pq1 ∧ SlotsConsistent pq1 ∧
      pq1.length + (numPop [op]) = pq.length + (numPush [op]) := by
  cases op with
  | push x =>
    obtain ⟨pq1, h1, h2, _, h4⟩ := push_props pq x
    exact ⟨pq1, h1, h4 hs, by simp [numPop, numPush, h2]⟩
  | pop =>
    have hne : pq ≠ [] := fun e => hop ⟨rfl, e⟩
    obtain ⟨a, rest, _, h2, h3, _, h5⟩ := pop_props pq hne
    refine ⟨rest, by simp only [step, h2], h5 hs, ?_⟩
    simp [numPop, numPush, h3]
  | update v p =>
    obtain ⟨q1, h1, h2, h3, _⟩ := update_props pq v p hs
    exact ⟨q1, h1, h3, by simp [numPop, numPush, h2]⟩

theorem runOps_slots (ops : List Op) :
    ∀ pq0, SlotsConsistent pq0 → popsEmpty ops pq0 = false →
      ∃ pq, runOps ops pq0 = .ok pq ∧ SlotsConsistent pq ∧
        pq.length + numPop ops = pq0.length + numPush ops := by
  induction ops with
  | nil => intro pq0 hs _; exact ⟨pq0, rfl, hs, rfl⟩
  | cons op rest ih =>
    intro pq0 hs hp
    have hop : ¬ (op = .pop ∧ pq0 = []) := by
      intro c
      simp [popsEmpty, c] at hp
    obtain ⟨pq1, h1, h2, h3⟩ := step_slots pq0 op hs hop
    have hp1 : popsEmpty rest pq1 = false := by
      simpa [popsEmpty, hop, h1] using hp
    obtain ⟨pq, h4, h5, h6⟩ := ih pq1 h2 hp1
    refine ⟨pq, by simp only [runOps, h1, h4], h5, ?_⟩
    have e1 : numPop (op :: rest) = numPop [op] + numPop rest := by
      simp only [numPop, List.countP_cons, List.countP_nil]; omega
    have e2 : numPush (op :: rest) = numPush [op] + numPush rest := by
      simp only [numPush, List.countP_cons, List.countP_nil]; omega
    omega

theorem slots_nil : SlotsConsistent [] := by
  intro i hi; simp at hi

theorem step_heap (pq : PriorityQueue) (op : Op) (hs : SlotsConsistent pq)
    (hh : HeapInvariant pq) (hn : NoNaN pq) (hnan : op.notNaN = true)
    (hop : ¬ (op = .pop ∧ pq = [])) :
    ∃ pq1, step pq op = .ok pq1 ∧ HeapInvariant pq1 ∧ NoNaN pq1 := by
  cases op with
  | push x =>
    have hx : x.priority.isNaN = false := by simpa [Op.notNaN] using hnan
    exact push_heap pq x hh hn hx
  | pop =>
    have hne : pq ≠ [] := fun e => hop ⟨rfl, e⟩
    obtain ⟨r, h1, h2, h3⟩ := pop_heap pq hne hh hn
    exact ⟨r.2, by simp only [step, h1], h2, h3⟩
  | update v p =>
    have hp : p.isNaN = false := by simpa [Op.notNaN] using hnan
    cases hf : firstMatch v pq with
    | none =>
      exact ⟨pq, by simp only [step, update, hf], hh, hn⟩
    | some r =>
      obtain ⟨k, item⟩ := r
      have h1 := (firstMatch_some v pq k item hf).1
      exact update_heap pq v p k item hf ((slots_iff pq).mp hs k item h1) hh hn hp

theorem runOps_heap (ops : List Op) :
    ∀ pq0, SlotsConsistent pq0 → HeapInvariant pq0 → NoNaN pq0 →
      (∀ op ∈ ops, op.notNaN = true) → popsEmpty ops pq0 = false →
      ∃ pq, runOps ops pq0 = .ok pq ∧ HeapInvariant pq ∧ NoNaN pq := by
  induction ops with
  | nil => intro pq0 _ hh hn _ _; exact ⟨pq0, rfl, hh, hn⟩
  | cons op rest ih =>
    intro pq0 hs hh hn hall hp
    have hop : ¬ (op = .pop ∧ pq0 = []) := by
      intro c
      simp [popsEmpty, c] at hp
    obtain ⟨pq1, h1, h2, h3⟩ :=
      step_heap pq0 op hs hh hn (hall op (List.mem_cons_self _ _)) hop
    obtain ⟨pq1b, h1b, h2b, _⟩ := step_slots pq0 op hs hop
    rw [h1] at h1b
    cases h1b
    have hp1 : popsEmpty rest pq1 = false := by
      simpa [popsEmpty, hop, h1] using hp
    obtain ⟨pq, h4, h5, h6⟩ :=
      ih pq1 h2b h2 h3 (fun o ho => hall o (List.mem_cons_of_mem _ ho)) hp1
    exact ⟨pq, by simp only [runOps, h1, h4], h5, h6⟩

/-! ## The list of items of a store

On a store in which every slot points to an item and no item stands in two
slots, the code on the store does what the code on the list of items does. -/

theorem view_length (s : Store) : s.view.length = s.pq.length := by
  simp [Store.view]

theorem view_getElem? (s : Store) (k : Nat) :
    s.view[k]? = (s.pq[k]?).map (fun p => (s.mem[p]?).getD ⟨0, .nan, 0⟩) := by
  simp [Store.view, Store.deref]

theorem view_of_ptr (s : Store) (hv : s.Valid) (k p : Nat) (h : s.pq[k]? = some p) :
    s.mem[p]? = s.view[k]? ∧ p < s.mem.length := by
  have hp : p < s.mem.length := hv.2 p (List.mem_iff_getElem?.mpr ⟨k, h⟩)
  refine ⟨?_, hp⟩
  rw [view_getElem?, h]
  simp [List.getElem?_eq_getElem hp]

theorem elem_view (s : Store) (hv : s.Valid) (i : Int) : s.elem i = s.view.elem i := by
  unfold Store.elem Store.ptr PriorityQueue.elem
  by_cases hi : 0 ≤ i
  · simp only [hi, if_true]
    cases h : s.pq[i.toNat]? with
    | none => simp [view_getElem?, h]
    | some p =>
      rw [← (view_of_ptr s hv _ p h).1]
      rfl
  · simp [hi]

theorem Less_view (s : Store) (hv : s.Valid) (i j : Int) : s.Less i j = s.view.Less i j := by
  unfold Store.Less PriorityQueue.Less
  rw [elem_view s hv, elem_view s hv]

/-- Writing to an item that stands in one slot of the queue changes that slot of
the list of items. -/
theorem view_setMem (mem : List Item) (pq : List Nat) (hnd : pq.Nodup) (k p : Nat) (x : Item)
    (hk : pq[k]? = some p) (hp : p < mem.length) :
    Store.view ⟨mem.set p x, pq⟩ = (Store.view ⟨mem, pq⟩).set k x := by
  apply List.ext_getElem?
  intro m
  rw [view_getElem?, List.getElem?_set]
  have hkl : k < pq.length := by
    by_contra c
    rw [List.getElem?_eq_none (by omega)] at hk
    cases hk
  by_cases hm : k = m
  · subst hm
    simp [hk, view_length, hkl, List.getElem?_set, hp]
  · simp only [hm, if_false, view_getElem?]
    cases hq : pq[m]? with
    | none => rfl
    | some q =>
      have hne : p ≠ q := by
        intro e
        subst e
        have hml : m < pq.length := by
          by_contra c
          rw [List.getElem?_eq_none (by omega)] at hq
          cases hq
        rw [List.getElem?_eq_getElem hkl] at hk
        rw [List.getElem?_eq_getElem hml] at hq
        have := (List.Nodup.getElem_inj_iff hnd).mp ((Option.some.inj hk).trans (Option.some.inj hq).symm)
        exact hm this
      simp [List.getElem?_set, hne]

/-- Writing to an item that is not in the queue leaves the list of items as it
is. -/
theorem view_setMem_out (mem : List Item) (pq : List Nat) (p : Nat) (x : Item)
    (hp : p ∉ pq) :
    Store.view ⟨mem.set p x, pq⟩ = Store.view ⟨mem, pq⟩ := by
  unfold Store.view
  apply List.map_congr_left
  intro q hq
  have : p ≠ q := fun e => hp (e ▸ hq)
  simp [Store.deref, List.getElem?_set, this]

theorem view_setPq (mem : List Item) (pq : List Nat) (k p : Nat) :
    Store.view ⟨mem, pq.set k p⟩ = (Store.view ⟨mem, pq⟩).set k ((mem[p]?).getD ⟨0, .nan, 0⟩) := by
  simp [Store.view, Store.deref, List.map_set]

theorem setIndex_eq (s : Store) (p : Nat) (n : Int) (a : Item) (h : s.mem[p]? = some a) :
    s.setIndex p n = some ⟨s.mem.set p { a with index := n }, s.pq⟩ := by
  simp [Store.setIndex, Store.deref, h]

theorem setPriority_eq (s : Store) (p : Nat) (x : F64) (a : Item) (h : s.mem[p]? = some a) :
    s.setPriority p x = some ⟨s.mem.set p { a with priority := x }, s.pq⟩ := by
  simp [Store.setPriority, Store.deref, h]


theorem ptr_of_view (s : Store) (hv : s.Valid) (i : Int) (a : Item) (h : s.view.elem i = some a) :
    ∃ m p : Nat, i = (m : Int) ∧ m < s.pq.length ∧ s.pq[m]? = some p ∧ s.mem[p]? = some a ∧
      p < s.mem.length ∧ s.view[m]? = some a := by
  unfold PriorityQueue.elem at h
  by_cases hi : 0 ≤ i
  · simp only [hi, if_true] at h
    have hm : i.toNat < s.pq.length := by
      rw [← view_length]
      exact lt_of_getElem? _ _ _ h
    obtain ⟨p, hp⟩ : ∃ p, s.pq[i.toNat]? = some p := ⟨_, List.getElem?_eq_getElem hm⟩
    obtain ⟨h1, h2⟩ := view_of_ptr s hv _ p hp
    exact ⟨i.toNat, p, (Int.toNat_of_nonneg hi).symm, hm, hp, h1.trans h, h2, h⟩
  · simp [hi] at h

theorem Swap_view (s : Store) (hv : s.Valid) (i j : Int) (q1 : PriorityQueue)
    (h : s.view.Swap i j = some q1) :
    ∃ s1, s.Swap i j = some s1 ∧ s1.view = q1 ∧ s1.Valid := by
  unfold PriorityQueue.Swap at h
  cases ha : s.view.elem i with
  | none => simp [ha] at h
  | some a =>
    cases hb : s.view.elem j with
    | none => simp [ha, hb] at h
    | some b =>
      simp only [ha, hb, Option.some.injEq] at h
      obtain ⟨m, pi, rfl, hm, hpi, hmi, hpil, hvi⟩ := ptr_of_view s hv i a ha
      obtain ⟨n, pj, rfl, hn, hpj, hmj, hpjl, hvj⟩ := ptr_of_view s hv j b hb
      simp only [Int.toNat_ofNat] at h
      obtain ⟨mem, pq⟩ := s
      simp only at hm hpi hmi hpil hn hpj hmj hpjl
      have hnd : pq.Nodup := hv.1
      by_cases hmn : m = n
      · subst hmn
        have e : pi = pj := Option.some.inj (hpi.symm.trans hpj)
        subst e
        have e2 : a = b := Option.some.inj (hmi.symm.trans hmj)
        subst e2
        have hp0 : pq.set m pi = pq := by
          apply List.ext_getElem?
          intro k
          rw [List.getElem?_set]
          split
          · next e => subst e; simp [hm, hpi]
          · rfl
        refine ⟨⟨mem.set pi { a with index := (m : Int) }, pq⟩, ?_, ?_, ?_⟩
        · simp [Store.Swap, Store.ptr, hpi, hp0, Store.setIndex, Store.deref, hmi, hpil]
        · rw [view_setMem mem pq hnd m pi _ hpi hpil, ← h]
          simp
        · exact ⟨hnd, by simpa using hv.2⟩
      · have hpp : pi ≠ pj := by
          intro e
          subst e
          rw [List.getElem?_eq_getElem hm] at hpi
          rw [List.getElem?_eq_getElem hn] at hpj
          exact hmn ((List.Nodup.getElem_inj_iff hnd).mp
            ((Option.some.inj hpi).trans (Option.some.inj hpj).symm))
        have ei : pq[m] = pi := by
          rw [List.getElem?_eq_getElem hm] at hpi; exact Option.some.inj hpi
        have ej : pq[n] = pj := by
          rw [List.getElem?_eq_getElem hn] at hpj; exact Option.some.inj hpj
        have hperm : List.Perm ((pq.set m pj).set n pi) pq := by
          have := set_set_perm pq m n hm hn
          rwa [ei, ej] at this
        have hnd3 : ((pq.set m pj).set n pi).Nodup := hperm.nodup_iff.mpr hnd
        have g1 : ((pq.set m pj).set n pi)[m]? = some pj := by
          simp [List.getElem?_set, hmn, hm, Ne.symm hmn]
        have g2 : ((pq.set m pj).set n pi)[n]? = some pi := by
          simp [List.getElem?_set, hn]
        have g3 : (mem.set pj { b with index := (m : Int) })[pi]? = some a := by
          rw [List.getElem?_set_ne (Ne.symm hpp)]; exact hmi
        refine ⟨⟨(mem.set pj { b with index := (m : Int) }).set pi { a with index := (n : Int) },
          (pq.set m pj).set n pi⟩, ?_, ?_, ?_⟩
        · simp [Store.Swap, Store.ptr, hpi, hpj, g1, g2, Store.setIndex, Store.deref, hmj, g3]
        · rw [view_setMem _ _ hnd3 n pi _ g2 (by simpa using hpil),
            view_setMem _ _ hnd3 m pj _ g1 hpjl, view_setPq, view_setPq, ← h]
          apply List.ext_getElem?
          intro k
          simp only [List.getElem?_set, List.length_set]
          split_ifs <;> simp_all
        · refine ⟨hnd3, ?_⟩
          intro p hp
          have := hv.2 p (hperm.mem_iff.mp hp)
          simpa using this

theorem upLoop_view (fuel : Nat) : ∀ (s : Store) (j : Int) (q1 : PriorityQueue), s.Valid →
    upLoop fuel s.view j = .ok q1 →
    ∃ s1, Store.upLoop fuel s j = .ok s1 ∧ s1.view = q1 ∧ s1.Valid := by
  induction fuel with
  | zero => intro s j q1 _ h; simp [upLoop] at h
  | succ fuel ih =>
    intro s j q1 hv h
    simp only [upLoop] at h
    simp only [Store.upLoop, Less_view s hv]
    by_cases hij : (j - 1).tdiv 2 = j
    · simp only [hij, if_true] at h ⊢
      cases h
      exact ⟨s, rfl, rfl, hv⟩
    · simp only [hij, if_false] at h ⊢
      cases hl : s.view.Less j ((j - 1).tdiv 2) with
      | none => simp [hl] at h
      | some b =>
        cases b with
        | false =>
          simp only [hl] at h ⊢
          cases h
          exact ⟨s, rfl, rfl, hv⟩
        | true =>
          simp only [hl] at h ⊢
          cases hs : s.view.Swap ((j - 1).tdiv 2) j with
          | none => simp [hs] at h
          | some q2 =>
            simp only [hs] at h
            obtain ⟨s2, e1, e2, e3⟩ := Swap_view s hv _ _ q2 hs
            simp only [e1]
            subst e2
            exact ih s2 _ q1 e3 h

theorem up_view (s : Store) (j : Int) (q1 : PriorityQueue) (hv : s.Valid)
    (h : up s.view j = .ok q1) :
    ∃ s1, s.up j = .ok s1 ∧ s1.view = q1 ∧ s1.Valid := by
  unfold up at h
  rw [view_length] at h
  exact upLoop_view _ s j q1 hv h

theorem downLoop_view (fuel : Nat) : ∀ (s : Store) (i n : Int) (r : Int) (q1 : PriorityQueue),
    s.Valid → downLoop fuel s.view i n = .ok (r, q1) →
    ∃ s1, Store.downLoop fuel s i n = .ok (r, s1) ∧ s1.view = q1 ∧ s1.Valid := by
  induction fuel with
  | zero => intro s i n r q1 _ h; simp [downLoop] at h
  | succ fuel ih =>
    intro s i n r q1 hv h
    simp only [downLoop] at h
    simp only [Store.downLoop, Less_view s hv]
    by_cases c : 2 * i + 1 ≥ n ∨ 2 * i + 1 < 0
    · simp only [c, if_true] at h ⊢
      cases h
      exact ⟨s, rfl, rfl, hv⟩
    · simp only [c, if_false] at h ⊢
      cases hr : (if 2 * i + 1 + 1 < n then s.view.Less (2 * i + 1 + 1) (2 * i + 1)
          else some false) with
      | none => simp [hr] at h
      | some right =>
        simp only [hr] at h ⊢
        cases hl : s.view.Less (if right = true then 2 * i + 1 + 1 else 2 * i + 1) i with
        | none => simp [hl] at h
        | some b =>
          cases b with
          | false =>
            simp only [hl] at h ⊢
            cases h
            exact ⟨s, rfl, rfl, hv⟩
          | true =>
            simp only [hl] at h ⊢
            cases hs : s.view.Swap i (if right = true then 2 * i + 1 + 1 else 2 * i + 1) with
            | none => simp [hs] at h
            | some q2 =>
              simp only [hs] at h
              obtain ⟨s2, e1, e2, e3⟩ := Swap_view s hv _ _ q2 hs
              simp only [e1]
              subst e2
              exact ih s2 _ n r q1 e3 h

theorem down_view (s : Store) (i n : Int) (b : Bool) (q1 : PriorityQueue) (hv : s.Valid)
    (h : down s.view i n = .ok (b, q1)) :
    ∃ s1, s.down i n = .ok (b, s1) ∧ s1.view = q1 ∧ s1.Valid := by
  unfold down at h
  rw [view_length] at h
  cases hd : downLoop (s.pq.length + 1) s.view i n with
  | outOfFuel => simp [hd] at h
  | panic q => simp [hd] at h
  | ok r =>
    obtain ⟨k, q2⟩ := r
    simp only [hd, Outcome.ok.injEq, Prod.mk.injEq] at h
    obtain ⟨s1, e1, e2, e3⟩ := downLoop_view _ s i n k q2 hv hd
    refine ⟨s1, ?_, e2.trans h.2, e3⟩
    simp only [Store.down, e1, h.1]

theorem heapFix_view (s : Store) (i : Int) (q1 : PriorityQueue) (hv : s.Valid)
    (h : heapFix s.view i = .ok q1) :
    ∃ s1, s.heapFix i = .ok s1 ∧ s1.view = q1 ∧ s1.Valid := by
  unfold heapFix at h
  have hl : s.view.Len = s.Len := by
    simp [PriorityQueue.Len, Store.Len, view_length]
  rw [hl] at h
  cases hd : down s.view i s.Len with
  | outOfFuel => simp [hd] at h
  | panic q => simp [hd] at h
  | ok r =>
    obtain ⟨b, q2⟩ := r
    simp only [hd] at h
    obtain ⟨s1, e1, e2, e3⟩ := down_view s i _ b q2 hv hd
    subst e2
    cases b with
    | true =>
      simp only [if_true, Outcome.ok.injEq] at h
      exact ⟨s1, by simp only [Store.heapFix, e1, if_true], h, e3⟩
    | false =>
      simp only [Bool.false_eq_true, if_false] at h
      obtain ⟨s2, f1, f2, f3⟩ := up_view s1 i q1 e3 h
      exact ⟨s2, by simp only [Store.heapFix, e1, Bool.false_eq_true, if_false, f1], f2, f3⟩

theorem Len_view (s : Store) : s.view.Len = s.Len := by
  simp [PriorityQueue.Len, Store.Len, view_length]

theorem Push_view (s : Store) (hv : s.Valid) (x : Nat) (hx : x < s.mem.length) (hnew : x ∉ s.pq) :
    ∃ s1, s.Push x = some s1 ∧
      s1.view = s.view.Push ((s.mem[x]?).getD ⟨0, .nan, 0⟩) ∧ s1.Valid := by
  obtain ⟨mem, pq⟩ := s
  simp only at hx hnew
  have hx1 : mem[x]? = some mem[x] := List.getElem?_eq_getElem hx
  refine ⟨⟨mem.set x { mem[x] with index := (pq.length : Int) }, pq ++ [x]⟩, ?_, ?_, ?_⟩
  · simp [Store.Push, Store.deref, hx1, Store.setIndex, Store.Len]
  · have e := view_setMem_out mem pq x { mem[x] with index := (pq.length : Int) } hnew
    simp only [Store.view, Store.deref, List.map_append, List.map_cons, List.map_nil] at e ⊢
    rw [e]
    simp [PriorityQueue.Push, PriorityQueue.Len, Store.deref, hx1, hx]
  · refine ⟨?_, ?_⟩
    · exact List.Nodup.append hv.1 (List.nodup_singleton x) (by simpa using hnew)
    · intro p hp
      simp only [List.length_set]
      rcases List.mem_append.mp hp with h | h
      · exact hv.2 p h
      · simp only [List.mem_singleton] at h; omega

theorem heapPush_view (s : Store) (hv : s.Valid) (x : Nat) (hx : x < s.mem.length)
    (hnew : x ∉ s.pq) (q1 : PriorityQueue)
    (h : heapPush s.view ((s.mem[x]?).getD ⟨0, .nan, 0⟩) = .ok q1) :
    ∃ s1, s.heapPush x = .ok s1 ∧ s1.view = q1 ∧ s1.Valid := by
  obtain ⟨s1, e1, e2, e3⟩ := Push_view s hv x hx hnew
  unfold heapPush at h
  simp only [← e2, Len_view] at h
  obtain ⟨s2, f1, f2, f3⟩ := up_view s1 _ q1 e3 h
  exact ⟨s2, by simp only [Store.heapPush, e1, f1], f2, f3⟩

theorem Pop_view (s : Store) (hv : s.Valid) (r : Item × PriorityQueue)
    (h : s.view.Pop = some r) :
    ∃ p s1, s.Pop = some (p, s1) ∧ s1.view = r.2 ∧ s1.Valid := by
  unfold PriorityQueue.Pop at h
  cases he : s.view.elem (s.view.Len - 1) with
  | none => simp [he] at h
  | some a =>
    simp only [he, Option.some.injEq] at h
    obtain ⟨m, p, hm, hml, hp, hmp, hpl, _⟩ := ptr_of_view s hv _ a he
    rw [Len_view] at hm
    obtain ⟨mem, pq⟩ := s
    simp only [Store.Len] at hm hml hp hmp hpl
    have hm1 : m + 1 = pq.length := by omega
    have hnd : pq.Nodup := hv.1
    have hout : p ∉ pq.take m := by
      intro c
      obtain ⟨k, hk⟩ := List.mem_iff_getElem?.mp c
      rw [List.getElem?_take] at hk
      split at hk
      · next hkm =>
        have hkl : k < pq.length := by omega
        rw [List.getElem?_eq_getElem hkl] at hk
        rw [List.getElem?_eq_getElem hml] at hp
        have := (List.Nodup.getElem_inj_iff hnd).mp
          ((Option.some.inj hk).trans (Option.some.inj hp).symm)
        omega
      · cases hk
    refine ⟨p, ⟨mem.set p { a with index := -1 }, pq.take m⟩, ?_, ?_, ?_⟩
    · have hptr : Store.ptr ⟨mem, pq⟩ (m : Int) = some p := by
        simp [Store.ptr, hp]
      simp only [Store.Pop, Store.Len, hm, hptr, Store.setIndex, Store.deref, hmp,
        Int.toNat_ofNat]
    · rw [view_setMem_out _ _ _ _ hout, ← h]
      simp [Store.view, Store.deref, PriorityQueue.Len, hm, List.map_take]
    · refine ⟨hnd.sublist (List.take_sublist _ _), ?_⟩
      intro q hq
      simp only [List.length_set]
      exact hv.2 q (List.mem_of_mem_take hq)

theorem heapPop_view (s : Store) (hv : s.Valid) (r : Item × PriorityQueue)
    (h : heapPop s.view = .ok r) :
    ∃ p s1, s.heapPop = .ok (p, s1) ∧ s1.view = r.2 ∧ s1.Valid := by
  unfold heapPop at h
  simp only [Len_view] at h
  cases hs : s.view.Swap 0 (s.Len - 1) with
  | none => simp [hs] at h
  | some q1 =>
    simp only [hs] at h
    obtain ⟨s1, e1, e2, e3⟩ := Swap_view s hv _ _ q1 hs
    subst e2
    cases hd : down s1.view 0 (s.Len - 1) with
    | outOfFuel => simp [hd] at h
    | panic q => simp [hd] at h
    | ok r2 =>
      obtain ⟨b, q2⟩ := r2
      simp only [hd] at h
      obtain ⟨s2, f1, f2, f3⟩ := down_view s1 _ _ b q2 e3 hd
      subst f2
      cases hp : s2.view.Pop with
      | none => simp [hp] at h
      | some r3 =>
        simp only [hp, Outcome.ok.injEq] at h
        subst h
        obtain ⟨p, s3, g1, g2, g3⟩ := Pop_view s2 f3 r3 hp
        exact ⟨p, s3, by simp only [Store.heapPop, e1, f1, g1], g2, g3⟩

theorem firstMatch_view (s : Store) (v : Int) : ∀ (l : List Nat),
    (∀ p ∈ l, p < s.mem.length) →
    (firstMatch v (Store.view ⟨s.mem, l⟩) = none → s.firstMatch v l = some none) ∧
    (∀ k item, firstMatch v (Store.view ⟨s.mem, l⟩) = some (k, item) →
      ∃ p, s.firstMatch v l = some (some p) ∧ l[k]? = some p ∧ s.mem[p]? = some item) := by
  intro l
  induction l with
  | nil =>
    intro _
    exact ⟨fun _ => rfl, fun k item h => by simp [Store.view, firstMatch] at h⟩
  | cons p rest ih =>
    intro hl
    have hp : p < s.mem.length := hl p (List.mem_cons_self _ _)
    have hp1 : s.mem[p]? = some s.mem[p] := List.getElem?_eq_getElem hp
    obtain ⟨ih1, ih2⟩ := ih (fun q hq => hl q (List.mem_cons_of_mem _ hq))
    have ev : Store.view ⟨s.mem, p :: rest⟩ = s.mem[p] :: Store.view ⟨s.mem, rest⟩ := by
      simp [Store.view, Store.deref, hp1]
    rw [ev]
    simp only [firstMatch, Store.firstMatch, Store.deref, hp1]
    by_cases c : s.mem[p].value = v
    · simp only [c, if_true]
      refine ⟨(fun h => nomatch h), ?_⟩
      intro k item h
      simp only [Option.some.injEq, Prod.mk.injEq] at h
      obtain ⟨h1, h2⟩ := h
      subst h1
      subst h2
      exact ⟨p, rfl, by simp, hp1⟩
    · simp only [c, if_false]
      refine ⟨fun h => ih1 (by simpa using h), ?_⟩
      intro k item h
      cases hf : firstMatch v (Store.view ⟨s.mem, rest⟩) with
      | none => simp [hf] at h
      | some r =>
        obtain ⟨k1, item1⟩ := r
        simp only [hf, Option.map_some', Option.some.injEq, Prod.mk.injEq] at h
        obtain ⟨rfl, rfl⟩ := h
        obtain ⟨p1, g1, g2, g3⟩ := ih2 k1 item1 hf
        exact ⟨p1, g1, by simpa using g2, g3⟩

theorem update_view (s : Store) (hv : s.Valid) (v : Int) (x : F64) (q1 : PriorityQueue)
    (h : update s.view v x = .ok q1) :
    ∃ s1, s.update v x = .ok s1 ∧ s1.view = q1 ∧ s1.Valid := by
  unfold update at h
  obtain ⟨f1, f2⟩ := firstMatch_view s v s.pq hv.2
  cases hf : firstMatch v s.view with
  | none =>
    simp only [hf, Outcome.ok.injEq] at h
    exact ⟨s, by simp only [Store.update, f1 hf], h, hv⟩
  | some r =>
    obtain ⟨k, item⟩ := r
    simp only [hf] at h
    obtain ⟨p, g1, g2, g3⟩ := f2 k item hf
    have hpl : p < s.mem.length := hv.2 p (List.mem_iff_getElem?.mpr ⟨k, g2⟩)
    have hset := setPriority_eq s p x item g3
    have hv2 : Store.Valid ⟨s.mem.set p { item with priority := x }, s.pq⟩ :=
      ⟨hv.1, by simpa using hv.2⟩
    have hview : Store.view ⟨s.mem.set p { item with priority := x }, s.pq⟩
        = s.view.set k { item with priority := x } :=
      view_setMem s.mem s.pq hv.1 k p _ g2 hpl
    have hd : Store.deref ⟨s.mem.set p { item with priority := x }, s.pq⟩ p
        = some { item with priority := x } := by
      simp [Store.deref, hpl]
    rw [← hview] at h
    obtain ⟨s1, e1, e2, e3⟩ := heapFix_view _ item.index q1 hv2 h
    exact ⟨s1, by simp only [Store.update, g1, hset, hd, e1], e2, e3⟩

theorem step_view (s : Store) (hv : s.Valid) (op : PtrOp) (hnew : pushesNew s op = true)
    (q1 : PriorityQueue) (h : step s.view (s.opOf op) = .ok q1) :
    ∃ s1, s.step op = .ok s1 ∧ s1.view = q1 ∧ s1.Valid := by
  cases op with
  | push x =>
    simp only [pushesNew, decide_eq_true_eq] at hnew
    exact heapPush_view s hv x hnew.1 hnew.2 q1 h
  | pop =>
    simp only [Store.opOf, step, pop] at h
    cases hp : heapPop s.view with
    | outOfFuel => simp [hp] at h
    | panic q => simp [hp] at h
    | ok r =>
      simp only [hp, Outcome.ok.injEq] at h
      obtain ⟨p, s1, e1, e2, e3⟩ := heapPop_view s hv r hp
      exact ⟨s1, by simp only [Store.step, Store.pop, e1], e2.trans h, e3⟩
  | update v x =>
    exact update_view s hv v x q1 h

theorem opOf_not_popEmpty (s : Store) (op : PtrOp) (h : popsEntry s op = true) :
    ¬ (s.opOf op = .pop ∧ s.view = []) := by
  rintro ⟨h1, h2⟩
  cases op with
  | push x => simp [Store.opOf] at h1
  | update v x => simp [Store.opOf] at h1
  | pop =>
    simp only [popsEntry, decide_eq_true_eq] at h
    apply h
    simpa [Store.view] using h2

theorem opOf_notNaN (s : Store) (op : PtrOp) (hnew : pushesNew s op = true)
    (h : passesNoNaN s op = true) : (s.opOf op).notNaN = true := by
  cases op with
  | push x =>
    simp only [pushesNew, decide_eq_true_eq] at hnew
    have hx : s.mem[x]? = some s.mem[x] := List.getElem?_eq_getElem hnew.1
    simpa [passesNoNaN, Store.deref, hx, Store.opOf, Op.notNaN] using h
  | pop => rfl
  | update v x => simpa [passesNoNaN, Store.opOf, Op.notNaN] using h

theorem always_cons (c : Store → PtrOp → Bool) (op : PtrOp) (rest : List PtrOp) (s s1 : Store)
    (h : Store.always c (op :: rest) s = true) (hs : s.step op = .ok s1) :
    c s op = true ∧ Store.always c rest s1 = true := by
  simpa [Store.always, hs] using h

theorem always_head (c : Store → PtrOp → Bool) (op : PtrOp) (rest : List PtrOp) (s : Store)
    (h : Store.always c (op :: rest) s = true) : c s op = true := by
  simp only [Store.always, Bool.and_eq_true] at h
  exact h.1

theorem run_slots (ops : List PtrOp) : ∀ s : Store, s.Valid → SlotsConsistent s.view →
    Store.always pushesNew ops s = true → Store.always popsEntry ops s = true →
    ∃ s1, Store.run ops s = .ok s1 ∧ s1.Valid ∧ SlotsConsistent s1.view := by
  induction ops with
  | nil => intro s hv hs _ _; exact ⟨s, rfl, hv, hs⟩
  | cons op rest ih =>
    intro s hv hs hnew hpop
    have hop := opOf_not_popEmpty s op (always_head _ _ _ _ hpop)
    obtain ⟨q1, h1, h2, _⟩ := step_slots s.view (s.opOf op) hs hop
    obtain ⟨s1, e1, e2, e3⟩ := step_view s hv op (always_head _ _ _ _ hnew) q1 h1
    subst e2
    obtain ⟨s2, f1, f2, f3⟩ := ih s1 e3 h2 (always_cons _ _ _ _ _ hnew e1).2
      (always_cons _ _ _ _ _ hpop e1).2
    exact ⟨s2, by simp only [Store.run, e1, f1], f2, f3⟩

theorem run_heap (ops : List PtrOp) : ∀ s : Store, s.Valid → SlotsConsistent s.view →
    HeapInvariant s.view → NoNaN s.view →
    Store.always pushesNew ops s = true → Store.always passesNoNaN ops s = true →
    Store.always popsEntry ops s = true →
    ∃ s1, Store.run ops s = .ok s1 ∧ s1.Valid ∧ HeapInvariant s1.view := by
  induction ops with
  | nil => intro s hv _ hh _ _ _ _; exact ⟨s, rfl, hv, hh⟩
  | cons op rest ih =>
    intro s hv hs hh hn hnew hnan hpop
    have hop := opOf_not_popEmpty s op (always_head _ _ _ _ hpop)
    have hnn := opOf_notNaN s op (always_head _ _ _ _ hnew) (always_head _ _ _ _ hnan)
    obtain ⟨q1, h1, h2, h3⟩ := step_heap s.view (s.opOf op) hs hh hn hnn hop
    obtain ⟨q1b, h1b, h2b, _⟩ := step_slots s.view (s.opOf op) hs hop
    rw [h1] at h1b
    cases h1b
    obtain ⟨s1, e1, e2, e3⟩ := step_view s hv op (always_head _ _ _ _ hnew) q1 h1
    subst e2
    obtain ⟨s2, f1, f2, f3⟩ := ih s1 e3 h2b h2 h3 (always_cons _ _ _ _ _ hnew e1).2
      (always_cons _ _ _ _ _ hnan e1).2 (always_cons _ _ _ _ _ hpop e1).2
    exact ⟨s2, by simp only [Store.run, e1, f1], f2, f3⟩

theorem valid_empty (mem : List Item) : Store.Valid ⟨mem, []⟩ := by
  simp [Store.Valid]

/-- C2, amended: started on the empty queue, a finite sequence of push, pop and
update calls in which every push is given an item that is not in the queue at
that moment, no call passes a NaN priority and no pop is applied to an empty
queue runs through (every call returns), and the queue it reaches satisfies the
heap invariant: the priority of the entry at every non-root slot `i` is `>=` the
priority of the entry at slot `(i-1)/2`.  The items are the objects of `mem`,
with whatever field values, and the queue reached points to items only, to none
of them twice. -/
theorem heap_invariant_reachable (mem : List Item) (ops : List PtrOp)
    (hnew : Store.always pushesNew ops ⟨mem, []⟩ = true)
    (hnan : Store.always passesNoNaN ops ⟨mem, []⟩ = true)
    (hpop : Store.always popsEntry ops ⟨mem, []⟩ = true) :
    ∃ s, Store.run ops ⟨mem, []⟩ = .ok s ∧ s.Valid ∧ HeapInvariant s.view :=
  run_heap ops ⟨mem, []⟩ (valid_empty mem) (by intro i hi; simp [Store.view] at hi)
    (by intro i hi; simp [Store.view] at hi) (by intro a ha; simp [Store.view] at ha)
    hnew hnan hpop

theorem heap_invariant_reachable_witness :
    Store.always pushesNew [.push 0, .push 1, .update 1 (.fin 1), .pop, .push 0]
      ⟨[⟨1, .fin 5, 0⟩, ⟨2, .fin 3, 0⟩], []⟩ = true ∧
    Store.always passesNoNaN [.push 0, .push 1, .update 1 (.fin 1), .pop, .push 0]
      ⟨[⟨1, .fin 5, 0⟩, ⟨2, .fin 3, 0⟩], []⟩ = true ∧
    Store.always popsEntry [.push 0, .push 1, .update 1 (.fin 1), .pop, .push 0]
      ⟨[⟨1, .fin 5, 0⟩, ⟨2, .fin 3, 0⟩], []⟩ = true ∧
    ∃ s, Store.run [.push 0, .push 1, .update 1 (.fin 1), .pop, .push 0]
      ⟨[⟨1, .fin 5, 0⟩, ⟨2, .fin 3, 0⟩], []⟩ = .ok s ∧ s.Valid ∧ HeapInvariant s.view :=
  ⟨by decide, by decide, by decide,
    heap_invariant_reachable _ _ (by decide) (by decide) (by decide)⟩

/-- C2 as stated fails, in two ways.  With a NaN priority: pushing an item of
priority NaN and then one of priority 1 leaves the entry with priority 1 below a
parent whose priority is NaN, and `1 >= NaN` is false.  With an item pushed
twice: after `push(x)`, `push(y)`, `push(z)` with priorities 5, 3, 4 and a second
`push(x)`, the item `x` stands in slots 1 and 3 and its index field reads 3, so
`update(x.value, 1)` repairs the heap at slot 3 only, and the queue is left with
the priorities 3, 1, 4, 1: slot 1 holds 1 below a root that holds 3. -/
theorem heap_invariant_fails :
    (Store.always popsEntry [.push 0, .push 1] ⟨[⟨1, .nan, 0⟩, ⟨2, .fin 1, 0⟩], []⟩ = true ∧
      Store.always pushesNew [.push 0, .push 1] ⟨[⟨1, .nan, 0⟩, ⟨2, .fin 1, 0⟩], []⟩ = true ∧
      Store.run [.push 0, .push 1] ⟨[⟨1, .nan, 0⟩, ⟨2, .fin 1, 0⟩], []⟩
        = .ok ⟨[⟨1, .nan, 0⟩, ⟨2, .fin 1, 1⟩], [0, 1]⟩ ∧
      ¬ HeapInvariant (Store.view ⟨[⟨1, .nan, 0⟩, ⟨2, .fin 1, 1⟩], [0, 1]⟩)) ∧
    (Store.always popsEntry [.push 0, .push 1, .push 2, .push 0, .update 10 (.fin 1)]
        ⟨[⟨10, .fin 5, 0⟩, ⟨20, .fin 3, 0⟩, ⟨30, .fin 4, 0⟩], []⟩ = true ∧
      Store.always passesNoNaN [.push 0, .push 1, .push 2, .push 0, .update 10 (.fin 1)]
        ⟨[⟨10, .fin 5, 0⟩, ⟨20, .fin 3, 0⟩, ⟨30, .fin 4, 0⟩], []⟩ = true ∧
      Store.run [.push 0, .push 1, .push 2, .push 0, .update 10 (.fin 1)]
        ⟨[⟨10, .fin 5, 0⟩, ⟨20, .fin 3, 0⟩, ⟨30, .fin 4, 0⟩], []⟩
        = .ok ⟨[⟨10, .fin 1, 3⟩, ⟨20, .fin 3, 0⟩, ⟨30, .fin 4, 2⟩], [1, 0, 2, 0]⟩ ∧
      (Store.view ⟨[⟨10, .fin 1, 3⟩, ⟨20, .fin 3, 0⟩, ⟨30, .fin 4, 2⟩], [1, 0, 2, 0]⟩).map
        (fun a => a.priority) = [.fin 3, .fin 1, .fin 4, .fin 1] ∧
      ¬ HeapInvariant
        (Store.view ⟨[⟨10, .fin 1, 3⟩, ⟨20, .fin 3, 0⟩, ⟨30, .fin 4, 2⟩], [1, 0, 2, 0]⟩)) := by
  decide

/-- C3, amended: started on the empty queue, a finite sequence of push, pop and
update calls in which every push is given an item that is not in the queue at
that moment and no pop is applied to an empty queue runs through (every call
returns), and in the queue it reaches the entry at every array position `i` has
the index field `i`.  The items are the objects of `mem`, with whatever field
values, index included, and the queue reached points to items only, to none of
them twice. -/
theorem slot_invariant_reachable (mem : List Item) (ops : List PtrOp)
    (hnew : Store.always pushesNew ops ⟨mem, []⟩ = true)
    (hpop : Store.always popsEntry ops ⟨mem, []⟩ = true) :
    ∃ s, Store.run ops ⟨mem, []⟩ = .ok s ∧ s.Valid ∧ SlotsConsistent s.view :=
  run_slots ops ⟨mem, []⟩ (valid_empty mem) (by intro i hi; simp [Store.view] at hi) hnew hpop

theorem slot_invariant_reachable_witness :
    Store.always pushesNew [.push 0, .push 1, .update 1 (.fin 1), .pop, .push 0]
      ⟨[⟨1, .fin 5, 7⟩, ⟨2, .fin 3, -4⟩], []⟩ = true ∧
    Store.always popsEntry [.push 0, .push 1, .update 1 (.fin 1), .pop, .push 0]
      ⟨[⟨1, .fin 5, 7⟩, ⟨2, .fin 3, -4⟩], []⟩ = true ∧
    ∃ s, Store.run [.push 0, .push 1, .update 1 (.fin 1), .pop, .push 0]
      ⟨[⟨1, .fin 5, 7⟩, ⟨2, .fin 3, -4⟩], []⟩ = .ok s ∧ s.Valid ∧ SlotsConsistent s.view :=
  ⟨by decide, by decide, slot_invariant_reachable _ _ (by decide) (by decide)⟩

/-- C3 as stated fails: `push(x)` followed by a second `push(x)` of the same item
returns, and leaves a queue of two slots that both point to `x`, whose index
field reads 1; the entry at array position 0 has the index field 1, not 0. -/
theorem slot_invariant_fails_on_repush :
    Store.always popsEntry [.push 0, .push 0] ⟨[⟨1, .fin 5, 0⟩], []⟩ = true ∧
    Store.run [.push 0, .push 0] ⟨[⟨1, .fin 5, 0⟩], []⟩ = .ok ⟨[⟨1, .fin 5, 1⟩], [0, 0]⟩ ∧
    (Store.elem ⟨[⟨1, .fin 5, 1⟩], [0, 0]⟩ 0).map (fun a => a.index) = some 1 ∧
    ¬ SlotsConsistent (Store.view ⟨[⟨1, .fin 5, 1⟩], [0, 0]⟩) := by
  decide

/-- C6: `push` always returns and adds exactly one entry; `pop` on a non-empty
queue returns and removes exactly one; so a sequence of calls holding `k` pushes
and `j` pops that starts from the empty queue and pops no empty queue runs
through and leaves exactly `k - j` entries. -/
theorem round_trip_count :
    (∀ (pq : PriorityQueue) (x : Item), ∃ pq1, push pq x = .ok pq1 ∧
      pq1.length = pq.length + 1) ∧
    (∀ pq : PriorityQueue, pq ≠ [] → ∃ item rest, pop pq = .ok (item, rest) ∧
      rest.length + 1 = pq.length) ∧
    (∀ ops : List Op, popsEmpty ops [] = false → ∃ pq, runOps ops [] = .ok pq ∧
      numPop ops ≤ numPush ops ∧ pq.length = numPush ops - numPop ops) := by
  refine ⟨?_, ?_, ?_⟩
  · intro pq x
    obtain ⟨pq1, h1, h2, _⟩ := push_props pq x
    exact ⟨pq1, h1, h2⟩
  · intro pq hne
    obtain ⟨a, rest, _, h2, h3, _⟩ := pop_props pq hne
    exact ⟨_, rest, h2, h3⟩
  · intro ops hp
    obtain ⟨pq, h1, _, h3⟩ := runOps_slots ops [] slots_nil hp
    simp only [List.length_nil, Nat.zero_add] at h3
    exact ⟨pq, h1, by omega, by omega⟩

theorem round_trip_count_witness :
    popsEmpty [Op.push ⟨1, .fin 5, 0⟩, .push ⟨2, .fin 3, 0⟩, .pop, .push ⟨3, .fin 8, 0⟩] []
      = false ∧
    ∃ pq, runOps [Op.push ⟨1, .fin 5, 0⟩, .push ⟨2, .fin 3, 0⟩, .pop, .push ⟨3, .fin 8, 0⟩] []
        = .ok pq ∧
      numPop [Op.push ⟨1, .fin 5, 0⟩, .push ⟨2, .fin 3, 0⟩, .pop, .push ⟨3, .fin 8, 0⟩] ≤
        numPush [Op.push ⟨1, .fin 5, 0⟩, .push ⟨2, .fin 3, 0⟩, .pop, .push ⟨3, .fin 8, 0⟩] ∧
      pq.length =
        numPush [Op.push ⟨1, .fin 5, 0⟩, .push ⟨2, .fin 3, 0⟩, .pop, .push ⟨3, .fin 8, 0⟩] -
        numPop [Op.push ⟨1, .fin 5, 0⟩, .push ⟨2, .fin 3, 0⟩, .pop, .push ⟨3, .fin 8, 0⟩] :=
  ⟨by decide, round_trip_count.2.2 _ (by decide)⟩

/-- C7: `pop` on a queue without entries does not return an entry: it fails
(the index-out-of-range panic of `Swap(0, -1)`, the only failure of this code),
and the queue is still empty at that moment. -/
theorem pop_empty_fails :
    pop ([] : PriorityQueue) = .panic [] ∧
    ∀ pq : PriorityQueue, pq.length = 0 → pop pq = .panic pq ∧ pq = [] := by
  refine ⟨by decide, ?_⟩
  intro pq h
  have e : pq = [] := List.length_eq_zero.mp h
  subst e
  exact ⟨by decide, rfl⟩

/-- C10: `update` with an identifier that no entry carries returns and leaves the
queue exactly as it was, so any number of following pops returns what it would
have returned without the call. -/
theorem update_absent_noop (pq : PriorityQueue) (v : Int) (p : F64)
    (h : ∀ a ∈ pq, a.value ≠ v) :
    ∃ q1, update pq v p = .ok q1 ∧ q1 = pq ∧ ∀ n, popN n q1 = popN n pq :=
  ⟨pq, update_absent pq v p h, rfl, fun _ => rfl⟩

theorem update_absent_noop_witness :
    (∀ a ∈ ([⟨2, .fin 3, 0⟩, ⟨1, .fin 5, 1⟩] : PriorityQueue), a.value ≠ 9) ∧
    ∃ q1, update [⟨2, .fin 3, 0⟩, ⟨1, .fin 5, 1⟩] 9 (.fin 0) = .ok q1 ∧
      q1 = [⟨2, .fin 3, 0⟩, ⟨1, .fin 5, 1⟩] ∧
      ∀ n, popN n q1 = popN n [⟨2, .fin 3, 0⟩, ⟨1, .fin 5, 1⟩] :=
  ⟨by decide, update_absent_noop _ 9 (.fin 0) (by decide)⟩

/-! ## Pushing a batch, then draining -/

theorem pushAll_props (items : List Item) :
    ∀ pq0, ∃ pq, pushAll items pq0 = .ok pq ∧ pq.length = pq0.length + items.length ∧
      List.Perm (keys pq) (keys pq0 ++ keys items) ∧
      (SlotsConsistent pq0 → SlotsConsistent pq) ∧
      (HeapInvariant pq0 → NoNaN pq0 → (∀ x ∈ items, x.priority.isNaN = false) →
        HeapInvariant pq ∧ NoNaN pq) := by
  induction items with
  | nil =>
    intro pq0
    exact ⟨pq0, rfl, rfl, by simp [keys], fun h => h, fun h1 h2 _ => ⟨h1, h2⟩⟩
  | cons x rest ih =>
    intro pq0
    obtain ⟨pq1, h1, h2, h3, h4⟩ := push_props pq0 x
    obtain ⟨pq, h5, h6, h7, h8, h9⟩ := ih pq1
    refine ⟨pq, ?_, ?_, ?_, fun hs => h8 (h4 hs), ?_⟩
    · simp only [pushAll, List.map_cons, runOps, step, h1]
      exact h5
    · rw [h6, h2, List.length_cons]; omega
    · refine h7.trans ?_
      have : keys (x :: rest) = (x.value, x.priority) :: keys rest := by simp [keys]
      rw [this]
      refine (List.Perm.append_right _ h3).trans ?_
      simp
    · intro hh hn hall
      obtain ⟨pq1b, h1b, hhb, hnb⟩ :=
        push_heap pq0 x hh hn (hall x (List.mem_cons_self _ _))
      rw [h1] at h1b
      cases h1b
      exact h9 hhb hnb (fun y hy => hall y (List.mem_cons_of_mem _ hy))

theorem mem_keys_priority (pq : PriorityQueue) (k : Int × F64) (h : k ∈ keys pq) :
    ∃ a ∈ pq, a.value = k.1 ∧ a.priority = k.2 := by
  simp only [keys, List.mem_map] at h
  obtain ⟨a, ha, e⟩ := h
  exact ⟨a, ha, by rw [← e], by rw [← e]⟩

theorem popN_sorted (n : Nat) :
    ∀ pq, HeapInvariant pq → NoNaN pq → n ≤ pq.length →
      ∃ popped rest, popN n pq = .ok (popped, rest) ∧ popped.length = n ∧
        rest.length + n = pq.length ∧
        List.Perm (keys pq) (keys popped ++ keys rest) ∧
        List.Pairwise (fun a b : Item => a.priority.le b.priority = true) popped := by
  induction n with
  | zero =>
    intro pq _ _ _
    exact ⟨[], pq, rfl, rfl, rfl, by simp [keys], List.Pairwise.nil⟩
  | succ n ih =>
    intro pq hh hn hlen
    have hne : pq ≠ [] := by
      intro e; subst e; simp at hlen
    obtain ⟨a, rest1, ha, hpop, hl1, hperm, _⟩ := pop_props pq hne
    obtain ⟨r, hpop2, hh1, hn1⟩ := pop_heap pq hne hh hn
    rw [hpop] at hpop2
    cases hpop2
    obtain ⟨popped, rest, h1, h2, h3, h4, h5⟩ := ih rest1 hh1 hn1 (by omega)
    refine ⟨{ a with index := -1 } :: popped, rest, ?_, by simp [h2], by omega, ?_, ?_⟩
    · simp only [popN, hpop, h1]
    · refine hperm.trans ?_
      have : keys ({ a with index := -1 } :: popped) = (a.value, a.priority) :: keys popped := by
        simp [keys]
      rw [this, List.cons_append]
      exact List.Perm.cons _ h4
    · refine List.Pairwise.cons ?_ h5
      intro b hb
      have hk : (b.value, b.priority) ∈ keys pq := by
        refine hperm.symm.subset (List.mem_cons_of_mem _ ?_)
        refine h4.symm.subset (List.mem_append_left _ ?_)
        simp only [keys, List.mem_map]
        exact ⟨b, hb, rfl⟩
      obtain ⟨c, hc, _, e2⟩ := mem_keys_priority pq _ hk
      obtain ⟨m, hm, e⟩ := List.getElem_of_mem hc
      have h6 := root_le pq hh hn m hm
      simp only [prioAt, ha, List.getElem?_eq_getElem hm, e, e2] at h6
      exact h6

theorem F64.lt_of_le_ne {a b : F64} (h : a.le b = true) (hne : a ≠ b) : a.lt b = true := by
  cases a <;> cases b <;> simp_all [F64.le, F64.lt]
  exact lt_of_le_of_ne h hne

theorem popN_then_fails (n : Nat) :
    ∀ (pq : PriorityQueue) (popped : List Item), popN n pq = .ok (popped, []) →
      popN (n + 1) pq = .panic [] := by
  induction n with
  | zero =>
    intro pq popped h
    simp only [popN, Outcome.ok.injEq, Prod.mk.injEq] at h
    rw [h.2]
    decide
  | succ n ih =>
    intro pq popped h
    rw [popN] at h
    rw [popN]
    cases hp : pop pq with
    | ok r =>
      obtain ⟨item, pq1⟩ := r
      rw [hp] at h
      simp only at h
      cases hq : popN n pq1 with
      | ok r2 =>
        obtain ⟨items, pq2⟩ := r2
        rw [hq] at h
        simp only [Outcome.ok.injEq, Prod.mk.injEq] at h
        have e : pq2 = [] := h.2
        subst e
        simp only [ih pq1 items hq]
      | panic q => rw [hq] at h; cases h
      | outOfFuel => rw [hq] at h; cases h
    | panic q => rw [hp] at h; cases h
    | outOfFuel => rw [hp] at h; cases h

/-- C4, amended: for every sequence of pushes of non-NaN priorities into an empty
queue followed by as many pops, all calls return and the popped priorities are
non-decreasing. -/
theorem ordering_law (items : List Item) (hnan : ∀ x ∈ items, x.priority.isNaN = false) :
    ∃ pq popped rest, pushAll items [] = .ok pq ∧
      popN items.length pq = .ok (popped, rest) ∧ popped.length = items.length ∧
      List.Pairwise (fun a b : Item => a.priority.le b.priority = true) popped := by
  obtain ⟨pq, h1, h2, _, _, h5⟩ := pushAll_props items []
  obtain ⟨hh, hn⟩ := h5 (by intro i hi; simp at hi) (by intro a ha; simp at ha) hnan
  obtain ⟨popped, rest, h6, h7, _, _, h10⟩ :=
    popN_sorted items.length pq hh hn (by rw [h2]; simp)
  exact ⟨pq, popped, rest, h1, h6, h7, h10⟩

theorem ordering_law_witness :
    (∀ x ∈ ([⟨1, .fin 5, 0⟩, ⟨2, .fin 3, 0⟩, ⟨3, .fin 8, 0⟩, ⟨4, .fin 3, 0⟩] : List Item),
      x.priority.isNaN = false) ∧
    ∃ pq popped rest,
      pushAll [⟨1, .fin 5, 0⟩, ⟨2, .fin 3, 0⟩, ⟨3, .fin 8, 0⟩, ⟨4, .fin 3, 0⟩] [] = .ok pq ∧
      popN ([⟨1, .fin 5, 0⟩, ⟨2, .fin 3, 0⟩, ⟨3, .fin 8, 0⟩, ⟨4, .fin 3, 0⟩] : List Item).length
        pq = .ok (popped, rest) ∧
      popped.length =
        ([⟨1, .fin 5, 0⟩, ⟨2, .fin 3, 0⟩, ⟨3, .fin 8, 0⟩, ⟨4, .fin 3, 0⟩] : List Item).length ∧
      List.Pairwise (fun a b : Item => a.priority.le b.priority = true) popped :=
  ⟨by decide, ordering_law _ (by decide)⟩

/-- C4 as stated fails: after pushing the priorities 5, NaN, 7, 1 the four pops
return 5, 1, 7, NaN; already the second is less than the first. -/
theorem ordering_law_fails_on_NaN :
    pushAll [⟨1, .fin 5, 0⟩, ⟨2, .nan, 0⟩, ⟨3, .fin 7, 0⟩, ⟨4, .fin 1, 0⟩] []
      = .ok [⟨1, .fin 5, 0⟩, ⟨2, .nan, 1⟩, ⟨3, .fin 7, 2⟩, ⟨4, .fin 1, 3⟩] ∧
    popN 4 [⟨1, .fin 5, 0⟩, ⟨2, .nan, 1⟩, ⟨3, .fin 7, 2⟩, ⟨4, .fin 1, 3⟩]
      = .ok ([⟨1, .fin 5, -1⟩, ⟨4, .fin 1, -1⟩, ⟨3, .fin 7, -1⟩, ⟨2, .nan, -1⟩], []) ∧
    ¬ List.Pairwise (fun a b : Item => a.priority.le b.priority = true)
        [⟨1, .fin 5, -1⟩, ⟨4, .fin 1, -1⟩, ⟨3, .fin 7, -1⟩, ⟨2, .nan, -1⟩] ∧
    (F64.fin 5).le (F64.fin 1) = false ∧ (F64.fin 1).lt (F64.fin 5) = true := by
  decide

/-- C5, amended: for every sequence of pushes with pairwise distinct, non-NaN
priorities into an empty queue, as many pops return exactly the pushed
(identifier, priority) pairs in strictly ascending order of priority, the queue is
then empty, and one more pop fails. -/
theorem distinct_pops_ascending (items : List Item)
    (hnan : ∀ x ∈ items, x.priority.isNaN = false)
    (hd : (items.map (fun x => x.priority)).Nodup) :
    ∃ pq popped, pushAll items [] = .ok pq ∧
      popN items.length pq = .ok (popped, []) ∧
      List.Perm (keys popped) (keys items) ∧
      List.Pairwise (fun a b : Int × F64 => a.2.lt b.2 = true) (keys popped) ∧
      popN (items.length + 1) pq = .panic [] := by
  obtain ⟨pq, h1, h2, h3, _, h5⟩ := pushAll_props items []
  obtain ⟨hh, hn⟩ := h5 (by intro i hi; simp at hi) (by intro a ha; simp at ha) hnan
  obtain ⟨popped, rest, h6, h7, h8, h9, h10⟩ :=
    popN_sorted items.length pq hh hn (by rw [h2]; simp)
  have hrest : rest = [] := by
    apply List.length_eq_zero.mp
    simp only [List.length_nil, Nat.zero_add] at h2
    omega
  subst hrest
  have hperm : List.Perm (keys popped) (keys items) := by
    have e1 : keys ([] : PriorityQueue) = [] := rfl
    rw [e1, List.append_nil] at h9
    rw [e1, List.nil_append] at h3
    exact h9.symm.trans h3
  have hnd : (keys popped).Pairwise (fun a b : Int × F64 => a.2 ≠ b.2) := by
    have e2 : (keys items).map Prod.snd = items.map (fun x => x.priority) := by
      simp [keys, List.map_map, Function.comp_def]
    have h11 : ((keys popped).map Prod.snd).Nodup := by
      have := (hperm.map Prod.snd).nodup_iff.mpr (by rw [e2]; exact hd)
      exact this
    exact (List.pairwise_map.mp h11)
  have hle : (keys popped).Pairwise (fun a b : Int × F64 => a.2.le b.2 = true) := by
    simp only [keys]
    rw [List.pairwise_map]
    exact h10
  refine ⟨pq, popped, h1, h6, hperm, ?_, popN_then_fails _ pq popped h6⟩
  exact (hle.and hnd).imp (fun h => F64.lt_of_le_ne h.1 h.2)

theorem distinct_pops_ascending_witness :
    (∀ x ∈ ([⟨1, .fin 5, 0⟩, ⟨2, .fin 3, 0⟩, ⟨3, .fin 8, 0⟩] : List Item),
      x.priority.isNaN = false) ∧
    (([⟨1, .fin 5, 0⟩, ⟨2, .fin 3, 0⟩, ⟨3, .fin 8, 0⟩] : List Item).map
      (fun x => x.priority)).Nodup ∧
    (∃ pq popped, pushAll [⟨1, .fin 5, 0⟩, ⟨2, .fin 3, 0⟩, ⟨3, .fin 8, 0⟩] [] = .ok pq ∧
      popN ([⟨1, .fin 5, 0⟩, ⟨2, .fin 3, 0⟩, ⟨3, .fin 8, 0⟩] : List Item).length pq
        = .ok (popped, []) ∧
      List.Perm (keys popped) (keys [⟨1, .fin 5, 0⟩, ⟨2, .fin 3, 0⟩, ⟨3, .fin 8, 0⟩]) ∧
      List.Pairwise (fun a b : Int × F64 => a.2.lt b.2 = true) (keys popped) ∧
      popN (([⟨1, .fin 5, 0⟩, ⟨2, .fin 3, 0⟩, ⟨3, .fin 8, 0⟩] : List Item).length + 1) pq
        = .panic []) ∧
    pushAll [⟨1, .fin 5, 0⟩, ⟨2, .fin 3, 0⟩, ⟨3, .fin 8, 0⟩] []
      = .ok [⟨2, .fin 3, 0⟩, ⟨1, .fin 5, 1⟩, ⟨3, .fin 8, 2⟩] ∧
    popN 3 [⟨2, .fin 3, 0⟩, ⟨1, .fin 5, 1⟩, ⟨3, .fin 8, 2⟩]
      = .ok ([⟨2, .fin 3, -1⟩, ⟨1, .fin 5, -1⟩, ⟨3, .fin 8, -1⟩], []) ∧
    popN 4 [⟨2, .fin 3, 0⟩, ⟨1, .fin 5, 1⟩, ⟨3, .fin 8, 2⟩] = .panic [] :=
  ⟨by decide, by decide, distinct_pops_ascending _ (by decide) (by decide),
    by decide, by decide, by decide⟩

/-- C5 as stated fails: the priorities 5, NaN, 7, 1 are pairwise distinct, and the
four pops return the pairs in the order 5, 1, 7, NaN, which is not ascending. -/
theorem distinct_pops_fail_on_NaN :
    (([⟨1, .fin 5, 0⟩, ⟨2, .nan, 0⟩, ⟨3, .fin 7, 0⟩, ⟨4, .fin 1, 0⟩] : List Item).map
      (fun x => x.priority)).Nodup ∧
    pushAll [⟨1, .fin 5, 0⟩, ⟨2, .nan, 0⟩, ⟨3, .fin 7, 0⟩, ⟨4, .fin 1, 0⟩] []
      = .ok [⟨1, .fin 5, 0⟩, ⟨2, .nan, 1⟩, ⟨3, .fin 7, 2⟩, ⟨4, .fin 1, 3⟩] ∧
    popN 4 [⟨1, .fin 5, 0⟩, ⟨2, .nan, 1⟩, ⟨3, .fin 7, 2⟩, ⟨4, .fin 1, 3⟩]
      = .ok ([⟨1, .fin 5, -1⟩, ⟨4, .fin 1, -1⟩, ⟨3, .fin 7, -1⟩, ⟨2, .nan, -1⟩], []) ∧
    ¬ List.Pairwise (fun a b : Int × F64 => a.2.le b.2 = true)
        (keys [⟨1, .fin 5, -1⟩, ⟨4, .fin 1, -1⟩, ⟨3, .fin 7, -1⟩, ⟨2, .nan, -1⟩]) ∧
    (F64.fin 5).le (F64.fin 1) = false := by
  decide

/-! ## update on an arbitrary queue -/

theorem elem_outside (q : PriorityQueue) (i : Int) (h : i < 0 ∨ (q.length : Int) ≤ i) :
    q.elem i = none := by
  unfold PriorityQueue.elem
  split
  · rw [List.getElem?_eq_none]
    omega
  · rfl

theorem Less_outside (q : PriorityQueue) (i j : Int) (h : i < 0 ∨ (q.length : Int) ≤ i) :
    q.Less i j = none := by
  simp [PriorityQueue.Less, elem_outside q i h]

/-- `heap.Fix` at an index outside the slice swaps nothing: it returns the queue as
it is (index -1, and index 0 of an empty queue) or panics on the first `Less`. -/
theorem heapFix_outside (q : PriorityQueue) (i : Int) (h : i < 0 ∨ (q.length : Int) ≤ i) :
    (heapFix q i).final = some q := by
  have c : ((q.length : Int) ≤ 2 * i + 1 ∨ 2 * i + 1 < 0) := by omega
  have hd : down q i q.Len = .ok (false, q) := by
    simp only [down, downLoop, PriorityQueue.Len, ge_iff_le, c, if_true, gt_iff_lt, lt_self_iff_false,
      decide_False]
  simp only [heapFix, hd, Bool.false_eq_true, if_false, up, upLoop]
  split
  · rfl
  · simp only [Less_outside q i _ h]
    rfl

theorem heapFix_final (q : PriorityQueue) (i : Int) :
    ∃ q1, (heapFix q i).final = some q1 ∧ SwapReach q.length q q1 ∧
      (0 ≤ i → i < (q.length : Int) → heapFix q i = .ok q1) := by
  by_cases h : i < 0 ∨ (q.length : Int) ≤ i
  · exact ⟨q, heapFix_outside q i h, SwapReach.refl, fun h1 h2 => by omega⟩
  · have e : i = ((i.toNat : Nat) : Int) := by omega
    obtain ⟨q1, h1, h2⟩ := heapFix_reach q i.toNat (by omega)
    rw [← e] at h1
    exact ⟨q1, by rw [h1]; rfl, h2, fun _ _ => h1⟩

theorem count_one_unique {α : Type} [DecidableEq α] (v : α) (l : List α) (h : l.count v = 1) :
    ∀ i j : Nat, l[i]? = some v → l[j]? = some v → i = j := by
  induction l with
  | nil => simp at h
  | cons x t ih =>
    intro i j hi hj
    by_cases hx : x = v
    · subst hx
      have h0 : t.count x = 0 := by simpa using h
      have hnot : x ∉ t := List.count_eq_zero.mp h0
      cases i with
      | succ i1 =>
        simp only [List.getElem?_cons_succ] at hi
        exact absurd (List.mem_iff_getElem?.mpr ⟨i1, hi⟩) hnot
      | zero =>
        cases j with
        | succ j1 =>
          simp only [List.getElem?_cons_succ] at hj
          exact absurd (List.mem_iff_getElem?.mpr ⟨j1, hj⟩) hnot
        | zero => rfl
    · have h1 : t.count v = 1 := by
        rw [List.count_cons_of_ne (Ne.symm hx)] at h
        exact h
      cases i with
      | zero =>
        simp only [List.getElem?_cons_zero, Option.some.injEq] at hi
        exact absurd hi hx
      | succ i1 =>
        cases j with
        | zero =>
          simp only [List.getElem?_cons_zero, Option.some.injEq] at hj
          exact absurd hj hx
        | succ j1 =>
          simp only [List.getElem?_cons_succ] at hi hj
          rw [ih h1 i1 j1 hi hj]

theorem F64.lt_notNaN {a b : F64} (h : a.lt b = true) : a.isNaN = false ∧ b.isNaN = false := by
  cases a <;> cases b <;> simp_all [F64.lt, F64.isNaN]

theorem heap_noNaN (pq : PriorityQueue) (hh : HeapInvariant pq) (h2 : 2 ≤ pq.length) :
    NoNaN pq := by
  rw [NoNaN_iff]
  intro m hm
  rcases Nat.eq_zero_or_pos m with h0 | hpos
  · subst h0
    exact (F64.le_notNaN (hh 1 (by omega) (by omega))).1
  · exact (F64.le_notNaN (hh m hm hpos)).2

theorem getElem?_keys (pq : PriorityQueue) (m : Nat) :
    (keys pq)[m]? = (pq[m]?).map (fun a => (a.value, a.priority)) := by
  simp [keys]

/-- C9, amended: for every heap-valid queue with consistent slot fields in which
identifier `v` occurs exactly once, if `p` is strictly less than the priority of
every other entry, then `update(v, p)` followed by `pop` returns the entry with
identifier `v` and priority `p`. -/
theorem update_then_pop (pq : PriorityQueue) (v : Int) (p : F64) (hh : HeapInvariant pq)
    (hs : SlotsConsistent pq) (hv : (pq.map (fun a => a.value)).count v = 1)
    (hp : ∀ a ∈ pq, a.value ≠ v → p.lt a.priority = true) :
    ∃ q1 item rest, update pq v p = .ok q1 ∧ pop q1 = .ok (item, rest) ∧
      item.value = v ∧ item.priority = p := by
  have hmem : v ∈ pq.map (fun a => a.value) := by
    apply List.count_pos_iff.mp; omega
  obtain ⟨a0, ha0, ha0v⟩ := List.mem_map.mp hmem
  cases hf : firstMatch v pq with
  | none => exact absurd ha0v ((firstMatch_none v pq).mp hf a0 ha0)
  | some r =>
    obtain ⟨k, item0⟩ := r
    obtain ⟨h1, h2, _⟩ := firstMatch_some v pq k item0 hf
    have hk := lt_of_getElem? pq k item0 h1
    have huniq : ∀ (m : Nat) (b : Item), pq[m]? = some b → b.value = v → m = k := by
      intro m b hb hbv
      apply count_one_unique v _ hv m k
      · simp [hb, hbv]
      · simp [h1, h2]
    obtain ⟨q1, hu, hlen, _, _, hkeys⟩ := update_props pq v p hs
    have hperm := hkeys k item0 hf
    have hne : q1 ≠ [] := by
      intro e; rw [e] at hlen; simp at hlen; omega
    obtain ⟨a, rest, ha, hpop, _⟩ := pop_props q1 hne
    refine ⟨q1, _, rest, hu, hpop, ?_⟩
    have hroot : (a.value, a.priority) ∈ (keys pq).set k (v, p) := by
      apply hperm.subset
      exact List.mem_iff_getElem?.mpr ⟨0, by rw [getElem?_keys, ha]; rfl⟩
    obtain ⟨m, hm⟩ := List.mem_iff_getElem?.mp hroot
    rw [List.getElem?_set] at hm
    by_cases c : k = m
    · subst c
      have hk2 : k < (keys pq).length := by simpa [keys] using hk
      simp only [if_true, hk2, Option.some.injEq, Prod.mk.injEq] at hm
      exact ⟨hm.1.symm, hm.2.symm⟩
    · exfalso
      simp only [c, if_false] at hm
      rw [getElem?_keys] at hm
      cases hb : pq[m]? with
      | none => rw [hb] at hm; cases hm
      | some b =>
        rw [hb] at hm
        simp only [Option.map_some', Option.some.injEq, Prod.mk.injEq] at hm
        have hbv : b.value ≠ v := fun e => c (huniq m b hb e).symm
        have hlt : p.lt a.priority = true := by
          rw [← hm.2]
          exact hp b (List.mem_iff_getElem?.mpr ⟨m, hb⟩) hbv
        have hm2 := lt_of_getElem? pq m b hb
        have hn : NoNaN pq := heap_noNaN pq hh (by omega)
        obtain ⟨q2, hu2, hh2, hn2⟩ :=
          update_heap pq v p k item0 hf ((slots_iff pq).mp hs k item0 h1) hh hn (F64.lt_notNaN hlt).1
        rw [hu] at hu2
        cases hu2
        have hvp : (v, p) ∈ keys q1 := by
          apply hperm.symm.subset
          apply List.mem_iff_getElem?.mpr
          refine ⟨k, ?_⟩
          rw [List.getElem?_set]
          have hk2 : k < (keys pq).length := by simpa [keys] using hk
          simp [hk2]
        obtain ⟨c1, hc1, _, hc3⟩ := mem_keys_priority q1 _ hvp
        obtain ⟨m1, hm1, e⟩ := List.getElem_of_mem hc1
        have h6 := root_le q1 hh2 hn2 m1 hm1
        simp only [prioAt, ha, List.getElem?_eq_getElem hm1, e, hc3] at h6
        have := F64.le_nlt h6
        rw [this] at hlt
        cases hlt

theorem update_then_pop_witness :
    HeapInvariant [⟨1, .fin 2, 0⟩, ⟨5, .fin 10, 1⟩] ∧
    SlotsConsistent [⟨1, .fin 2, 0⟩, ⟨5, .fin 10, 1⟩] ∧
    (([⟨1, .fin 2, 0⟩, ⟨5, .fin 10, 1⟩] : PriorityQueue).map (fun a => a.value)).count 5 = 1 ∧
    (∀ a ∈ ([⟨1, .fin 2, 0⟩, ⟨5, .fin 10, 1⟩] : PriorityQueue), a.value ≠ 5 →
      (F64.fin 1).lt a.priority = true) ∧
    (∃ q1 item rest, update [⟨1, .fin 2, 0⟩, ⟨5, .fin 10, 1⟩] 5 (.fin 1) = .ok q1 ∧
      pop q1 = .ok (item, rest) ∧ item.value = 5 ∧ item.priority = .fin 1) ∧
    pushAll [⟨1, .fin 2, 0⟩, ⟨5, .fin 10, 0⟩] [] = .ok [⟨1, .fin 2, 0⟩, ⟨5, .fin 10, 1⟩] ∧
    update [⟨1, .fin 2, 0⟩, ⟨5, .fin 10, 1⟩] 5 (.fin 1)
      = .ok [⟨5, .fin 1, 0⟩, ⟨1, .fin 2, 1⟩] ∧
    pop [⟨5, .fin 1, 0⟩, ⟨1, .fin 2, 1⟩] = .ok (⟨5, .fin 1, -1⟩, [⟨1, .fin 2, 0⟩]) :=
  ⟨by decide, by decide, by decide, by decide,
    update_then_pop _ 5 (.fin 1) (by decide) (by decide) (by decide) (by decide),
    by decide, by decide, by decide⟩

/-- C9 as stated fails: the queue below is heap-valid and holds identifier 5 once,
in slot 2, but the slot field of that entry says 1; `update(5, 1)` then repairs
the heap around slot 1, the new minimum stays in slot 2, and `pop` returns
identifier 1. -/
theorem update_then_pop_fails_on_stale_slot :
    HeapInvariant [⟨1, .fin 2, 0⟩, ⟨2, .fin 3, 1⟩, ⟨5, .fin 10, 1⟩] ∧
    (([⟨1, .fin 2, 0⟩, ⟨2, .fin 3, 1⟩, ⟨5, .fin 10, 1⟩] : PriorityQueue).map
      (fun a => a.value)).count 5 = 1 ∧
    (∀ a ∈ ([⟨1, .fin 2, 0⟩, ⟨2, .fin 3, 1⟩, ⟨5, .fin 10, 1⟩] : PriorityQueue), a.value ≠ 5 →
      (F64.fin 1).lt a.priority = true) ∧
    update [⟨1, .fin 2, 0⟩, ⟨2, .fin 3, 1⟩, ⟨5, .fin 10, 1⟩] 5 (.fin 1)
      = .ok [⟨1, .fin 2, 0⟩, ⟨2, .fin 3, 1⟩, ⟨5, .fin 1, 1⟩] ∧
    pop [⟨1, .fin 2, 0⟩, ⟨2, .fin 3, 1⟩, ⟨5, .fin 1, 1⟩]
      = .ok (⟨1, .fin 2, -1⟩, [⟨5, .fin 1, 0⟩, ⟨2, .fin 3, 1⟩]) := by
  decide

/-! ## The fuel always suffices -/

/-- None of the three operations runs out of the fuel that `up` and `down` give
their loops, on any queue. -/
theorem fuel_suffices :
    (∀ (pq : PriorityQueue) (x : Item), push pq x ≠ .outOfFuel) ∧
    (∀ pq : PriorityQueue, pop pq ≠ .outOfFuel) ∧
    (∀ (pq : PriorityQueue) (v : Int) (p : F64), update pq v p ≠ .outOfFuel) := by
  refine ⟨?_, ?_, ?_⟩
  · intro pq x h
    obtain ⟨pq1, h1, _⟩ := push_props pq x
    rw [h1] at h; cases h
  · intro pq h
    by_cases hne : pq = []
    · subst hne
      revert h; decide
    · obtain ⟨a, rest, _, h2, _⟩ := pop_props pq hne
      rw [h2] at h; cases h
  · intro pq v p h
    cases hf : firstMatch v pq with
    | none => simp only [update, hf] at h; cases h
    | some r =>
      obtain ⟨k, item⟩ := r
      obtain ⟨q1, h1, _⟩ := heapFix_final (pq.set k { item with priority := p }) item.index
      simp only [update, hf] at h
      rw [h] at h1
      cases h1

/-! ## Tracking an item changes nothing else -/

theorem upLoopT_erase (fuel : Nat) : ∀ (pq : PriorityQueue) (j : Int) (t : Nat),
    (upLoopT fuel pq j t).map Prod.fst = upLoop fuel pq j := by
  induction fuel with
  | zero => intro pq j t; rfl
  | succ fuel ih =>
    intro pq j t
    simp only [upLoopT, upLoop]
    split
    · rfl
    · cases pq.Less j ((j - 1).tdiv 2) with
      | none => rfl
      | some b =>
        cases b with
        | false => rfl
        | true =>
          cases pq.Swap ((j - 1).tdiv 2) j with
          | none => rfl
          | some pq1 => exact ih pq1 _ _

theorem downLoopT_erase (fuel : Nat) : ∀ (pq : PriorityQueue) (i n : Int) (t : Nat),
    (downLoopT fuel pq i n t).map (fun r => (r.1, r.2.1)) = downLoop fuel pq i n := by
  induction fuel with
  | zero => intro pq i n t; rfl
  | succ fuel ih =>
    intro pq i n t
    simp only [downLoopT, downLoop]
    split
    · rfl
    · cases (if 2 * i + 1 + 1 < n then pq.Less (2 * i + 1 + 1) (2 * i + 1) else some false) with
      | none => rfl
      | some right =>
        simp only []
        cases pq.Less (if right = true then 2 * i + 1 + 1 else 2 * i + 1) i with
        | none => rfl
        | some b =>
          cases b with
          | false => rfl
          | true =>
            cases pq.Swap i (if right = true then 2 * i + 1 + 1 else 2 * i + 1) with
            | none => rfl
            | some pq1 => exact ih pq1 _ _ _

theorem downT_erase (pq : PriorityQueue) (i n : Int) (t : Nat) :
    (downT pq i n t).map (fun r => (r.1, r.2.1)) = down pq i n := by
  have h := downLoopT_erase (pq.length + 1) pq i n t
  simp only [downT, down, ← h]
  cases downLoopT (pq.length + 1) pq i n t with
  | ok r => rfl
  | panic q => rfl
  | outOfFuel => rfl

theorem heapFixT_erase (pq : PriorityQueue) (i : Int) (t : Nat) :
    (heapFixT pq i t).map Prod.fst = heapFix pq i := by
  have h := downT_erase pq i pq.Len t
  simp only [heapFixT, heapFix, ← h]
  cases downT pq i pq.Len t with
  | ok r =>
    obtain ⟨moved, pq1, t1⟩ := r
    cases moved with
    | true => rfl
    | false =>
      simp only [Outcome.map, Bool.false_eq_true, if_false]
      exact upLoopT_erase _ pq1 i t1
  | panic q => rfl
  | outOfFuel => rfl

/-- The bookkeeping changes nothing: without the tracked slot, `updateT` is
`update`. -/
theorem updateT_erase (pq : PriorityQueue) (v : Int) (p : F64) (t : Nat) :
    (updateT pq v p t).map Prod.fst = update pq v p := by
  simp only [updateT, update]
  cases firstMatch v pq with
  | none => rfl
  | some r => exact heapFixT_erase _ _ _

/-! ## Loop rules with a tracked item -/

theorem track_natCast (i j t : Nat) :
    track (i : Int) (j : Int) t = if t = i then j else if t = j then i else t := by
  simp only [track, Int.toNat_ofNat, Nat.cast_inj]

/-- Loop rule for the tracked `heap.up`, as `upLoop_rule`, with the tracked slot
in the invariant. -/
theorem upLoopT_rule (Inv : PriorityQueue → Nat → Nat → Prop)
    (hrange : ∀ q j t, Inv q j t → j < q.length)
    (hstep : ∀ q j t, Inv q j t → 0 < j →
      (prioAt q j).lt (prioAt q ((j - 1) / 2)) = true →
      Inv (swapN q ((j - 1) / 2) j) ((j - 1) / 2)
        (if t = (j - 1) / 2 then j else if t = j then (j - 1) / 2 else t)) :
    ∀ (fuel : Nat) (q : PriorityQueue) (j t : Nat), j < fuel → Inv q j t →
      ∃ q1 j1 t1, upLoopT fuel q j t = .ok (q1, t1) ∧ Inv q1 j1 t1 ∧
        (j1 = 0 ∨ (prioAt q1 j1).lt (prioAt q1 ((j1 - 1) / 2)) = false) := by
  intro fuel
  induction fuel with
  | zero => intro q j t h; omega
  | succ fuel ih =>
    intro q j t hf hinv
    have hj := hrange q j t hinv
    rcases Nat.eq_zero_or_pos j with h0 | hpos
    · subst h0
      refine ⟨q, 0, t, ?_, hinv, Or.inl rfl⟩
      simp only [upLoopT, parent_natCast]
      simp
    · have hp : (j - 1) / 2 < j := by omega
      have hne : ¬ ((((j - 1) / 2 : Nat) : Int) = (j : Int)) := by omega
      have hless := Less_prioAt q j ((j - 1) / 2) hj (by omega)
      cases hlt : (prioAt q j).lt (prioAt q ((j - 1) / 2)) with
      | false =>
        refine ⟨q, j, t, ?_, hinv, Or.inr hlt⟩
        simp only [upLoopT, parent_natCast, hne, if_false, hless, hlt]
      | true =>
        have hsw := Swap_natCast q ((j - 1) / 2) j (by omega) hj
        obtain ⟨q1, j1, t1, h1, h2, h4⟩ :=
          ih (swapN q ((j - 1) / 2) j) ((j - 1) / 2) _ (by omega) (hstep q j t hinv hpos hlt)
        refine ⟨q1, j1, t1, ?_, h2, h4⟩
        simp only [upLoopT, parent_natCast, hne, if_false, hless, hlt, hsw, track_natCast, h1]

/-- One round of the loop of the tracked `heap.down` at a slot inside the slice. -/
theorem downLoopT_succ (fuel : Nat) (pq : PriorityQueue) (i n t : Nat)
    (hi : i < pq.length) (hn : n ≤ pq.length) :
    downLoopT (fuel + 1) pq i n t =
      match minChild pq n i with
      | none => .ok ((i : Int), pq, t)
      | some j =>
        if (prioAt pq j).lt (prioAt pq i) = true then
          downLoopT fuel (swapN pq i j) j n (if t = i then j else if t = j then i else t)
        else .ok ((i : Int), pq, t) := by
  have e1 : (2 * (i : Int) + 1) = ((2 * i + 1 : Nat) : Int) := by push_cast; ring
  have e2 : (2 * (i : Int) + 1 + 1) = ((2 * i + 2 : Nat) : Int) := by push_cast; ring
  by_cases h1 : n ≤ 2 * i + 1
  · have c : ((n : Int) ≤ 2 * (i : Int) + 1 ∨ 2 * (i : Int) + 1 < 0) := by omega
    simp only [downLoopT, minChild, h1, if_true, c, ge_iff_le]
  · have c : ¬ ((n : Int) ≤ 2 * (i : Int) + 1 ∨ 2 * (i : Int) + 1 < 0) := by omega
    have l1 : 2 * i + 1 < pq.length := by omega
    by_cases h2 : 2 * i + 2 < n
    · have c2 : (2 * (i : Int) + 1 + 1 < (n : Int)) := by omega
      have l2 : 2 * i + 2 < pq.length := by omega
      cases hr : (prioAt pq (2 * i + 2)).lt (prioAt pq (2 * i + 1)) with
      | true =>
        have hl : pq.Less (2 * (i : Int) + 1 + 1) (2 * (i : Int) + 1) = some true := by
          rw [e2, e1, Less_prioAt pq _ _ l2 l1, hr]
        have hl2 : pq.Less (2 * (i : Int) + 1 + 1) i =
            some ((prioAt pq (2 * i + 2)).lt (prioAt pq i)) := by
          rw [e2, Less_prioAt pq _ _ l2 hi]
        have hs : pq.Swap i (2 * (i : Int) + 1 + 1) = some (swapN pq i (2 * i + 2)) := by
          rw [e2, Swap_natCast pq _ _ hi l2]
        have ht : track (i : Int) (2 * (i : Int) + 1 + 1) t =
            if t = i then 2 * i + 2 else if t = 2 * i + 2 then i else t := by
          rw [e2, track_natCast]
        have hm : minChild pq n i = some (2 * i + 2) := by simp [minChild, h1, h2, hr]
        rw [hm]
        simp only [downLoopT, ge_iff_le, c, if_false, c2, if_true, hl, hl2, hs, ht]
        cases (prioAt pq (2 * i + 2)).lt (prioAt pq i) <;>
          simp only [Bool.false_eq_true, if_false, if_true, e2]
      | false =>
        have hl : pq.Less (2 * (i : Int) + 1 + 1) (2 * (i : Int) + 1) = some false := by
          rw [e2, e1, Less_prioAt pq _ _ l2 l1, hr]
        have hl2 : pq.Less (2 * (i : Int) + 1) i =
            some ((prioAt pq (2 * i + 1)).lt (prioAt pq i)) := by
          rw [e1, Less_prioAt pq _ _ l1 hi]
        have hs : pq.Swap i (2 * (i : Int) + 1) = some (swapN pq i (2 * i + 1)) := by
          rw [e1, Swap_natCast pq _ _ hi l1]
        have ht : track (i : Int) (2 * (i : Int) + 1) t =
            if t = i then 2 * i + 1 else if t = 2 * i + 1 then i else t := by
          rw [e1, track_natCast]
        have hm : minChild pq n i = some (2 * i + 1) := by simp [minChild, h1, h2, hr]
        rw [hm]
        simp only [downLoopT, ge_iff_le, c, if_false, c2, if_true, hl, Bool.false_eq_true,
          hl2, hs, ht]
        cases (prioAt pq (2 * i + 1)).lt (prioAt pq i) <;>
          simp only [Bool.false_eq_true, if_false, if_true, e1]
    · have c2 : ¬ (2 * (i : Int) + 1 + 1 < (n : Int)) := by omega
      have hl2 : pq.Less (2 * (i : Int) + 1) i =
          some ((prioAt pq (2 * i + 1)).lt (prioAt pq i)) := by
        rw [e1, Less_prioAt pq _ _ l1 hi]
      have hs : pq.Swap i (2 * (i : Int) + 1) = some (swapN pq i (2 * i + 1)) := by
        rw [e1, Swap_natCast pq _ _ hi l1]
      have ht : track (i : Int) (2 * (i : Int) + 1) t =
          if t = i then 2 * i + 1 else if t = 2 * i + 1 then i else t := by
        rw [e1, track_natCast]
      have hm : minChild pq n i = some (2 * i + 1) := by simp [minChild, h1, h2]
      rw [hm]
      simp only [downLoopT, ge_iff_le, c, if_false, c2, Bool.false_eq_true, hl2, hs, ht]
      cases (prioAt pq (2 * i + 1)).lt (prioAt pq i) <;>
        simp only [Bool.false_eq_true, if_false, if_true, e1]

theorem minChild_child (q : PriorityQueue) (n i j : Nat) (h : minChild q n i = some j) :
    i < j ∧ j < n ∧ (j - 1) / 2 = i := by
  unfold minChild at h
  split at h
  · cases h
  · split at h <;> cases h <;> omega

/-- Loop rule for the tracked `heap.down`, as `downLoop_rule`, with the tracked
slot in the invariant. -/
theorem downLoopT_rule (n : Nat) (Inv : PriorityQueue → Nat → Nat → Prop)
    (hrange : ∀ q i t, Inv q i t → i < q.length ∧ n ≤ q.length)
    (hstep : ∀ q i j t, Inv q i t → minChild q n i = some j →
      (prioAt q j).lt (prioAt q i) = true →
      Inv (swapN q i j) j (if t = i then j else if t = j then i else t)) :
    ∀ (fuel : Nat) (q : PriorityQueue) (i t : Nat), n - i < fuel → Inv q i t →
      ∃ (q1 : PriorityQueue) (i1 t1 : Nat),
        downLoopT fuel q i n t = .ok ((i1 : Int), q1, t1) ∧ Inv q1 i1 t1 ∧ i ≤ i1 ∧
        (minChild q1 n i1 = none ∨
          ∃ j, minChild q1 n i1 = some j ∧ (prioAt q1 j).lt (prioAt q1 i1) = false) := by
  intro fuel
  induction fuel with
  | zero => intro q i t h; omega
  | succ fuel ih =>
    intro q i t hf hinv
    obtain ⟨hi, hn⟩ := hrange q i t hinv
    rw [downLoopT_succ fuel q i n t hi hn]
    cases hm : minChild q n i with
    | none => exact ⟨q, i, t, rfl, hinv, le_refl _, Or.inl hm⟩
    | some j =>
      have hj := minChild_child q n i j hm
      cases hlt : (prioAt q j).lt (prioAt q i) with
      | false =>
        refine ⟨q, i, t, ?_, hinv, le_refl _, Or.inr ⟨j, hm, hlt⟩⟩
        simp [hlt]
      | true =>
        obtain ⟨q1, i1, t1, h1, h2, h3, h4⟩ :=
          ih (swapN q i j) j _ (by omega) (hstep q i j t hinv hm hlt)
        refine ⟨q1, i1, t1, ?_, h2, by omega, h4⟩
        simp [hlt, h1]

/-! ## heap.Fix with a tracked item -/

theorem set_same (q : PriorityQueue) (k : Nat) (a : Item) (h : q[k]? = some a) :
    q.set k a = q := by
  apply List.ext_getElem?
  intro m
  rw [List.getElem?_set]
  by_cases c : k = m
  · subst c
    simp [h, lt_of_getElem? q k a h]
  · simp [c]

/-- The tracked `heap.Fix` at an index outside the slice swaps nothing: it
returns the queue and the tracked slot as they are, or panics on the first
`Less`. -/
theorem heapFixT_outside (q : PriorityQueue) (i : Int) (t : Nat)
    (h : i < 0 ∨ (q.length : Int) ≤ i) :
    heapFixT q i t = .ok (q, t) ∨ heapFixT q i t = .panic q := by
  have c : ((q.length : Int) ≤ 2 * i + 1 ∨ 2 * i + 1 < 0) := by omega
  have hd : downT q i q.Len t = .ok (false, q, t) := by
    simp only [downT, downLoopT, PriorityQueue.Len, ge_iff_le, c, if_true, gt_iff_lt,
      lt_self_iff_false, decide_False]
  simp only [heapFixT, hd, Bool.false_eq_true, if_false, upT, upLoopT]
  split
  · exact Or.inl rfl
  · simp only [Less_outside q i _ h]
    exact Or.inr trivial

/-- Rule for the tracked `heap.Fix` at a slot inside the slice: it returns, and it
keeps every invariant of the queue and the tracked slot that is kept by a swap
of a slot with its parent when the slot holds the smaller priority. -/
theorem heapFixT_inv (J : PriorityQueue → Nat → Prop) (L : Nat)
    (hlen : ∀ q t, J q t → q.length = L)
    (hswap : ∀ q t a b, J q t → 0 < b → b < L → (b - 1) / 2 = a →
      (prioAt q b).lt (prioAt q a) = true →
      J (swapN q a b) (if t = a then b else if t = b then a else t))
    (q : PriorityQueue) (i t : Nat) (hi : i < L) (h : J q t) :
    ∃ q1 t1, heapFixT q i t = .ok (q1, t1) ∧ J q1 t1 := by
  have hL := hlen q t h
  obtain ⟨q1, i1, t1, h1, h2, _, _⟩ :=
    downLoopT_rule L (fun q i t => J q t ∧ i < L)
      (fun q i t hq => by rw [hlen q t hq.1]; exact ⟨hq.2, le_refl _⟩)
      (fun q i j t hq hm hlt => by
        obtain ⟨h1, h2, h3⟩ := minChild_child q L i j hm
        exact ⟨hswap q t i j hq.1 (by omega) h2 h3 hlt, h2⟩)
      (L + 1) q i t (by omega) ⟨h, hi⟩
  have hd : downT q i q.Len t = .ok (decide ((i1 : Int) > (i : Int)), q1, t1) := by
    simp only [downT, PriorityQueue.Len, hL, h1]
  by_cases hm : (i1 : Int) > (i : Int)
  · refine ⟨q1, t1, ?_, h2.1⟩
    simp only [heapFixT, hd, hm, decide_True, if_true]
  · have hL1 := hlen q1 t1 h2.1
    obtain ⟨q2, j2, t2, h3, h4, _⟩ :=
      upLoopT_rule (fun q j t => J q t ∧ j < L)
        (fun q j t hq => by rw [hlen q t hq.1]; exact hq.2)
        (fun q j t hq hj hlt =>
          ⟨hswap q t ((j - 1) / 2) j hq.1 hj hq.2 rfl hlt, by have := hq.2; omega⟩)
        (L + 1) q1 i t1 (by omega) ⟨h2.1, hi⟩
    refine ⟨q2, t2, ?_, h4.1⟩
    simp only [heapFixT, hd, hm, decide_False, Bool.false_eq_true, if_false, upT, hL1, h3]

theorem AncestorOrSelf.of_parent {t k : Nat} (h : AncestorOrSelf t k) (ht : 0 < t) :
    AncestorOrSelf ((t - 1) / 2) k := by
  induction h with
  | self => exact AncestorOrSelf.parent t ht AncestorOrSelf.self
  | parent b hb _ ih => exact AncestorOrSelf.parent b hb ih

theorem F64.not_lt_of_le_lt {a q p : F64} (h1 : a.le q = true) (h2 : q.lt p = true) :
    p.lt a = false := by
  cases a <;> cases q <;> cases p <;> simp_all [F64.le, F64.lt]
  exact h1.trans h2.le

/-- In a queue that meets the invariant of `heap.up` at slot `t`, the only slot
that can hold a smaller priority than its parent is `t`. -/
theorem upInv_only (L : Nat) (q : PriorityQueue) (t b : Nat) (h : UpInv L q t)
    (hb : 0 < b) (hbL : b < L)
    (hlt : (prioAt q b).lt (prioAt q ((b - 1) / 2)) = true) : b = t := by
  by_contra c
  have := F64.le_nlt (h.2.2.2.1 b hbL hb c)
  rw [this] at hlt
  cases hlt

theorem noNaN_set (pq : PriorityQueue) (k : Nat) (x : Item) (hh : HeapInvariant pq)
    (hk : k < pq.length) (hx : x.priority.isNaN = false) :
    ∀ m, m < pq.length → (prioAt (pq.set k x) m).isNaN = false := by
  intro m hm
  rw [prioAt_set pq k x hk m]
  by_cases c : m = k
  · rw [if_pos c]; exact hx
  · rw [if_neg c]
    exact (NoNaN_iff pq).mp (heap_noNaN pq hh (by omega)) m hm

/-- Lowering the priority at slot `k` of a heap: whatever slot inside the slice
`heap.Fix` is called at, the item of slot `k` ends at `k` or at an ancestor. -/
theorem heapFixT_lowered (pq : PriorityQueue) (k : Nat) (item : Item) (p : F64) (i : Nat)
    (hh : HeapInvariant pq) (hk : pq[k]? = some item) (hi : i < pq.length)
    (hp : p.lt item.priority = true) :
    ∃ q1 t, heapFixT (pq.set k { item with priority := p }) i k = .ok (q1, t) ∧
      AncestorOrSelf t k := by
  have hkL := lt_of_getElem? pq k item hk
  have hq : prioAt pq k = item.priority := by simp [prioAt, hk]
  have hset : ∀ m, prioAt (pq.set k { item with priority := p }) m =
      if m = k then p else prioAt pq m :=
    fun m => prioAt_set pq k _ hkL m
  have hinv : UpInv pq.length (pq.set k { item with priority := p }) k := by
    refine ⟨List.length_set _ _ _, hkL,
      noNaN_set pq k _ hh hkL (F64.lt_notNaN hp).1, ?_, ?_⟩
    · intro m hm hm0 hmk
      rw [hset m, hset ((m - 1) / 2), if_neg hmk]
      by_cases c : (m - 1) / 2 = k
      · rw [if_pos c]
        have h1 := hh m hm hm0
        rw [c, hq] at h1
        exact F64.le_tr (F64.lt_le hp) h1
      · rw [if_neg c]
        exact hh m hm hm0
    · intro m hm hm0 hmp hk0
      rw [hset m, hset ((k - 1) / 2), if_neg (show ¬ m = k by omega),
        if_neg (show ¬ (k - 1) / 2 = k by omega)]
      have h1 := hh k hkL hk0
      have h2 := hh m hm hm0
      rw [hmp] at h2
      exact F64.le_tr h1 h2
  obtain ⟨q1, t1, h1, h2⟩ :=
    heapFixT_inv (fun q t => UpInv pq.length q t ∧ AncestorOrSelf t k) pq.length
      (fun q t hq => hq.1.1)
      (fun q t a b hq hb hbL hab hlt => by
        subst hab
        have e := upInv_only pq.length q t b hq.1 hb hbL hlt
        subst e
        rw [if_neg (show ¬ b = (b - 1) / 2 by omega), if_pos rfl]
        exact ⟨upInv_step pq.length q b hq.1 hb hlt, hq.2.of_parent hb⟩)
      (pq.set k { item with priority := p }) i k hi ⟨hinv, AncestorOrSelf.self⟩
  exact ⟨q1, t1, h1, h2.2⟩

/-- Raising the priority at slot `k` of a heap and calling `heap.Fix` at `k`: the
item ends at `k` or at a descendant. -/
theorem heapFixT_raised_self (pq : PriorityQueue) (k : Nat) (item : Item) (p : F64)
    (hh : HeapInvariant pq) (hk : pq[k]? = some item)
    (hp : item.priority.lt p = true) :
    ∃ q1 t, heapFixT (pq.set k { item with priority := p }) k k = .ok (q1, t) ∧
      AncestorOrSelf k t := by
  have hkL := lt_of_getElem? pq k item hk
  have hq : prioAt pq k = item.priority := by simp [prioAt, hk]
  have hl0 : (pq.set k { item with priority := p }).length = pq.length := List.length_set _ _ _
  have hset : ∀ m, prioAt (pq.set k { item with priority := p }) m =
      if m = k then p else prioAt pq m :=
    fun m => prioAt_set pq k _ hkL m
  have hinv : DownInv pq.length pq.length k (pq.set k { item with priority := p }) k := by
    refine ⟨hl0, le_refl _, hkL, le_refl _,
      noNaN_set pq k _ hh hkL (F64.lt_notNaN hp).2, ?_, ?_, ?_⟩
    · intro m hm hm0 hmk hmp
      rw [hset m, hset ((m - 1) / 2), if_neg hmk, if_neg hmp]
      exact hh m hm hm0
    · intro m hm hm0 hmp hk0
      rw [hset m, hset ((k - 1) / 2), if_neg (show ¬ m = k by omega),
        if_neg (show ¬ (k - 1) / 2 = k by omega)]
      have h1 := hh k hkL hk0
      have h2 := hh m hm hm0
      rw [hmp] at h2
      exact F64.le_tr h1 h2
    · intro h; omega
  obtain ⟨q1, i1, t1, h1, h2, _, _⟩ :=
    downLoopT_rule pq.length
      (fun q i t => DownInv pq.length pq.length k q i ∧ t = i ∧ AncestorOrSelf k i ∧
        (i = k → q = pq.set k { item with priority := p }))
      (fun q i t hq => by rw [hq.1.1]; exact ⟨hq.1.2.2.1, le_refl _⟩)
      (fun q i j t hq hm hlt => by
        obtain ⟨c1, c2, c3⟩ := minChild_child q pq.length i j hm
        obtain ⟨d1, d2, d3, d4⟩ := hq
        refine ⟨downInv_step pq.length pq.length k q i j d1 hm hlt, ?_, ?_, ?_⟩
        · rw [if_pos d2]
        · exact AncestorOrSelf.parent j (by omega) (by rw [c3]; exact d3)
        · intro e
          have := d1.2.2.2.1
          omega)
      (pq.length + 1) (pq.set k { item with priority := p }) k k (by omega)
      ⟨hinv, rfl, AncestorOrSelf.self, fun _ => rfl⟩
  obtain ⟨g1, g2, g3, g4⟩ := h2
  have hd : downT (pq.set k { item with priority := p }) k
      (PriorityQueue.Len (pq.set k { item with priority := p })) k
        = .ok (decide ((i1 : Int) > (k : Int)), q1, t1) := by
    simp only [downT, PriorityQueue.Len, hl0, h1]
  by_cases hm : (i1 : Int) > (k : Int)
  · refine ⟨q1, t1, ?_, by rw [g2]; exact g3⟩
    simp only [heapFixT, hd, hm, decide_True, if_true]
  · have e : i1 = k := by
      have := g1.2.2.2.1
      omega
    have eq1 : q1 = pq.set k { item with priority := p } := g4 e
    have et : t1 = k := by rw [g2, e]
    rw [eq1, et] at hd
    obtain ⟨q2, j2, t2, h3, h4, _⟩ :=
      upLoopT_rule (fun q j t => q = pq.set k { item with priority := p } ∧ j = k ∧ t = k)
        (fun q j t hq => by rw [hq.1, hq.2.1, hl0]; exact hkL)
        (fun q j t hq hj hlt => by
          exfalso
          obtain ⟨e1, e2, _⟩ := hq
          rw [e1, e2, hset k, hset ((k - 1) / 2), if_pos rfl,
            if_neg (show ¬ (k - 1) / 2 = k by omega)] at hlt
          have h5 := hh k hkL (by omega)
          rw [hq] at h5
          rw [F64.not_lt_of_le_lt h5 hp] at hlt
          cases hlt)
        (pq.length + 1) (pq.set k { item with priority := p }) k k (by omega)
        ⟨rfl, rfl, rfl⟩
    refine ⟨q2, t2, ?_, by rw [h4.2.2]; exact AncestorOrSelf.self⟩
    simp only [heapFixT, hd, hm, decide_False, Bool.false_eq_true, if_false, upT, hl0, h3]

/-- Raising the priority at slot `k` of a heap and calling `heap.Fix` at another
slot `i` inside the slice: at most one swap happens, of slot `k` with `i` when `i`
is a child of `k`; the item ends at `k` or at that child. -/
theorem heapFixT_raised_other (pq : PriorityQueue) (k : Nat) (item : Item) (p : F64)
    (i : Nat) (hh : HeapInvariant pq) (hk : pq[k]? = some item) (hi : i < pq.length)
    (hik : i ≠ k) (hp : item.priority.lt p = true) :
    ∃ q1 t, heapFixT (pq.set k { item with priority := p }) i k = .ok (q1, t) ∧
      AncestorOrSelf k t := by
  have hkL := lt_of_getElem? pq k item hk
  have hq : prioAt pq k = item.priority := by simp [prioAt, hk]
  have hl0 : (pq.set k { item with priority := p }).length = pq.length := List.length_set _ _ _
  have hset : ∀ m, prioAt (pq.set k { item with priority := p }) m =
      if m = k then p else prioAt pq m :=
    fun m => prioAt_set pq k _ hkL m
  -- in the queue with `p` written, an edge whose parent is not `k` is in order
  have hedge : ∀ b, 0 < b → b < pq.length → (b - 1) / 2 ≠ k →
      (prioAt (pq.set k { item with priority := p }) b).lt
        (prioAt (pq.set k { item with priority := p }) ((b - 1) / 2)) = false := by
    intro b hb hbL hbk
    rw [hset b, hset ((b - 1) / 2), if_neg hbk]
    have h1 := hh b hbL hb
    by_cases c : b = k
    · rw [if_pos c]
      rw [c, hq] at h1
      rw [c]
      exact F64.not_lt_of_le_lt h1 hp
    · rw [if_neg c]
      exact F64.le_nlt h1
  obtain ⟨q1, i1, t1, h1, h2, _, _⟩ :=
    downLoopT_rule pq.length
      (fun q j t => q = pq.set k { item with priority := p } ∧ j = i ∧ t = k)
      (fun q j t hq => by rw [hq.1, hq.2.1, hl0]; exact ⟨hi, le_refl _⟩)
      (fun q j c t hq hm hlt => by
        exfalso
        obtain ⟨e1, e2, _⟩ := hq
        obtain ⟨c1, c2, c3⟩ := minChild_child q pq.length j c hm
        rw [e1] at hlt
        have := hedge c (by omega) c2 (by omega)
        rw [c3] at this
        rw [this] at hlt
        cases hlt)
      (pq.length + 1) (pq.set k { item with priority := p }) i k (by omega)
      ⟨rfl, rfl, rfl⟩
  obtain ⟨g1, g2, g3⟩ := h2
  rw [g1, g2, g3] at h1
  have hd : downT (pq.set k { item with priority := p }) i
      (PriorityQueue.Len (pq.set k { item with priority := p })) k
        = .ok (false, pq.set k { item with priority := p }, k) := by
    simp only [downT, PriorityQueue.Len, hl0, h1, gt_iff_lt, lt_self_iff_false, decide_False]
  obtain ⟨q2, j2, t2, h3, h4, _⟩ :=
    upLoopT_rule
      (fun q j t => (q = pq.set k { item with priority := p } ∧ j = i ∧ t = k) ∨
        (q = swapN (pq.set k { item with priority := p }) k i ∧ (i - 1) / 2 = k ∧ 0 < i ∧
          j = k ∧ t = i))
      (fun q j t hq => by
        rcases hq with ⟨e1, e2, _⟩ | ⟨e1, _, _, e2, _⟩
        · rw [e1, e2, hl0]; exact hi
        · rw [e1, e2, length_swapN, hl0]; exact hkL)
      (fun q j t hq hj hlt => by
        rcases hq with ⟨e1, e2, e3⟩ | ⟨e1, e2, e3, e4, e5⟩
        · rw [e1, e2] at hlt ⊢
          rw [e3]
          have hpar : (i - 1) / 2 = k := by
            by_contra c
            rw [hedge i (by omega) hi c] at hlt
            cases hlt
          refine Or.inr ⟨by rw [hpar], hpar, by omega, hpar, ?_⟩
          rw [hpar, if_pos rfl]
        · exfalso
          rw [e1, e4] at hlt
          have hsw := prioAt_swapN (pq.set k { item with priority := p }) k i
          rw [hsw k (by omega) (by omega), hsw ((k - 1) / 2) (by omega) (by omega),
            if_neg (Ne.symm hik), if_pos rfl, if_neg (show ¬ (k - 1) / 2 = i by omega),
            if_neg (show ¬ (k - 1) / 2 = k by omega), hset i, hset ((k - 1) / 2),
            if_neg hik, if_neg (show ¬ (k - 1) / 2 = k by omega)] at hlt
          have h5 := hh k hkL (by omega)
          have h6 := hh i hi e3
          rw [e2] at h6
          rw [F64.le_nlt (F64.le_tr h5 h6)] at hlt
          cases hlt)
      (pq.length + 1) (pq.set k { item with priority := p }) i k (by omega)
      (Or.inl ⟨rfl, rfl, rfl⟩)
  refine ⟨q2, t2, ?_, ?_⟩
  · simp only [heapFixT, hd, Bool.false_eq_true, if_false, upT, hl0, h3]
  · rcases h4 with ⟨_, _, e3⟩ | ⟨_, e2, e3, _, e5⟩
    · rw [e3]; exact AncestorOrSelf.self
    · rw [e5]
      exact AncestorOrSelf.parent i e3 (by rw [e2]; exact AncestorOrSelf.self)

/-! ## The tracked slot follows the item -/

theorem keys_swapN_track (q : PriorityQueue) (a b t : Nat) (ha : a < q.length)
    (hb : b < q.length) :
    (keys (swapN q a b))[if t = a then b else if t = b then a else t]? = (keys q)[t]? := by
  obtain ⟨x, hx⟩ := getElem?_of_lt q a ha
  obtain ⟨y, hy⟩ := getElem?_of_lt q b hb
  rw [getElem?_keys, getElem?_keys, getElem?_swapN q a b _ x y hx hy]
  by_cases c1 : t = a
  · subst c1
    simp only [if_true, hx, Option.map_some']
  · by_cases c2 : t = b
    · subst c2
      rw [if_neg c1, if_pos rfl]
      by_cases c3 : a = t
      · exact absurd c3.symm c1
      · simp only [c3, if_false, if_true, hy, Option.map_some']
    · simp only [c1, c2, if_false]

/-- The bookkeeping is right: the slot that the tracked `heap.Fix` returns holds
the identifier and priority that the tracked slot held before. -/
theorem heapFixT_tracks (q : PriorityQueue) (i : Int) (t : Nat) (q1 : PriorityQueue)
    (t1 : Nat) (h : heapFixT q i t = .ok (q1, t1)) :
    (keys q1)[t1]? = (keys q)[t]? := by
  by_cases hout : i < 0 ∨ (q.length : Int) ≤ i
  · rcases heapFixT_outside q i t hout with c | c
    · rw [c] at h
      cases h
      rfl
    · rw [c] at h
      cases h
  · have hidx : i = ((i.toNat : Nat) : Int) := by omega
    obtain ⟨q2, t2, e1, e2⟩ :=
      heapFixT_inv (fun q' t' => q'.length = q.length ∧ (keys q')[t']? = (keys q)[t]?) q.length
        (fun q' t' hq => hq.1)
        (fun q' t' a b hq hb hbL hab _ =>
          ⟨by rw [length_swapN, hq.1], by
            rw [keys_swapN_track q' a b t' (by rw [hq.1]; omega) (by rw [hq.1]; omega)]
            exact hq.2⟩)
        q i.toNat t (by omega) ⟨rfl, rfl⟩
    rw [hidx, e1] at h
    cases h
    exact e2.2

/-- The slot that `updateT` returns holds the identifier and priority that the
tracked slot holds once the new priority is written. -/
theorem updateT_tracks (pq : PriorityQueue) (v : Int) (p : F64) (t : Nat)
    (q1 : PriorityQueue) (t1 : Nat) (h : updateT pq v p t = .ok (q1, t1)) :
    (keys q1)[t1]? =
      match firstMatch v pq with
      | none => (keys pq)[t]?
      | some (k, _) => ((keys pq).set k (v, p))[t]? := by
  cases hf : firstMatch v pq with
  | none =>
    simp only [updateT, hf, Outcome.ok.injEq, Prod.mk.injEq] at h
    rw [← h.1, ← h.2]
  | some r =>
    obtain ⟨k, item⟩ := r
    simp only [updateT, hf] at h
    have := heapFixT_tracks _ _ _ _ _ h
    rw [keys_set] at this
    rw [this, (firstMatch_some v pq k item hf).2.1]

/-! ## update moves an item one way only -/

theorem ok_of_erase {α β : Type} (f : α → β) (o : Outcome α) (b : β)
    (h : o.map f = .ok b) : ∃ a, o = .ok a ∧ f a = b := by
  cases o with
  | ok a => exact ⟨a, rfl, by simpa [Outcome.map] using h⟩
  | panic q => simp [Outcome.map] at h
  | outOfFuel => simp [Outcome.map] at h

/-- The tracked `heap.Fix` at a slot inside the slice returns. -/
theorem heapFixT_returns (q : PriorityQueue) (i t : Nat) (hi : i < q.length) :
    ∃ q1 t1, heapFixT q i t = .ok (q1, t1) := by
  obtain ⟨q1, h1, _⟩ := heapFix_reach q i hi
  rw [← heapFixT_erase q i t] at h1
  obtain ⟨a, h2, _⟩ := ok_of_erase _ _ _ h1
  exact ⟨a.1, a.2, h2⟩

/-- C13: for every heap-valid queue holding identifier `v`, with `k` the slot of
the first entry carrying `v` and `q` its priority: `update(v, p)` either returns,
and then that entry stands at slot `k` or an ancestor of `k` when `p < q`, and at
slot `k` or a descendant of `k` when `p > q`; or (only with inconsistent slot
fields) it panics before any swap, the entry still standing at slot `k`. -/
theorem update_moves_one_way (pq : PriorityQueue) (v : Int) (p : F64)
    (hh : HeapInvariant pq) (hv : ∃ a ∈ pq, a.value = v) :
    ∃ k item, pq[k]? = some item ∧ item.value = v ∧
      (∀ (m : Nat) (b : Item), m < k → pq[m]? = some b → b.value ≠ v) ∧
      ((∃ q1 t, updateT pq v p k = .ok (q1, t) ∧ update pq v p = .ok q1 ∧
          (p.lt item.priority = true → AncestorOrSelf t k) ∧
          (item.priority.lt p = true → AncestorOrSelf k t)) ∨
        (update pq v p = .panic (pq.set k { item with priority := p }) ∧
          ¬ SlotsConsistent pq)) := by
  cases hf : firstMatch v pq with
  | none =>
    obtain ⟨a, ha, hav⟩ := hv
    exact absurd hav ((firstMatch_none v pq).mp hf a ha)
  | some r =>
    obtain ⟨k, item⟩ := r
    obtain ⟨h1, h2, h3⟩ := firstMatch_some v pq k item hf
    have hkL := lt_of_getElem? pq k item h1
    have hl0 : (pq.set k { item with priority := p }).length = pq.length :=
      List.length_set _ _ _
    have hu : updateT pq v p k = heapFixT (pq.set k { item with priority := p }) item.index k := by
      simp only [updateT, hf]
    have herase := updateT_erase pq v p k
    refine ⟨k, item, h1, h2, h3, ?_⟩
    -- what a normal return of the tracked run gives
    have hret : ∀ q1 t, heapFixT (pq.set k { item with priority := p }) item.index k
        = .ok (q1, t) → updateT pq v p k = .ok (q1, t) ∧ update pq v p = .ok q1 := by
      intro q1 t hfix
      refine ⟨by rw [hu, hfix], ?_⟩
      rw [← herase, hu, hfix]
      rfl
    by_cases hout : item.index < 0 ∨ (pq.length : Int) ≤ item.index
    · have hout2 : item.index < 0 ∨
          ((pq.set k { item with priority := p }).length : Int) ≤ item.index := by
        rw [hl0]; exact hout
      rcases heapFixT_outside (pq.set k { item with priority := p }) item.index k hout2
        with hfix | hfix
      · obtain ⟨e1, e2⟩ := hret _ _ hfix
        exact Or.inl ⟨_, k, e1, e2, fun _ => AncestorOrSelf.self, fun _ => AncestorOrSelf.self⟩
      · refine Or.inr ⟨?_, ?_⟩
        · rw [← herase, hu, hfix]
          rfl
        · intro hs
          have := (slots_iff pq).mp hs k item h1
          omega
    · have hidx : item.index = ((item.index.toNat : Nat) : Int) := by omega
      have hi : item.index.toNat < pq.length := by omega
      have hfixeq : heapFixT (pq.set k { item with priority := p }) item.index k =
          heapFixT (pq.set k { item with priority := p }) (item.index.toNat : Int) k :=
        congrArg (fun x => heapFixT (pq.set k { item with priority := p }) x k) hidx
      replace hret : ∀ q1 t, heapFixT (pq.set k { item with priority := p })
          (item.index.toNat : Int) k = .ok (q1, t) →
          updateT pq v p k = .ok (q1, t) ∧ update pq v p = .ok q1 :=
        fun q1 t h => hret q1 t (hfixeq.trans h)
      by_cases hlow : p.lt item.priority = true
      · obtain ⟨q1, t, e1, e2⟩ := heapFixT_lowered pq k item p _ hh h1 hi hlow
        obtain ⟨e3, e4⟩ := hret q1 t e1
        refine Or.inl ⟨q1, t, e3, e4, fun _ => e2, fun hc => ?_⟩
        rw [F64.le_nlt (F64.lt_le hlow)] at hc
        cases hc
      · by_cases hhigh : item.priority.lt p = true
        · have hdir : ∃ q1 t, heapFixT (pq.set k { item with priority := p })
              (item.index.toNat : Int) k = .ok (q1, t) ∧ AncestorOrSelf k t := by
            by_cases c : item.index.toNat = k
            · have := heapFixT_raised_self pq k item p hh h1 hhigh
              rw [c]
              exact this
            · exact heapFixT_raised_other pq k item p _ hh h1 hi c hhigh
          obtain ⟨q1, t, e1, e2⟩ := hdir
          obtain ⟨e3, e4⟩ := hret q1 t e1
          exact Or.inl ⟨q1, t, e3, e4, fun hc => absurd hc hlow, fun _ => e2⟩
        · obtain ⟨q1, t, e1⟩ := heapFixT_returns (pq.set k { item with priority := p })
            item.index.toNat k (by rw [hl0]; exact hi)
          obtain ⟨e3, e4⟩ := hret q1 t e1
          exact Or.inl ⟨q1, t, e3, e4, fun hc => absurd hc hlow, fun hc => absurd hc hhigh⟩

theorem update_moves_one_way_witness :
    HeapInvariant [⟨1, .fin 1, 0⟩, ⟨2, .fin 3, 1⟩, ⟨3, .fin 5, 2⟩, ⟨4, .fin 7, 3⟩] ∧
    (∃ a ∈ ([⟨1, .fin 1, 0⟩, ⟨2, .fin 3, 1⟩, ⟨3, .fin 5, 2⟩, ⟨4, .fin 7, 3⟩] : PriorityQueue),
      a.value = 4) ∧
    (∃ k item,
      ([⟨1, .fin 1, 0⟩, ⟨2, .fin 3, 1⟩, ⟨3, .fin 5, 2⟩, ⟨4, .fin 7, 3⟩] : PriorityQueue)[k]?
        = some item ∧ item.value = 4 ∧
      (∀ (m : Nat) (b : Item), m < k →
        ([⟨1, .fin 1, 0⟩, ⟨2, .fin 3, 1⟩, ⟨3, .fin 5, 2⟩, ⟨4, .fin 7, 3⟩] : PriorityQueue)[m]?
          = some b → b.value ≠ 4) ∧
      ((∃ q1 t,
          updateT [⟨1, .fin 1, 0⟩, ⟨2, .fin 3, 1⟩, ⟨3, .fin 5, 2⟩, ⟨4, .fin 7, 3⟩] 4 (.fin 0) k
            = .ok (q1, t) ∧
          update [⟨1, .fin 1, 0⟩, ⟨2, .fin 3, 1⟩, ⟨3, .fin 5, 2⟩, ⟨4, .fin 7, 3⟩] 4 (.fin 0)
            = .ok q1 ∧
          ((F64.fin 0).lt item.priority = true → AncestorOrSelf t k) ∧
          (item.priority.lt (F64.fin 0) = true → AncestorOrSelf k t)) ∨
        (update [⟨1, .fin 1, 0⟩, ⟨2, .fin 3, 1⟩, ⟨3, .fin 5, 2⟩, ⟨4, .fin 7, 3⟩] 4 (.fin 0)
            = .panic (([⟨1, .fin 1, 0⟩, ⟨2, .fin 3, 1⟩, ⟨3, .fin 5, 2⟩, ⟨4, .fin 7, 3⟩] :
              PriorityQueue).set k { item with priority := .fin 0 }) ∧
          ¬ SlotsConsistent [⟨1, .fin 1, 0⟩, ⟨2, .fin 3, 1⟩, ⟨3, .fin 5, 2⟩, ⟨4, .fin 7, 3⟩]))) ∧
    updateT [⟨1, .fin 1, 0⟩, ⟨2, .fin 3, 1⟩, ⟨3, .fin 5, 2⟩, ⟨4, .fin 7, 3⟩] 4 (.fin 0) 3
      = .ok ([⟨4, .fin 0, 0⟩, ⟨1, .fin 1, 1⟩, ⟨3, .fin 5, 2⟩, ⟨2, .fin 3, 3⟩], 0) ∧
    updateT [⟨1, .fin 1, 0⟩, ⟨2, .fin 3, 1⟩, ⟨3, .fin 5, 2⟩, ⟨4, .fin 7, 3⟩] 1 (.fin 9) 0
      = .ok ([⟨2, .fin 3, 0⟩, ⟨4, .fin 7, 1⟩, ⟨3, .fin 5, 2⟩, ⟨1, .fin 9, 3⟩], 3) :=
  ⟨by decide, by decide, update_moves_one_way _ 4 (.fin 0) (by decide) (by decide),
    by decide, by decide⟩

/-- C14: for every heap-valid queue holding identifier `v`, `update(v, p)` with
`p` the priority of the first entry carrying `v` leaves the queue exactly as it
was, and every entry in the slot it had; with consistent slot fields the call
returns (with a slot field outside the slice it panics, nothing changed). -/
theorem update_same_priority (pq : PriorityQueue) (v : Int)
    (hh : HeapInvariant pq) (hv : ∃ a ∈ pq, a.value = v) :
    ∃ k item, pq[k]? = some item ∧ item.value = v ∧
      (∀ (m : Nat) (b : Item), m < k → pq[m]? = some b → b.value ≠ v) ∧
      (update pq v item.priority).final = some pq ∧
      ((∀ t, updateT pq v item.priority t = .ok (pq, t)) ∨
        (update pq v item.priority = .panic pq ∧ ¬ SlotsConsistent pq)) := by
  cases hf : firstMatch v pq with
  | none =>
    obtain ⟨a, ha, hav⟩ := hv
    exact absurd hav ((firstMatch_none v pq).mp hf a ha)
  | some r =>
    obtain ⟨k, item⟩ := r
    obtain ⟨h1, h2, h3⟩ := firstMatch_some v pq k item hf
    have hkL := lt_of_getElem? pq k item h1
    have e0 : pq.set k { item with priority := item.priority } = pq := set_same pq k item h1
    have hu : ∀ t, updateT pq v item.priority t = heapFixT pq item.index t := by
      intro t
      simp only [updateT, hf, e0]
    have hu0 : update pq v item.priority = heapFix pq item.index := by
      simp only [update, hf, e0]
    have hfin : ∃ q1, (heapFix pq item.index).final = some q1 ∧ q1 = pq := by
      by_cases hout : item.index < 0 ∨ (pq.length : Int) ≤ item.index
      · exact ⟨pq, heapFix_outside pq item.index hout, rfl⟩
      · have hidx : item.index = ((item.index.toNat : Nat) : Int) := by omega
        obtain ⟨q1, t1, e1, e2⟩ :=
          heapFixT_inv (fun q t => q = pq ∧ t = 0) pq.length
            (fun q t hq => by rw [hq.1])
            (fun q t a b hq hb hbL hab hlt => by
              exfalso
              rw [hq.1, ← hab, F64.le_nlt (hh b hbL hb)] at hlt
              cases hlt)
            pq item.index.toNat 0 (by omega) ⟨rfl, rfl⟩
        have e3 := heapFixT_erase pq (item.index.toNat : Int) 0
        rw [e1] at e3
        refine ⟨pq, ?_, rfl⟩
        rw [congrArg (heapFix pq) hidx, ← e3, e2.1]
        rfl
    obtain ⟨q1, hf1, hq1⟩ := hfin
    subst hq1
    refine ⟨k, item, h1, h2, h3, by rw [hu0]; exact hf1, ?_⟩
    by_cases hout : item.index < 0 ∨ (q1.length : Int) ≤ item.index
    · cases hfx : heapFix q1 item.index with
      | ok q2 =>
        rw [hfx] at hf1
        have e : q2 = q1 := by simpa [Outcome.final] using hf1
        subst e
        refine Or.inl (fun t => ?_)
        rw [hu t]
        rcases heapFixT_outside q2 item.index t hout with c | c
        · exact c
        · have := heapFixT_erase q2 item.index t
          rw [c, hfx] at this
          cases this
      | panic q2 =>
        rw [hfx] at hf1
        have e : q2 = q1 := by simpa [Outcome.final] using hf1
        subst e
        refine Or.inr ⟨by rw [hu0, hfx], ?_⟩
        intro hs
        have := (slots_iff q2).mp hs k item h1
        omega
      | outOfFuel =>
        rw [hfx] at hf1
        simp [Outcome.final] at hf1
    · have hidx : item.index = ((item.index.toNat : Nat) : Int) := by omega
      refine Or.inl (fun t => ?_)
      obtain ⟨q2, t1, e1, e2⟩ :=
        heapFixT_inv (fun q t1 => q = q1 ∧ t1 = t) q1.length
          (fun q t hq => by rw [hq.1])
          (fun q t1 a b hq hb hbL hab hlt => by
            exfalso
            rw [hq.1, ← hab, F64.le_nlt (hh b hbL hb)] at hlt
            cases hlt)
          q1 item.index.toNat t (by omega) ⟨rfl, rfl⟩
      rw [hu t, congrArg (fun x => heapFixT q1 x t) hidx, e1, e2.1, e2.2]

theorem update_same_priority_witness :
    HeapInvariant [⟨1, .fin 1, 0⟩, ⟨2, .fin 3, 1⟩, ⟨2, .fin 3, 2⟩] ∧
    (∃ a ∈ ([⟨1, .fin 1, 0⟩, ⟨2, .fin 3, 1⟩, ⟨2, .fin 3, 2⟩] : PriorityQueue), a.value = 2) ∧
    ∃ k item,
      ([⟨1, .fin 1, 0⟩, ⟨2, .fin 3, 1⟩, ⟨2, .fin 3, 2⟩] : PriorityQueue)[k]? = some item ∧
      item.value = 2 ∧
      (∀ (m : Nat) (b : Item), m < k →
        ([⟨1, .fin 1, 0⟩, ⟨2, .fin 3, 1⟩, ⟨2, .fin 3, 2⟩] : PriorityQueue)[m]? = some b →
        b.value ≠ 2) ∧
      (update [⟨1, .fin 1, 0⟩, ⟨2, .fin 3, 1⟩, ⟨2, .fin 3, 2⟩] 2 item.priority).final
        = some [⟨1, .fin 1, 0⟩, ⟨2, .fin 3, 1⟩, ⟨2, .fin 3, 2⟩] ∧
      ((∀ t, updateT [⟨1, .fin 1, 0⟩, ⟨2, .fin 3, 1⟩, ⟨2, .fin 3, 2⟩] 2 item.priority t
          = .ok ([⟨1, .fin 1, 0⟩, ⟨2, .fin 3, 1⟩, ⟨2, .fin 3, 2⟩], t)) ∨
        (update [⟨1, .fin 1, 0⟩, ⟨2, .fin 3, 1⟩, ⟨2, .fin 3, 2⟩] 2 item.priority
            = .panic [⟨1, .fin 1, 0⟩, ⟨2, .fin 3, 1⟩, ⟨2, .fin 3, 2⟩] ∧
          ¬ SlotsConsistent [⟨1, .fin 1, 0⟩, ⟨2, .fin 3, 1⟩, ⟨2, .fin 3, 2⟩])) :=
  ⟨by decide, by decide, update_same_priority _ 2 (by decide) (by decide)⟩

/-! ## push, pop and update on entries -/

/-- C11: for every queue, identifier `v` and priority `p`, `push(v, p)` returns a
queue whose (identifier, priority) pairs are the previous ones plus one occurrence
of `(v, p)`; so the number of entries with identifier `v` grows by one, also when
`v` was present already. -/
theorem push_adds_one_pair (pq : PriorityQueue) (x : Item) :
    ∃ pq1, push pq x = .ok pq1 ∧
      List.Perm (keys pq1) ((x.value, x.priority) :: keys pq) ∧
      (pq1.map (fun a => a.value)).count x.value =
        (pq.map (fun a => a.value)).count x.value + 1 := by
  obtain ⟨pq1, h1, _, h3, _⟩ := push_props pq x
  have hperm : List.Perm (keys pq1) ((x.value, x.priority) :: keys pq) :=
    h3.trans (List.perm_append_singleton _ _)
  refine ⟨pq1, h1, hperm, ?_⟩
  have h4 := (hperm.map Prod.fst).count_eq x.value
  have e1 : (keys pq1).map Prod.fst = pq1.map (fun a => a.value) := by
    simp [keys, List.map_map, Function.comp_def]
  have e2 : (keys pq).map Prod.fst = pq.map (fun a => a.value) := by
    simp [keys, List.map_map, Function.comp_def]
  rw [List.map_cons, e1, e2] at h4
  rw [h4]
  simp

/-- C12: for every non-empty queue (consistent slot fields are not even needed),
`pop` returns the entry that stood at array slot 0 (with its index field set to
-1), and the (identifier, priority) pairs left in the queue are the previous ones
minus one occurrence of the returned entry's pair. -/
theorem pop_removes_root (pq : PriorityQueue) (hne : pq ≠ []) :
    ∃ a item rest, pq[0]? = some a ∧ pop pq = .ok (item, rest) ∧
      item = { a with index := -1 } ∧
      List.Perm (keys pq) ((item.value, item.priority) :: keys rest) ∧
      rest.length + 1 = pq.length := by
  obtain ⟨a, rest, h1, h2, h3, h4, _⟩ := pop_props pq hne
  exact ⟨a, _, rest, h1, h2, rfl, h4, h3⟩

theorem pop_removes_root_witness :
    ([⟨2, .fin 3, 0⟩, ⟨1, .fin 5, 1⟩, ⟨2, .fin 3, 2⟩] : PriorityQueue) ≠ [] ∧
    (∃ a item rest,
      ([⟨2, .fin 3, 0⟩, ⟨1, .fin 5, 1⟩, ⟨2, .fin 3, 2⟩] : PriorityQueue)[0]? = some a ∧
      pop [⟨2, .fin 3, 0⟩, ⟨1, .fin 5, 1⟩, ⟨2, .fin 3, 2⟩] = .ok (item, rest) ∧
      item = { a with index := -1 } ∧
      List.Perm (keys [⟨2, .fin 3, 0⟩, ⟨1, .fin 5, 1⟩, ⟨2, .fin 3, 2⟩])
        ((item.value, item.priority) :: keys rest) ∧
      rest.length + 1 =
        ([⟨2, .fin 3, 0⟩, ⟨1, .fin 5, 1⟩, ⟨2, .fin 3, 2⟩] : PriorityQueue).length) ∧
    pop [⟨2, .fin 3, 0⟩, ⟨1, .fin 5, 1⟩, ⟨2, .fin 3, 2⟩]
      = .ok (⟨2, .fin 3, -1⟩, [⟨2, .fin 3, 0⟩, ⟨1, .fin 5, 1⟩]) :=
  ⟨by decide, pop_removes_root _ (by decide), by decide⟩

/-- C15: for every non-empty queue, the entry that `pop` returns has its index
field set to -1, and its identifier and priority are those of the entry that
stood at slot 0 of the queue. -/
theorem pop_invalidates_index (pq : PriorityQueue) (hne : pq ≠ []) :
    ∃ a item rest, a ∈ pq ∧ pq[0]? = some a ∧ pop pq = .ok (item, rest) ∧
      item.index = -1 ∧ item.value = a.value ∧ item.priority = a.priority := by
  obtain ⟨a, rest, h1, h2, _⟩ := pop_props pq hne
  exact ⟨a, _, rest, List.mem_iff_getElem?.mpr ⟨0, h1⟩, h1, h2, rfl, rfl, rfl⟩

theorem pop_invalidates_index_witness :
    ([⟨2, .fin 3, 0⟩, ⟨1, .fin 5, 1⟩] : PriorityQueue) ≠ [] ∧
    ∃ a item rest, a ∈ ([⟨2, .fin 3, 0⟩, ⟨1, .fin 5, 1⟩] : PriorityQueue) ∧
      ([⟨2, .fin 3, 0⟩, ⟨1, .fin 5, 1⟩] : PriorityQueue)[0]? = some a ∧
      pop [⟨2, .fin 3, 0⟩, ⟨1, .fin 5, 1⟩] = .ok (item, rest) ∧
      item.index = -1 ∧ item.value = a.value ∧ item.priority = a.priority :=
  ⟨by decide, pop_invalidates_index _ (by decide)⟩

/-- C16: ties are not broken by insertion order: after pushing the identifiers
1, 2, 3, all with priority 1, into the empty queue, three pops return the
identifiers in the order 1, 3, 2. -/
theorem ties_not_in_push_order :
    ∃ items : List Item, (∀ x ∈ items, x.priority = F64.fin 1) ∧
      items.map (fun x => x.value) = [1, 2, 3] ∧
      ∃ pq popped, pushAll items [] = .ok pq ∧ popN items.length pq = .ok (popped, []) ∧
        popped.map (fun x => x.value) = [1, 3, 2] ∧
        popped.map (fun x => x.value) ≠ items.map (fun x => x.value) :=
  ⟨[⟨1, .fin 1, 0⟩, ⟨2, .fin 1, 0⟩, ⟨3, .fin 1, 0⟩], by decide, by decide,
    [⟨1, .fin 1, 0⟩, ⟨2, .fin 1, 1⟩, ⟨3, .fin 1, 2⟩],
    [⟨1, .fin 1, -1⟩, ⟨3, .fin 1, -1⟩, ⟨2, .fin 1, -1⟩],
    by decide, by decide, by decide, by decide⟩

/-- C17: with duplicate identifiers `update` picks its entry by array slot, not by
push order: after push(7, 5) and push(7, 1) the entry pushed later (priority 1)
stands in slot 0 and the earlier one (priority 5) in slot 1; `update(7, 10)`
matches slot 0, so the later entry gets priority 10 (and ends in slot 1), while
the earlier entry keeps priority 5 (and ends in slot 0). -/
theorem update_picks_by_slot :
    pushAll [⟨7, .fin 5, 0⟩, ⟨7, .fin 1, 0⟩] [] = .ok [⟨7, .fin 1, 0⟩, ⟨7, .fin 5, 1⟩] ∧
    firstMatch 7 [⟨7, .fin 1, 0⟩, ⟨7, .fin 5, 1⟩] = some (0, ⟨7, .fin 1, 0⟩) ∧
    update [⟨7, .fin 1, 0⟩, ⟨7, .fin 5, 1⟩] 7 (.fin 10)
      = .ok [⟨7, .fin 5, 0⟩, ⟨7, .fin 10, 1⟩] ∧
    updateT [⟨7, .fin 1, 0⟩, ⟨7, .fin 5, 1⟩] 7 (.fin 10) 0
      = .ok ([⟨7, .fin 5, 0⟩, ⟨7, .fin 10, 1⟩], 1) ∧
    updateT [⟨7, .fin 1, 0⟩, ⟨7, .fin 5, 1⟩] 7 (.fin 10) 1
      = .ok ([⟨7, .fin 5, 0⟩, ⟨7, .fin 10, 1⟩], 0) := by
  decide

end Routing
